import Mathlib

/-!
Verification development for the `stateful` state-machine transformation
(mar/smir construction passes and the cfg prototype builder).

Each section embeds one phase of the source:
* `Smir` — the transition detector of `src/smir/build/transition.rs`.
* `Cfg` — the prototype CFG builder of `src/cfg.rs`.
* `MarBuild` — the mar construction pass (`src/mar/build/*`) on the
  desugared statement fragment it supports, plus the state-machine
  execution model of the translated output (`src/mar/translate/mod.rs`).
* `MarStmt` — the `let`/shadowing handling of `src/mar/build/stmt.rs`.
* `Desugar` — the for-loop desugaring of `src/mar/build/expr.rs`.
-/

namespace Smir

/-- A path as tested by `is_yield_path`: a `global` flag and its segments. -/
structure Path where
  global : Bool
  segments : List String
deriving DecidableEq, Repr

/-- `is_yield_path` from transition.rs: the path is the single non-global
segment `yield_`. -/
def is_yield_path (p : Path) : Bool :=
  !p.global && p.segments == ["yield_"]

/-- `is_transition_path` from transition.rs: currently only the yield path. -/
def is_transition_path (p : Path) : Bool :=
  if is_yield_path p then true else false

mutual
/-- Expressions of the 2016 libsyntax fragment the visitor distinguishes:
`ExprRet`, `ExprBreak`, `ExprAgain`, `ExprMac`, `ExprPath` (with no qself),
plus representative walked shapes (blocks, loops, ifs, calls, closures,
literals).  Labels are identifiers (strings). -/
inductive AExpr where
  | ret (value : Option AExpr)
  | brk (label : Option String)
  | again (label : Option String)
  | macE (path : Path)
  | pathE (path : Path)
  | blockE (b : ABlock)
  | loopE (body : ABlock) (label : Option String)
  | ifE (cond : AExpr) (thn : ABlock) (els : Option AExpr)
  | call (f : AExpr) (arg : AExpr)
  | closure (body : ABlock)
  | lit (n : Nat)

/-- Statements: macro statements (`StmtMac`), expression statements,
local declarations with an optional initializer, and nested item
declarations carrying a function body. -/
inductive AStmt where
  | macS (path : Path)
  | semiS (e : AExpr)
  | exprS (e : AExpr)
  | localS (init : Option AExpr)
  | itemS (fnBody : ABlock)

/-- A block is a list of statements. -/
inductive ABlock where
  | nil
  | cons (s : AStmt) (b : ABlock)
end

mutual
/-- `ContainsTransitionVisitor::visit_expr` together with libsyntax's
`walk_expr`: the `inside_loop` flag is fixed for the whole traversal; the
default walk descends into loop bodies and closure bodies; `visit_mac` is
overridden to do nothing, so macro arguments are never inspected. -/
def visitExpr (il : Bool) : AExpr → Bool
  | .ret (some _) => true
  | .ret none => false
  | .brk _ => il
  | .again _ => il
  | .macE p => is_transition_path p
  | .pathE p => is_transition_path p
  | .blockE b => visitBlock il b
  | .loopE body _ => visitBlock il body
  | .ifE c t e =>
    visitExpr il c || (visitBlock il t ||
      (match e with
       | some e' => visitExpr il e'
       | none => false))
  | .call f a => visitExpr il f || visitExpr il a
  | .closure body => visitBlock il body
  | .lit _ => false

/-- `visit_stmt`: a macro statement whose path is the yield path is a
transition; everything else is walked. -/
def visitStmt (il : Bool) : AStmt → Bool
  | .macS p => is_yield_path p
  | .semiS e => visitExpr il e
  | .exprS e => visitExpr il e
  | .localS (some e) => visitExpr il e
  | .localS none => false
  | .itemS body => visitBlock il body

/-- `visit_block` = walk all statements. -/
def visitBlock (il : Bool) : ABlock → Bool
  | .nil => false
  | .cons s b => visitStmt il s || visitBlock il b
end

/-- `ContainsTransition for ast::Expr`: run the visitor from an expression. -/
def contains_transition (e : AExpr) (inside_loop : Bool) : Bool :=
  visitExpr inside_loop e

/-- `ContainsTransition for ast::Stmt`. -/
def contains_transition_stmt (s : AStmt) (inside_loop : Bool) : Bool :=
  visitStmt inside_loop s

/-! ### The claim's predicate, written from the spec's words

"returns true iff the subtree contains a `return` with a value, OR
(`inside_loop` is true AND the subtree contains a `break`/`continue` not
nested inside a closer loop that would itself absorb it), OR the subtree
directly contains a suspension marker.  Must not descend into nested
function/closure bodies." -/

mutual
/-- Spec: subtree contains a `return` with a value; nested function and
closure bodies are not entered. -/
def specRetE : AExpr → Bool
  | .ret (some _) => true
  | .ret none => false
  | .brk _ => false
  | .again _ => false
  | .macE _ => false
  | .pathE _ => false
  | .blockE b => specRetB b
  | .loopE body _ => specRetB body
  | .ifE c t e =>
    specRetE c || (specRetB t ||
      (match e with | some e' => specRetE e' | none => false))
  | .call f a => specRetE f || specRetE a
  | .closure _ => false
  | .lit _ => false

def specRetS : AStmt → Bool
  | .macS _ => false
  | .semiS e => specRetE e
  | .exprS e => specRetE e
  | .localS (some e) => specRetE e
  | .localS none => false
  | .itemS _ => false

def specRetB : ABlock → Bool
  | .nil => false
  | .cons s b => specRetS s || specRetB b
end

mutual
/-- Spec: subtree contains the yield suspension marker; nested function and
closure bodies are not entered. -/
def specYieldE : AExpr → Bool
  | .ret (some v) => specYieldE v
  | .ret none => false
  | .brk _ => false
  | .again _ => false
  | .macE p => is_yield_path p
  | .pathE p => is_yield_path p
  | .blockE b => specYieldB b
  | .loopE body _ => specYieldB body
  | .ifE c t e =>
    specYieldE c || (specYieldB t ||
      (match e with | some e' => specYieldE e' | none => false))
  | .call f a => specYieldE f || specYieldE a
  | .closure _ => false
  | .lit _ => false

def specYieldS : AStmt → Bool
  | .macS p => is_yield_path p
  | .semiS e => specYieldE e
  | .exprS e => specYieldE e
  | .localS (some e) => specYieldE e
  | .localS none => false
  | .itemS _ => false

def specYieldB : ABlock → Bool
  | .nil => false
  | .cons s b => specYieldS s || specYieldB b
end

mutual
/-- Spec: subtree contains a `break`/`continue` not absorbed by a closer
nested loop.  `crossedLoop` says whether any loop of the subtree encloses
the current position; `crossedLabels` lists the labels of such loops.  An
unlabeled jump is absorbed by any closer loop; a labeled jump only by a
closer loop carrying its label.  Nested function and closure bodies are not
entered. -/
def specJumpE (crossedLoop : Bool) (crossedLabels : List String) : AExpr → Bool
  | .ret (some v) => specJumpE crossedLoop crossedLabels v
  | .ret none => false
  | .brk none => !crossedLoop
  | .brk (some l) => !(crossedLabels.contains l)
  | .again none => !crossedLoop
  | .again (some l) => !(crossedLabels.contains l)
  | .macE _ => false
  | .pathE _ => false
  | .blockE b => specJumpB crossedLoop crossedLabels b
  | .loopE body lbl => specJumpB true (crossedLabels ++ lbl.toList) body
  | .ifE c t e =>
    specJumpE crossedLoop crossedLabels c || (specJumpB crossedLoop crossedLabels t ||
      (match e with | some e' => specJumpE crossedLoop crossedLabels e' | none => false))
  | .call f a => specJumpE crossedLoop crossedLabels f || specJumpE crossedLoop crossedLabels a
  | .closure _ => false
  | .lit _ => false

def specJumpS (crossedLoop : Bool) (crossedLabels : List String) : AStmt → Bool
  | .macS _ => false
  | .semiS e => specJumpE crossedLoop crossedLabels e
  | .exprS e => specJumpE crossedLoop crossedLabels e
  | .localS (some e) => specJumpE crossedLoop crossedLabels e
  | .localS none => false
  | .itemS _ => false

def specJumpB (crossedLoop : Bool) (crossedLabels : List String) : ABlock → Bool
  | .nil => false
  | .cons s b =>
    specJumpS crossedLoop crossedLabels s || specJumpB crossedLoop crossedLabels b
end

/-- The claim's full predicate for an expression subtree. -/
def claimSpec (e : AExpr) (inside_loop : Bool) : Bool :=
  specRetE e || ((inside_loop && specJumpE false [] e) || specYieldE e)

/-! ### What the code actually computes

`inside_loop` is fixed for the traversal, so every `break`/`continue` in
the subtree counts once the flag is set, even one absorbed by a closer
loop; and the default walk enters closure and nested-item function bodies. -/

mutual
/-- Any `return` with a value, entering closure and item bodies, skipping
macro arguments (the visitor's `visit_mac` is a no-op). -/
def hasRetE : AExpr → Bool
  | .ret (some _) => true
  | .ret none => false
  | .brk _ => false
  | .again _ => false
  | .macE _ => false
  | .pathE _ => false
  | .blockE b => hasRetB b
  | .loopE body _ => hasRetB body
  | .ifE c t e =>
    hasRetE c || (hasRetB t ||
      (match e with | some e' => hasRetE e' | none => false))
  | .call f a => hasRetE f || hasRetE a
  | .closure body => hasRetB body
  | .lit _ => false

def hasRetS : AStmt → Bool
  | .macS _ => false
  | .semiS e => hasRetE e
  | .exprS e => hasRetE e
  | .localS (some e) => hasRetE e
  | .localS none => false
  | .itemS body => hasRetB body

def hasRetB : ABlock → Bool
  | .nil => false
  | .cons s b => hasRetS s || hasRetB b
end

mutual
/-- Any `break` or `continue`, labeled or not, at any loop depth, entering
closure and item bodies; but nothing inside a `return`'s value is counted
(the visitor stops walking there, having already answered true). -/
def hasJumpE : AExpr → Bool
  | .ret _ => false
  | .brk _ => true
  | .again _ => true
  | .macE _ => false
  | .pathE _ => false
  | .blockE b => hasJumpB b
  | .loopE body _ => hasJumpB body
  | .ifE c t e =>
    hasJumpE c || (hasJumpB t ||
      (match e with | some e' => hasJumpE e' | none => false))
  | .call f a => hasJumpE f || hasJumpE a
  | .closure body => hasJumpB body
  | .lit _ => false

def hasJumpS : AStmt → Bool
  | .macS _ => false
  | .semiS e => hasJumpE e
  | .exprS e => hasJumpE e
  | .localS (some e) => hasJumpE e
  | .localS none => false
  | .itemS body => hasJumpB body

def hasJumpB : ABlock → Bool
  | .nil => false
  | .cons s b => hasJumpS s || hasJumpB b
end

mutual
/-- The yield marker anywhere outside macro arguments and outside a
valued `return` (where the visitor stops), entering closure/item bodies. -/
def hasYieldE : AExpr → Bool
  | .ret _ => false
  | .brk _ => false
  | .again _ => false
  | .macE p => is_transition_path p
  | .pathE p => is_transition_path p
  | .blockE b => hasYieldB b
  | .loopE body _ => hasYieldB body
  | .ifE c t e =>
    hasYieldE c || (hasYieldB t ||
      (match e with | some e' => hasYieldE e' | none => false))
  | .call f a => hasYieldE f || hasYieldE a
  | .closure body => hasYieldB body
  | .lit _ => false

def hasYieldS : AStmt → Bool
  | .macS p => is_yield_path p
  | .semiS e => hasYieldE e
  | .exprS e => hasYieldE e
  | .localS (some e) => hasYieldE e
  | .localS none => false
  | .itemS body => hasYieldB body

def hasYieldB : ABlock → Bool
  | .nil => false
  | .cons s b => hasYieldS s || hasYieldB b
end

mutual
/-- Decomposition of the visitor: the `inside_loop` flag gates exactly the
break/continue occurrences, everything else is flag-independent. -/
theorem visitExpr_eq (il : Bool) : (e : AExpr) →
    visitExpr il e = (hasRetE e || ((il && hasJumpE e) || hasYieldE e))
  | .ret (some _) => by simp [visitExpr, hasRetE, hasJumpE, hasYieldE]
  | .ret none => by simp [visitExpr, hasRetE, hasJumpE, hasYieldE]
  | .brk l => by cases il <;> simp [visitExpr, hasRetE, hasJumpE, hasYieldE]
  | .again l => by cases il <;> simp [visitExpr, hasRetE, hasJumpE, hasYieldE]
  | .macE p => by simp [visitExpr, hasRetE, hasJumpE, hasYieldE]
  | .pathE p => by simp [visitExpr, hasRetE, hasJumpE, hasYieldE]
  | .blockE b => by
    simp only [visitExpr, hasRetE, hasJumpE, hasYieldE]
    exact visitBlock_eq il b
  | .loopE body _ => by
    simp only [visitExpr, hasRetE, hasJumpE, hasYieldE]
    exact visitBlock_eq il body
  | .ifE c t none => by
    simp only [visitExpr, hasRetE, hasJumpE, hasYieldE,
      visitExpr_eq il c, visitBlock_eq il t]
    cases il <;> cases hasRetE c <;> cases hasJumpE c <;> cases hasYieldE c <;>
      cases hasRetB t <;> cases hasJumpB t <;> cases hasYieldB t <;> rfl
  | .ifE c t (some e') => by
    simp only [visitExpr, hasRetE, hasJumpE, hasYieldE,
      visitExpr_eq il c, visitBlock_eq il t, visitExpr_eq il e']
    cases il <;> cases hasRetE c <;> cases hasJumpE c <;> cases hasYieldE c <;>
      cases hasRetB t <;> cases hasJumpB t <;> cases hasYieldB t <;>
      cases hasRetE e' <;> cases hasJumpE e' <;> cases hasYieldE e' <;> rfl
  | .call f a => by
    simp only [visitExpr, hasRetE, hasJumpE, hasYieldE,
      visitExpr_eq il f, visitExpr_eq il a]
    cases il <;> cases hasRetE f <;> cases hasJumpE f <;> cases hasYieldE f <;>
      cases hasRetE a <;> cases hasJumpE a <;> cases hasYieldE a <;> rfl
  | .closure body => by
    simp only [visitExpr, hasRetE, hasJumpE, hasYieldE]
    exact visitBlock_eq il body
  | .lit _ => by simp [visitExpr, hasRetE, hasJumpE, hasYieldE]

theorem visitStmt_eq (il : Bool) : (s : AStmt) →
    visitStmt il s = (hasRetS s || ((il && hasJumpS s) || hasYieldS s))
  | .macS p => by simp [visitStmt, hasRetS, hasJumpS, hasYieldS]
  | .semiS e => by
    simp only [visitStmt, hasRetS, hasJumpS, hasYieldS]
    exact visitExpr_eq il e
  | .exprS e => by
    simp only [visitStmt, hasRetS, hasJumpS, hasYieldS]
    exact visitExpr_eq il e
  | .localS (some e) => by
    simp only [visitStmt, hasRetS, hasJumpS, hasYieldS]
    exact visitExpr_eq il e
  | .localS none => by simp [visitStmt, hasRetS, hasJumpS, hasYieldS]
  | .itemS body => by
    simp only [visitStmt, hasRetS, hasJumpS, hasYieldS]
    exact visitBlock_eq il body

theorem visitBlock_eq (il : Bool) : (b : ABlock) →
    visitBlock il b = (hasRetB b || ((il && hasJumpB b) || hasYieldB b))
  | .nil => by simp [visitBlock, hasRetB, hasJumpB, hasYieldB]
  | .cons s b => by
    simp only [visitBlock, hasRetB, hasJumpB, hasYieldB,
      visitStmt_eq il s, visitBlock_eq il b]
    cases il <;> cases hasRetS s <;> cases hasJumpS s <;> cases hasYieldS s <;>
      cases hasRetB b <;> cases hasJumpB b <;> cases hasYieldB b <;> rfl
end

/-- C2 (counterexample): at the subtree `loop { break; }` with
`inside_loop = true`, the code's detector answers `true` — the fixed
`inside_loop` flag counts the `break` even though the closer nested loop
absorbs it — while the claim's predicate answers `false`.  So
`contains_transition` does not satisfy the claimed iff. -/
theorem contains_transition_counterexample :
    contains_transition (.loopE (.cons (.semiS (.brk none)) .nil) none) true = true ∧
    claimSpec (.loopE (.cons (.semiS (.brk none)) .nil) none) true = false := by
  decide

/-- C2a (amended): `contains_transition(node, inside_loop)` returns true iff
the subtree contains a `return` with a value, or `inside_loop` is true and
the subtree contains *any* `break`/`continue` (even one absorbed by a
closer nested loop inside the subtree), or the subtree contains the
`yield_` suspension marker (as a macro statement/expression or a bare
`yield_` path) outside macro arguments; the traversal does descend into
nested closure and item function bodies, and does not walk inside the
value of a `return` it has already counted. -/
theorem contains_transition_characterization (il : Bool) (e : AExpr) :
    contains_transition e il =
      (hasRetE e || ((il && hasJumpE e) || hasYieldE e)) :=
  visitExpr_eq il e

end Smir

namespace Cfg

/-!
Embedding of the prototype builder in `src/cfg.rs` (2015-era libsyntax
shapes).  `panic!`, failed `assert!` and `Option::unwrap` on `None` abort
the process; they are modelled as `Except.error` carrying the panic
message, distinct from any recorded diagnostic.  `span_warn` output is
collected in the state.  The `block`/`block_inner` helpers are inlined at
their call sites (`expr_block`, `expr_loop`, `expr_if`), which also
perform their trailing-expression check.
-/

mutual
/-- Expressions: `ExprRet`, `ExprAgain`, `ExprBreak`, `ExprBlock`,
`ExprLoop`, `ExprIf`, plus opaque literals. -/
inductive CExpr where
  | ret (v : Option CExpr)
  | again (lbl : Option String)
  | brk (lbl : Option String)
  | blockE (b : CBlock)
  | loopE (b : CBlock) (lbl : Option String)
  | ifE (cond : CExpr) (thn : CBlock) (els : Option CExpr)
  | lit (n : Nat)

/-- Statements: local declarations (`StmtDecl`/`DeclLocal`, carrying the
pattern's identifiers and an optional initializer), `StmtSemi`, and other
passthrough statements. -/
inductive CStmt where
  | declS (ids : List String) (init : Option CExpr)
  | semiS (e : CExpr)
  | exprS (e : CExpr)

/-- `ast::Block`: statements plus an optional trailing expression. -/
inductive CBlock where
  | mk (stmts : CStmtList) (expr : Option CExpr)

inductive CStmtList where
  | nil
  | cons (s : CStmt) (t : CStmtList)
end

mutual
/-- The visitor inside `CFGBuilder::contains_transition_expr`:
`ExprRet(Some(_))` is a transition; `ExprBreak(_)`/`ExprAgain(_)` are
transitions when `inside_loop` holds; everything else is walked with the
same fixed flag. -/
def ctExpr (il : Bool) : CExpr → Bool
  | .ret (some _) => true
  | .ret none => false
  | .again _ => il
  | .brk _ => il
  | .blockE b => ctBlock il b
  | .loopE b _ => ctBlock il b
  | .ifE c t e =>
    ctExpr il c || (ctBlock il t ||
      (match e with | some e' => ctExpr il e' | none => false))
  | .lit _ => false

def ctStmt (il : Bool) : CStmt → Bool
  | .declS _ (some e) => ctExpr il e
  | .declS _ none => false
  | .semiS e => ctExpr il e
  | .exprS e => ctExpr il e

def ctBlock (il : Bool) : CBlock → Bool
  | .mk l e =>
    ctStmtList il l ||
      (match e with | some e' => ctExpr il e' | none => false)

def ctStmtList (il : Bool) : CStmtList → Bool
  | .nil => false
  | .cons s t => ctStmt il s || ctStmtList il t
end

/-- The `Stmt` enum stored in basic blocks (cfg.rs): verbatim statements,
`Goto`, `Yield` and `If`. -/
inductive GStmt where
  | stmtG (s : CStmt)
  | goto (dst : Nat)
  | yieldG (dst : Nat) (e : CExpr)
  | ifG (cond : CExpr) (thn : Nat) (els : Nat)

/-- Graph nodes: basic blocks (name, entry declarations, statements) or the
`Exit` node. -/
inductive Node where
  | bb (name : String) (decls : List String) (stmts : List GStmt)
  | exitN

/-- The builder state: the node arena, the edge list, the labeled-loop map
(association list of label to stack), the unlabeled loop stack, and the
collected `span_warn` messages. -/
structure CfgSt where
  graph : Array Node
  edges : List (Nat × Nat)
  labeledLoopMap : List (String × List (Nat × Nat))
  unlabeledLoopStack : List (Nat × Nat)
  warnings : List String

/-- A process abort (a `panic!`, a failed `assert!`, or `unwrap` on
`None`), with its message. -/
inductive CPanic where
  | panicked (msg : String)
deriving Repr, DecidableEq

/-- The builder's effect: state passing that can abort. -/
def CfgM (α : Type) : Type := CfgSt → Except CPanic (CfgSt × α)

instance : Monad CfgM where
  pure a := fun s => .ok (s, a)
  bind m f := fun s => match m s with
    | .ok (s', a) => f a s'
    | .error e => .error e

/-- Read the state. -/
def getSt : CfgM CfgSt := fun s => .ok (s, s)

/-- Replace the state. -/
def setSt (s : CfgSt) : CfgM Unit := fun _ => .ok (s, ())

/-- Abort (panic). -/
def panicM {α : Type} (msg : String) : CfgM α := fun _ => .error (.panicked msg)

/-- `contains_transition_expr`: `inside_loop` is seeded from whether the
unlabeled loop stack is nonempty. -/
def contains_transition_expr (st : CfgSt) (e : CExpr) : Bool :=
  ctExpr (!st.unlabeledLoopStack.isEmpty) e

/-- `add_edge`. -/
def add_edge (src dst : Nat) : CfgM Unit := fun st =>
  .ok ({ st with edges := st.edges ++ [(src, dst)] }, ())

/-- `add_bb`: append a basic block, returning its index. -/
def add_bb (name : String) (scope : List String) : CfgM Nat := fun st =>
  .ok ({ st with graph := st.graph.push (.bb name scope []) }, st.graph.size)

/-- `add_stmt`, via `get_node_mut`: panics on the `Exit` node or a missing
index. -/
def add_stmt (nx : Nat) (g : GStmt) : CfgM Unit := fun st =>
  match st.graph[nx]? with
  | some (.bb name decls stmts) =>
    .ok ({ st with graph := st.graph.modify nx fun _ => .bb name decls (stmts ++ [g]) }, ())
  | some .exitN => .error (.panicked "node is not a basic block")
  | none => .error (.panicked "missing node!")

/-- `goto`: an edge plus a `Goto` statement. -/
def gotoC (src dst : Nat) : CfgM Unit := do
  add_edge src dst
  add_stmt src (.goto dst)

/-- `yield_`: allocate the resume block, add the edge and the `Yield`
statement, return the resume block. -/
def yield_C (src : Nat) (e : CExpr) (scope : List String) : CfgM Nat := do
  let dst ← add_bb "Yield" scope
  add_edge src dst
  add_stmt src (.yieldG dst e)
  pure dst

/-- Apply a pure update to the state. -/
def modifySt (f : CfgSt → CfgSt) : CfgM Unit := fun st => .ok (f st, ())

/-- Push an entry onto a label's stack in the labeled-loop map. -/
def mapPush (m : List (String × List (Nat × Nat))) (l : String) (v : Nat × Nat) :
    List (String × List (Nat × Nat)) :=
  match m with
  | [] => [(l, [v])]
  | (k, st) :: rest =>
    if k == l then (k, st ++ [v]) :: rest else (k, st) :: mapPush rest l v

/-- Pop the top entry from a label's stack in the labeled-loop map. -/
def mapPop (m : List (String × List (Nat × Nat))) (l : String) :
    List (String × List (Nat × Nat)) :=
  match m with
  | [] => []
  | (k, st) :: rest =>
    if k == l then (k, st.dropLast) :: rest else (k, st) :: mapPop rest l

mutual
/-- Fold the statements of a block against a predecessor node with a
(locally cloned) scope — the loop inside `block_inner`. -/
def stmtListC : CStmtList → Nat → List String → CfgM (Nat × List String)
  | .nil, pred, scope => pure (pred, scope)
  | .cons s t, pred, scope => do
    let (pred', scope') ← stmtC s pred scope
    stmtListC t pred' scope'
termination_by l _ _ => sizeOf l
decreasing_by all_goals (simp_wf <;> omega)

/-- `CFGBuilder::stmt`: local declarations extend the scope and pass
through verbatim; a `StmtSemi` containing a transition is dispatched to
`stmt_semi`; everything else passes through verbatim. -/
def stmtC : CStmt → Nat → List String → CfgM (Nat × List String)
  | .declS ids init, pred, scope => do
    add_stmt pred (.stmtG (.declS ids init))
    pure (pred, scope ++ ids)
  | .semiS e, pred, scope => do
    let st ← getSt
    if contains_transition_expr st e then do
      let pred' ← stmt_semiC e pred scope
      pure (pred', scope)
    else do
      add_stmt pred (.stmtG (.semiS e))
      pure (pred, scope)
  | .exprS e, pred, scope => do
    add_stmt pred (.stmtG (.exprS e))
    pure (pred, scope)
termination_by s _ _ => sizeOf s
decreasing_by all_goals (simp_wf <;> omega)

/-- `CFGBuilder::stmt_semi` (cfg.rs lines 146-186).  `return expr` is the
suspension of this design; empty returns and labeled break/continue panic;
unlabeled break/continue `unwrap` the top of the unlabeled loop stack —
panicking when no loop is open. -/
def stmt_semiC : CExpr → Nat → List String → CfgM Nat
  | .ret (some e), pred, scope => yield_C pred e scope
  | .ret none, _, _ => panicM "cannot handle empty returns yet"
  | .again (some _), _, _ => panicM "cannot handle labeled continues yet"
  | .again none, pred, _ => do
    let st ← getSt
    match st.unlabeledLoopStack.getLast? with
    | none => panicM "called Option::unwrap() on a None value"
    | some top => do
      gotoC pred top.1
      pure pred
  | .brk (some _), _, _ => panicM "cannot handle labeled breaks yet"
  | .brk none, pred, _ => do
    let st ← getSt
    match st.unlabeledLoopStack.getLast? with
    | none => panicM "called Option::unwrap() on a None value"
    | some top => do
      gotoC pred top.2
      pure pred
  | .blockE b, pred, scope => expr_blockC b pred scope
  | .loopE b lbl, pred, scope => expr_loopC b lbl pred scope
  | .ifE cond thn els, pred, scope => expr_ifC cond thn els pred scope
  | .lit _, _, _ => panicM "cannot handle expr yet"
termination_by e _ _ => sizeOf e
decreasing_by all_goals (simp_wf <;> omega)

/-- `expr_block` = `block`: run `block_inner` (inlined: fold the statements
then reject a trailing expression) and route the result into a fresh
`BlockExit` node. -/
def expr_blockC : CBlock → Nat → List String → CfgM Nat
  | .mk stmts ex, pred, scope => do
    let (pred', _) ← stmtListC stmts pred scope
    match ex with
    | some _ => panicM "cannot handle block expressions yet"
    | none => do
      let exitB ← add_bb "BlockExit" scope
      gotoC pred' exitB
      pure exitB
termination_by b _ _ => sizeOf b
decreasing_by all_goals (simp_wf <;> omega)

/-- `expr_loop` (cfg.rs lines 195-238): allocate entry/exit, push the loop
stacks (warning on a shadowed label), translate the body with `block_inner`
inlined, add the back edge, pop the stacks. -/
def expr_loopC : CBlock → Option String → Nat → List String → CfgM Nat
  | .mk stmts ex, lbl, pred, scope => do
    let loopEntry ← add_bb "LoopEntry" scope
    let loopExit ← add_bb "LoopExit" scope
    gotoC pred loopEntry
    modifySt fun st =>
      { st with unlabeledLoopStack := st.unlabeledLoopStack ++ [(loopEntry, loopExit)] }
    (match lbl with
     | some l => do
       let st ← getSt
       if (st.labeledLoopMap.lookup l).isSome then
         modifySt fun st =>
           { st with
             warnings := st.warnings ++
               ["label name " ++ l ++ " shadows a label name that is already in scope"],
             labeledLoopMap := mapPush st.labeledLoopMap l (loopEntry, loopExit) }
       else
         modifySt fun st =>
           { st with labeledLoopMap := mapPush st.labeledLoopMap l (loopEntry, loopExit) }
     | none => pure ())
    let (pred', _) ← stmtListC stmts loopEntry scope
    match ex with
    | some _ => panicM "cannot handle block expressions yet"
    | none => do
      gotoC pred' loopEntry
      modifySt fun st =>
        { st with unlabeledLoopStack := st.unlabeledLoopStack.dropLast }
      (match lbl with
       | some l => modifySt fun st =>
           { st with labeledLoopMap := mapPop st.labeledLoopMap l }
       | none => pure ())
      pure loopExit
termination_by b _ _ _ => sizeOf b
decreasing_by all_goals (simp_wf <;> omega)

/-- `expr_if` (cfg.rs lines 240-277): `assert!` that the condition contains
no transition (a failed assertion is a process panic) and that the then
block has no trailing expression; then allocate `Then`/`Else`/`EndIf`,
record the `If` statement and edges, translate the then block, wrap the
optional else expression in a one-statement block (inlined `block_inner`),
and join at `EndIf`. -/
def expr_ifC : CExpr → CBlock → Option CExpr → Nat → List String → CfgM Nat
  | cond, .mk thnStmts thnEx, els, pred, scope => do
    let st ← getSt
    if contains_transition_expr st cond then
      panicM "assertion failed: !self.contains_transition_expr(expr)"
    else
      match thnEx with
      | some _ => panicM "assertion failed: then.expr.is_none()"
      | none => do
        let thenNx ← add_bb "Then" scope
        let elseNx ← add_bb "Else" scope
        let endifNx ← add_bb "EndIf" scope
        add_stmt pred (.ifG cond thenNx elseNx)
        add_edge pred thenNx
        add_edge pred elseNx
        let (pred1, _) ← stmtListC thnStmts thenNx scope
        gotoC pred1 endifNx
        let pred2 ←
          (match els with
           | some e => do
             let st2 ← getSt
             if contains_transition_expr st2 e then
               stmt_semiC e elseNx scope
             else do
               add_stmt elseNx (.stmtG (.semiS e))
               pure elseNx
           | none => pure elseNx)
        gotoC pred2 endifNx
        pure endifNx
termination_by cond thn els _ _ => sizeOf cond + sizeOf thn + sizeOf els
decreasing_by all_goals (simp_wf <;> omega)
end

/-- C4 (counterexample): for the if-statement `if (return 1) {} ` — whose
condition contains a transition — translated from a one-block graph with no
open loops, `expr_if` hits `assert!(!self.contains_transition_expr(expr))`
and the process panics.  No located diagnostic is produced and no `.ok`
result is returned, contradicting "reports a construction-time error at
the offending node's source location ... does not ... crash the process". -/
theorem expr_if_claim_counterexample :
    (expr_ifC (.ret (some (.lit 1))) (.mk .nil none) none 0 []
        ⟨#[.bb "Entry" [] []], [], [], [], []⟩ =
      .error (.panicked "assertion failed: !self.contains_transition_expr(expr)")) ∧
    ∀ r, expr_ifC (.ret (some (.lit 1))) (.mk .nil none) none 0 []
        ⟨#[.bb "Entry" [] []], [], [], [], []⟩ ≠ .ok r := by
  have hc : contains_transition_expr ⟨#[.bb "Entry" [] []], [], [], [], []⟩
      (.ret (some (.lit 1))) = true := by decide
  have h : expr_ifC (.ret (some (.lit 1))) (.mk .nil none) none 0 []
      ⟨#[.bb "Entry" [] []], [], [], [], []⟩ =
      .error (.panicked "assertion failed: !self.contains_transition_expr(expr)") := by
    rw [expr_ifC.eq_def]
    simp [getSt, panicM, Bind.bind, hc]
  exact ⟨h, fun r hr => by rw [h] at hr; exact Except.noConfusion hr⟩

/-- C4 (amended): in the cfg builder, an `if` whose condition contains a
transition is rejected by a failed `assert!` — a process panic carrying no
source location — rather than a reported construction-time error; the
enclosing translation is aborted by the panic itself. -/
theorem expr_if_transition_cond_asserts (cond : CExpr) (thn : CBlock) (els : Option CExpr)
    (pred : Nat) (scope : List String) (st : CfgSt)
    (h : contains_transition_expr st cond = true) :
    expr_ifC cond thn els pred scope st =
      .error (.panicked "assertion failed: !self.contains_transition_expr(expr)") := by
  cases thn with
  | mk stmts ex =>
    rw [expr_ifC.eq_def]
    simp [getSt, panicM, h, Bind.bind]

/-- Witness for the amended C4 theorem at a concrete transitioning
condition. -/
theorem expr_if_transition_cond_asserts_witness :
    contains_transition_expr ⟨#[.bb "Entry" [] []], [], [], [], []⟩
        (.ret (some (.lit 1))) = true ∧
    expr_ifC (.ret (some (.lit 1))) (.mk .nil none) none 0 []
        ⟨#[.bb "Entry" [] []], [], [], [], []⟩ =
      .error (.panicked "assertion failed: !self.contains_transition_expr(expr)") :=
  ⟨by decide,
   expr_if_transition_cond_asserts (.ret (some (.lit 1))) (.mk .nil none) none 0 []
     ⟨#[.bb "Entry" [] []], [], [], [], []⟩ (by decide)⟩

end Cfg

namespace MarBuild

/-!
Embedding of the mar construction pass (`src/mar/build/mod.rs`,
`src/mar/build/stmt.rs`, `src/mar/build/expr.rs`,
`src/mar/build/expr/stmt.rs`) over the desugared statement fragment it
supports: opaque passthrough statements, `yield_!(e)`, `return e`,
`break`/`continue` (optionally labeled), `if`, and unconditional `loop`
(the `for`/`while`/`if let`/`while let` sugar is rewritten into these
first — see the `Desugar` namespace).

Opaque expressions (conditions, yield values, return values, passthrough
statement bodies) are represented by `Nat` identifiers; an environment
(the trace of opaque statements executed so far) together with evaluation
functions `C` (conditions) and `V` (values) interprets them.

Where the deciding code is not under `src/` (only its callers are), the
definition is modelled from the spec and says so in its doc comment:
`find_loop_scope`, `exit_scope`, `push_scope`/`pop_scope` and the
suspension-point lowering (`mar/build/scope.rs` and `mar/build/mac.rs`
are absent), and the execution model of the synthesized state machine
(`mar/translate/state.rs` is absent).
-/

mutual
/-- The desugared statement fragment.  `pass` is a statement with no
transition inside (kept verbatim); `sp` fields are source spans. -/
inductive FStmt where
  | pass (sid : Nat)
  | yieldS (e : Nat)
  | retS (sp : Nat) (val : Nat)
  | breakS (sp : Nat) (lbl : Option Nat)
  | contS (sp : Nat) (lbl : Option Nat)
  | ifS (cond : Nat) (thn : FStmtList) (els : FStmtList)
  | loopS (lbl : Option Nat) (body : FStmtList)

inductive FStmtList where
  | nil
  | cons (s : FStmt) (ss : FStmtList)
end

mutual
/-- The transition detector on the fragment, per
`src/smir/build/transition.rs`: yields and valued returns are transitions;
`break`/`continue` are transitions exactly when the flag is set; the flag
is fixed for the whole subtree (it does not reset under a nested loop). -/
def ctF (il : Bool) : FStmt → Bool
  | .pass _ => false
  | .yieldS _ => true
  | .retS _ _ => true
  | .breakS _ _ => il
  | .contS _ _ => il
  | .ifS _ thn els => ctFs il thn || ctFs il els
  | .loopS _ body => ctFs il body

def ctFs (il : Bool) : FStmtList → Bool
  | .nil => false
  | .cons s ss => ctF il s || ctFs il ss
end

/-- Statements stored in basic blocks: passthrough (`Statement::Expr`),
assignments (`Statement::Assign`, destination local and an optional value
— `none` assigns the unit value), and drop markers (`Statement::Drop`). -/
inductive MStmt where
  | exprS (s : FStmt)
  | assign (dst : Nat) (v : Option Nat)
  | dropS (decl : Nat)

/-- Terminators of the fragment (`TerminatorKind`): `Goto`, `If`,
`Suspend` and `Return`. -/
inductive STerm where
  | goto (target : Nat)
  | ite (cond : Nat) (thn : Nat) (els : Nat)
  | suspend (rv : Nat) (target : Nat)
  | retT
deriving DecidableEq

/-- `Terminator::successors` from `src/mar/repr.rs` (restricted to the
kinds the fragment produces): `Return` has no successors. -/
def STerm.successors : STerm → List Nat
  | .goto t => [t]
  | .ite _ t e => [t, e]
  | .suspend _ t => [t]
  | .retT => []

/-- A basic block: optional debug name, statements, optional terminator. -/
structure BBlock where
  name : Option String
  stmts : List MStmt
  term : Option STerm

/-- A loop scope (`scope::LoopScope`): label, continue and break targets,
enclosing extent.  The scope stack has its top at the head. -/
structure LoopScope where
  label : Option Nat
  continue_block : Nat
  break_block : Nat
  extent : Nat

/-- A lexical scope: its extent and the locals scheduled to drop at its
close.  Top of the stack at the head. -/
structure Scope where
  extent : Nat
  drops : List Nat

/-- A recorded diagnostic (`cx.span_err`): span and message. -/
structure Diag where
  sp : Nat
  msg : String

/-- The builder state, per `Builder` in `src/mar/build/mod.rs`: the block
arena, the loop-scope stack, the lexical-scope stack, and recorded
errors. -/
structure BSt where
  blocks : Array BBlock
  loop_scopes : List LoopScope
  scopes : List Scope
  errors : List Diag

def START_BLOCK : Nat := 0
def END_BLOCK : Nat := 1
def RETURN_POINTER : Nat := 0

/-- `start_new_block` (mod.rs): append a fresh block, return its index. -/
def startNewBlock (name : Option String) (st : BSt) : BSt × Nat :=
  ({ st with blocks := st.blocks.push ⟨name, [], none⟩ }, st.blocks.size)

/-- `terminate`: set the block's terminator. -/
def terminate (b : Nat) (t : STerm) (st : BSt) : BSt :=
  { st with blocks := st.blocks.modify b fun bb => { bb with term := some t } }

/-- `cfg.push`: append a statement to a block. -/
def pushStmt (b : Nat) (s : MStmt) (st : BSt) : BSt :=
  { st with blocks := st.blocks.modify b fun bb => { bb with stmts := bb.stmts ++ [s] } }

/-- `is_inside_loop` (mod.rs): whether any loop scope is open. -/
def isInsideLoop (st : BSt) : Bool :=
  !st.loop_scopes.isEmpty

/-- Record a `span_err` diagnostic. -/
def spanErr (sp : Nat) (msg : String) (st : BSt) : BSt :=
  { st with errors := st.errors ++ [⟨sp, msg⟩] }

/-- Modelled from the spec: `find_loop_scope` (`mar/build/scope.rs` is
absent).  "resolve target block from the unlabeled stack (no label) or
from the named-label stack's top entry (with label)": no label takes the
innermost loop scope, a label takes the innermost scope carrying it. -/
def findLoopScope (lbl : Option Nat) (st : BSt) : Option LoopScope :=
  match lbl with
  | none => st.loop_scopes.head?
  | some l => st.loop_scopes.find? fun ls => ls.label == some l

/-- The scopes from the top of the stack out to (and including) the one
with the given extent. -/
def scopesUpTo (extent : Nat) : List Scope → List Scope
  | [] => []
  | sc :: rest => if sc.extent == extent then [sc] else sc :: scopesUpTo extent rest

/-- Modelled from the spec: `exit_scope` (`mar/build/scope.rs` is absent).
"close all open scopes up to the ... extent (emitting their
drops/unshadows), terminate the current block with `Goto`" — emit the drop
markers scheduled by every scope out to `extent` into the current block,
then terminate it with a `Goto` to `target`. -/
def exitScope (_sp : Nat) (extent : Nat) (b : Nat) (target : Nat) (st : BSt) : BSt :=
  let ds := ((scopesUpTo extent st.scopes).map Scope.drops).flatten
  let st := ds.foldl (fun acc d => pushStmt b (.dropS d) acc) st
  terminate b (.goto target) st

/-- `push_scope` (modelled from the spec: open a lexical scope). -/
def pushScope (extent : Nat) (st : BSt) : BSt :=
  { st with scopes := ⟨extent, []⟩ :: st.scopes }

/-- Modelled from the spec: `pop_scope` — "On extent close, every local
declared within it that is still active receives a drop marker": emit the
top scope's scheduled drops into the current block and pop it. -/
def popScope (b : Nat) (st : BSt) : BSt :=
  match st.scopes with
  | [] => st
  | sc :: rest =>
    let st := sc.drops.foldl (fun acc d => pushStmt b (.dropS d) acc) st
    { st with scopes := rest }

/-- `extent_of_return_scope` (modelled from the spec: the function-level
extent, the one `construct` opens first). -/
def extent_of_return_scope (_st : BSt) : Nat := 0

/-- `return_block` (modelled from the spec: the designated end block). -/
def return_block : Nat := END_BLOCK

/-- `expr_ret` (`src/mar/build/expr/stmt.rs` lines 59-81): assign the
returned value (or unit) to `RETURN_POINTER`, exit to the return block
(emitting scope drops and the `Goto`), then open the fresh `AfterReturn`
continuation block.  The `into(Lvalue::Local(RETURN_POINTER), ..)` /
`assign_lvalue_unit` helpers are modelled as pushing the assignment. -/
def exprRet (b : Nat) (sp : Nat) (value : Option Nat) (st : BSt) : BSt × Nat :=
  let st := pushStmt b (.assign RETURN_POINTER value) st
  let extent := extent_of_return_scope st
  let st := exitScope sp extent b return_block st
  startNewBlock (some "AfterReturn") st

/-- `break_or_continue` (`src/mar/build/expr/stmt.rs` lines 83-102): a
jump while no loop is open reports `cannot break outside of a loop` at the
jump's span; the target loop scope is then resolved (modelled
`find_loop_scope`; a label miss is reported, per the spec), the current
block exits toward the selected target, and the fresh
`AfterBreakOrContinue` continuation block is opened. -/
def breakOrContinue (sp : Nat) (lbl : Option Nat) (b : Nat)
    (sel : LoopScope → Nat) (st : BSt) : BSt × Nat :=
  let st1 := if isInsideLoop st then st else spanErr sp "cannot break outside of a loop" st
  match findLoopScope lbl st1 with
  | some ls =>
    let st2 := exitScope sp ls.extent b (sel ls) st1
    startNewBlock (some "AfterBreakOrContinue") st2
  | none =>
    let st2 :=
      if isInsideLoop st1 then
        spanErr sp "break or continue to unknown label" st1
      else st1
    startNewBlock (some "AfterBreakOrContinue") st2

/-- Modelled from the spec (`mar/build/mac.rs` is absent): the suspension
lowering — "allocate a `resume` block; terminate the current block with
the suspend terminator carrying `expr` and `resume` as target; continue at
`resume`." -/
def exprYield (b : Nat) (e : Nat) (st : BSt) : BSt × Nat :=
  let (st1, resume) := startNewBlock (some "AfterYield") st
  (terminate b (.suspend e resume) st1, resume)

mutual
/-- Statement dispatch (`stmt.rs` `stmt` + `expr.rs` `expr`): a statement
with no transition — under `is_inside_loop` as the flag, per
`self.contains_transition(expr)` — is appended verbatim (`into`, modelled
as the passthrough push); otherwise it is flattened by shape.  Valued
returns follow `expr_ret` (the `expr/stmt.rs` design; the superseded
dispatcher in `expr.rs` raised `span_fatal` for them instead).

The `if` arm inlines `expr.rs` lines 44-74: allocate `Then` and `Else`,
terminate the predecessor with `If(cond, then, else)` — the condition is
kept verbatim, there is no check that it is transition-free (FIXME in the
source) — translate both arms, then allocate `IfJoin` and route both arm
ends into it.

The `loop` arm inlines `expr_loop` (`expr.rs` lines 253-311, condition
absent): allocate `Loop` and `LoopExit`, jump into the loop, push the loop
scope (`in_loop_scope`), translate the body against the loop block, close
the back edge, pop the loop scope; the continuation is the exit block. -/
def fstmt (extent : Nat) (b : Nat) (s : FStmt) (st : BSt) : BSt × Nat :=
  if ctF (isInsideLoop st) s = false then
    (pushStmt b (.exprS s) st, b)
  else
    match s with
    | .pass _ => (pushStmt b (.exprS s) st, b)
    | .yieldS e => exprYield b e st
    | .retS sp v => exprRet b sp (some v) st
    | .breakS sp l => breakOrContinue sp l b (fun ls => ls.break_block) st
    | .contS sp l => breakOrContinue sp l b (fun ls => ls.continue_block) st
    | .ifS c thn els =>
      let (st, thenB) := startNewBlock (some "Then") st
      let (st, elseB) := startNewBlock (some "Else") st
      let st := terminate b (.ite c thenB elseB) st
      let (st, thenEnd) := fstmts extent thenB thn st
      let (st, elseEnd) := fstmts extent elseB els st
      let (st, joinB) := startNewBlock (some "IfJoin") st
      let st := terminate thenEnd (.goto joinB) st
      let st := terminate elseEnd (.goto joinB) st
      (st, joinB)
    | .loopS lbl body =>
      let (st, loopB) := startNewBlock (some "Loop") st
      let (st, exitB) := startNewBlock (some "LoopExit") st
      let st := terminate b (.goto loopB) st
      let st := { st with loop_scopes := ⟨lbl, loopB, exitB, extent⟩ :: st.loop_scopes }
      let (st, bodyEnd) := fstmts extent loopB body st
      let st := terminate bodyEnd (.goto loopB) st
      let st := { st with loop_scopes := st.loop_scopes.tail }
      (st, exitB)

/-- `stmts` (stmt.rs lines 9-18): fold the statements, threading the
current block. -/
def fstmts (extent : Nat) (b : Nat) (ss : FStmtList) (st : BSt) : BSt × Nat :=
  match ss with
  | .nil => (st, b)
  | .cons s rest =>
    let (st', b') := fstmt extent b s st
    fstmts extent b' rest st'
end

/-- The final `Mar`: the block table and the collected errors (the other
`Mar` fields — signature metadata, declaration tables — do not affect the
claims below). -/
structure MarOut where
  blocks : Array BBlock
  errors : List Diag

/-- The drop-removal pass at the end of `construct` (mod.rs lines 80-88):
"The drops seem redundant, we are always moving values." -/
def removeDrops (blocks : Array BBlock) : Array BBlock :=
  blocks.map fun bb =>
    { bb with
      stmts := bb.stmts.filter fun s =>
        match s with
        | .dropS _ => false
        | _ => true }

/-- `construct` (mod.rs lines 29-104) on the fragment: open the
function-level extent and the `Start` (index 0) and `End` (index 1)
blocks, push the function scope, translate the body from `Start`, pop the
scope, route the final block to `End`, terminate `End` with `Return`, and
strip the drop markers. -/
def construct (body : FStmtList) : MarOut :=
  let st0 : BSt := ⟨#[], [], [], []⟩
  let extent := 0
  let (st, _s) := startNewBlock (some "Start") st0
  let (st, _e) := startNewBlock (some "End") st
  let st := pushScope extent st
  let (st, b) := fstmts extent START_BLOCK body st
  let st := popScope b st
  let st := terminate b (.goto END_BLOCK) st
  let st := terminate END_BLOCK .retT st
  { blocks := removeDrops st.blocks, errors := st.errors }

/-! ### Reference semantics of the fragment and execution of the machine

The direct semantics `dstep` executes the original (desugared) body
without suspending, collecting the values produced at suspension points.
The machine semantics (`runBlock`, `invoke`) is modelled from the spec
(§4.5/§5) and from the dispatch loop emitted by
`src/mar/translate/mod.rs` (`loop { match state { .. } }`), since
`mar/translate/state.rs` is absent: each arm replays its block's
statements and acts on the terminator; `Goto`/`If` continue inside the
same invocation, `Suspend` returns an observable value, `Return` finishes.

Both semantics are parametrized by evaluators for opaque expressions:
`C env c` decides a condition, `V env v` evaluates a value, where `env` is
the trace of opaque statements executed so far. -/

/-- Control outcome of executing a statement list directly. -/
inductive Ctl where
  | fall
  | brk (l : Option Nat)
  | cont (l : Option Nat)
  | retd
deriving DecidableEq, Repr

/-- The environment: the trace of executed opaque statements. -/
abbrev Env := List Nat

/-- A machine state variant: at a block with an environment (one variant
per reachable block, carrying its live data), or finished. -/
inductive MState where
  | at_ (b : Nat) (env : Env)
  | finished
deriving DecidableEq, Repr

section Semantics

variable (C : Env → Nat → Bool) (V : Env → Nat → Nat)

/-- Direct, non-suspending execution of a statement list with fuel:
returns the collected suspension-point outputs, the final environment and
the control outcome.  A `loop` executes its body, then either iterates
(fall-through, or a `continue` it matches) or resolves/propagates the
jump; fuel bounds the iteration count. -/
def dstep : Nat → Env → FStmtList → Option (List Nat × Env × Ctl)
  | _, env, .nil => some ([], env, .fall)
  | 0, _, .cons _ _ => none
  | fuel+1, env, .cons s ss =>
    let head : Option (List Nat × Env × Ctl) :=
      match s with
      | .pass sid => some ([], env ++ [sid], .fall)
      | .yieldS e => some ([V env e], env, .fall)
      | .retS _ _ => some ([], env, .retd)
      | .breakS _ l => some ([], env, .brk l)
      | .contS _ l => some ([], env, .cont l)
      | .ifS c thn els => if C env c then dstep fuel env thn else dstep fuel env els
      | .loopS lbl body =>
        match dstep fuel env body with
        | none => none
        | some (o, e', c) =>
          match c with
          | .fall =>
            (dstep fuel e' (.cons (.loopS lbl body) .nil)).map
              (fun r => (o ++ r.1, r.2.1, r.2.2))
          | .cont none =>
            (dstep fuel e' (.cons (.loopS lbl body) .nil)).map
              (fun r => (o ++ r.1, r.2.1, r.2.2))
          | .cont (some l) =>
            if lbl = some l then
              (dstep fuel e' (.cons (.loopS lbl body) .nil)).map
                (fun r => (o ++ r.1, r.2.1, r.2.2))
            else some (o, e', .cont (some l))
          | .brk none => some (o, e', .fall)
          | .brk (some l) =>
            if lbl = some l then some (o, e', .fall) else some (o, e', .brk (some l))
          | .retd => some (o, e', .retd)
    match head with
    | some (o, e', .fall) =>
      (dstep fuel e' ss).map (fun r => (o ++ r.1, r.2.1, r.2.2))
    | r => r

/-- Replay of a block's statement list by the machine: a passthrough
statement executes directly (it must produce no output and fall through —
anything else would be a stray transition inside emitted straight-line
code and the machine is stuck); assignments and drop markers do not touch
the opaque-statement trace. -/
def replay : Nat → Env → List MStmt → Option Env
  | _, env, [] => some env
  | 0, _, _ :: _ => none
  | fuel+1, env, m :: rest =>
    match m with
    | .exprS s =>
      match dstep C V fuel env (.cons s .nil) with
      | some ([], e', .fall) => replay fuel e' rest
      | _ => none
    | .assign _ _ => replay fuel env rest
    | .dropS _ => replay fuel env rest

/-- Machine execution from a block: replay the statements, act on the
terminator; `Suspend` contributes its value to the observable output
sequence (one value per driver invocation), `Return` finishes the
sequence.  Modelled from spec §4.5/§5 and the translate dispatch loop. -/
def runBlock (G : Array BBlock) : Nat → Nat → Env → Option (List Nat)
  | 0, _, _ => none
  | fuel+1, b, env =>
    match G[b]? with
    | none => none
    | some bb =>
      match replay C V fuel env bb.stmts with
      | none => none
      | some env' =>
        match bb.term with
        | some (.goto t) => runBlock G fuel t env'
        | some (.ite c t e) => runBlock G fuel (if C env' c then t else e) env'
        | some (.suspend v t) => (runBlock G fuel t env').map (fun r => V env' v :: r)
        | some .retT => some []
        | none => none

/-- Execution of the remainder of a block (statements still to replay plus
the terminator). -/
def stepTail (G : Array BBlock) (fuel : Nat) (stmts : List MStmt)
    (term : Option STerm) (env : Env) : Option (List Nat) :=
  match replay C V fuel env stmts with
  | none => none
  | some env' =>
    match term with
    | some (.goto t) => runBlock C V G fuel t env'
    | some (.ite c t e) => runBlock C V G fuel (if C env' c then t else e) env'
    | some (.suspend v t) => (runBlock C V G fuel t env').map (fun r => V env' v :: r)
    | some .retT => some []
    | none => none

/-- Execution of block `b` from statement position `k` onward. -/
def runTailAt (G : Array BBlock) (fuel : Nat) (b k : Nat) (env : Env) :
    Option (List Nat) :=
  match G[b]? with
  | none => none
  | some bb => stepTail C V G fuel (bb.stmts.drop k) bb.term env

/-- One driver invocation (`next()`/`poll()`: one call of the generated
closure), counting the arms executed before control returns: `Goto`/`If`
arms continue inside the same invocation; a `Suspend` arm returns its
value; a `Return` arm (and, ever after, the finished state) returns "no
more output".  Modelled from spec §4.5/§5 and the `loop { match state }`
dispatch of translate/mod.rs. -/
def invoke (G : Array BBlock) : Nat → MState → Option (Nat × Option Nat × MState)
  | 0, _ => none
  | _+1, .finished => some (1, none, .finished)
  | fuel+1, .at_ b env =>
    match G[b]? with
    | none => none
    | some bb =>
      match replay C V fuel env bb.stmts with
      | none => none
      | some env' =>
        match bb.term with
        | some (.goto t) =>
          (invoke G fuel (.at_ t env')).map (fun r => (r.1 + 1, r.2))
        | some (.ite c t e) =>
          (invoke G fuel (.at_ (if C env' c then t else e) env')).map
            (fun r => (r.1 + 1, r.2))
        | some (.suspend v t) => some (1, some (V env' v), .at_ t env')
        | some .retT => some (1, none, .finished)
        | none => none

end Semantics

/-! ### Big-step execution relation of the machine (for C1)

`Replays`/`MRun`/`TRun` are the relational (fuel-free) form of
`replay`/`runBlock`: a derivation is one complete run of the synthesized
machine from a block to the `Return` arm, collecting the suspension
outputs — the concatenation of the observable outputs of the successive
driver invocations. -/

section SemRel

variable (C : Env → Nat → Bool) (V : Env → Nat → Nat)

/-- A passthrough statement's direct execution: it runs to completion with
no output and no escaping jump. -/
def DirectPure (env : Env) (s : FStmt) (env' : Env) : Prop :=
  ∃ fuel, dstep C V fuel env (.cons s .nil) = some ([], env', .fall)

/-- Statement-list replay, relationally: passthrough statements execute
directly; assignments and drop markers do not touch the trace. -/
inductive Replays : Env → List MStmt → Env → Prop where
  | nil (env : Env) : Replays env [] env
  | exprS (env : Env) (s : FStmt) (env' : Env) (rest : List MStmt) (env'' : Env)
      (h : DirectPure C V env s env')
      (hr : Replays env' rest env'') : Replays env (.exprS s :: rest) env''
  | assign (env : Env) (d : Nat) (v : Option Nat) (rest : List MStmt) (env'' : Env)
      (hr : Replays env rest env'') : Replays env (.assign d v :: rest) env''
  | dropS (env : Env) (d : Nat) (rest : List MStmt) (env'' : Env)
      (hr : Replays env rest env'') : Replays env (.dropS d :: rest) env''

mutual
/-- One complete machine run from block `b`: replay the block's
statements, then run the terminator. -/
inductive MRun (G : Array BBlock) : Nat → Env → List Nat → Prop where
  | mk (b : Nat) (env : Env) (bb : BBlock) (env' : Env) (out : List Nat)
      (hbb : G[b]? = some bb)
      (hre : Replays C V env bb.stmts env')
      (htr : TRun G bb.term env' out) : MRun G b env out

/-- Terminator execution: `Goto`/`If` continue silently, `Suspend`
contributes its value to the output sequence, `Return` ends it. -/
inductive TRun (G : Array BBlock) : Option STerm → Env → List Nat → Prop where
  | goto (t : Nat) (env : Env) (out : List Nat)
      (h : MRun G t env out) : TRun G (some (.goto t)) env out
  | iteT (c t e : Nat) (env : Env) (out : List Nat)
      (h : MRun G (if C env c then t else e) env out) :
      TRun G (some (.ite c t e)) env out
  | suspend (v t : Nat) (env : Env) (out : List Nat)
      (h : MRun G t env out) : TRun G (some (.suspend v t)) env (V env v :: out)
  | retT (env : Env) : TRun G (some .retT) env []
end

/-- Machine execution of the remainder of block `b` after the prefix
`pre` of its statements. -/
def TailAfter (G : Array BBlock) (b : Nat) (pre : List MStmt) (env : Env)
    (out : List Nat) : Prop :=
  ∃ bb tail env', G[b]? = some bb ∧ bb.stmts = pre ++ tail ∧
    Replays C V env tail env' ∧ TRun C V G bb.term env' out

theorem MRun_of_TailAfter_nil (G : Array BBlock) (b : Nat) (env : Env)
    (out : List Nat) (h : TailAfter C V G b [] env out) : MRun C V G b env out := by
  obtain ⟨bb, tail, env', hbb, hst, hre, htr⟩ := h
  simp only [List.nil_append] at hst
  exact .mk b env bb env' out hbb (hst ▸ hre) htr

theorem Replays_append (env : Env) (xs : List MStmt) (e1 : Env) (ys : List MStmt)
    (e2 : Env) (h1 : Replays C V env xs e1) (h2 : Replays C V e1 ys e2) :
    Replays C V env (xs ++ ys) e2 := by
  induction h1 with
  | nil => simpa using h2
  | exprS env s env' rest env'' h hr ih =>
    exact .exprS env s env' (rest ++ ys) e2 h (ih h2)
  | assign env d v rest env'' hr ih => exact .assign env d v (rest ++ ys) e2 (ih h2)
  | dropS env d rest env'' hr ih => exact .dropS env d (rest ++ ys) e2 (ih h2)

/-- Statements the replay skips without touching the trace. -/
def skippable : MStmt → Bool
  | .assign _ _ => true
  | .dropS _ => true
  | .exprS _ => false

theorem Replays_skippable (env : Env) (ds : List MStmt)
    (h : ∀ m ∈ ds, skippable m = true) : Replays C V env ds env := by
  induction ds with
  | nil => exact .nil env
  | cons m rest ih =>
    have hm := h m (by simp)
    have hr := ih (fun m hm => h m (by simp [hm]))
    cases m with
    | exprS s => simp [skippable] at hm
    | assign d v => exact .assign env d v rest env hr
    | dropS d => exact .dropS env d rest env hr

end SemRel

/-! ### Effect lemmas for the builder primitives -/

theorem pushStmt_blocks (b : Nat) (s : MStmt) (st : BSt) (j : Nat) :
    (pushStmt b s st).blocks[j]? =
      if b = j then
        (st.blocks[j]?).map (fun bb => { bb with stmts := bb.stmts ++ [s] })
      else st.blocks[j]? := by
  simp [pushStmt, Array.getElem?_modify]

theorem pushStmt_size (b : Nat) (s : MStmt) (st : BSt) :
    (pushStmt b s st).blocks.size = st.blocks.size := by
  simp [pushStmt]

@[simp] theorem pushStmt_loop_scopes (b : Nat) (s : MStmt) (st : BSt) :
    (pushStmt b s st).loop_scopes = st.loop_scopes := rfl

@[simp] theorem pushStmt_scopes (b : Nat) (s : MStmt) (st : BSt) :
    (pushStmt b s st).scopes = st.scopes := rfl

@[simp] theorem pushStmt_errors (b : Nat) (s : MStmt) (st : BSt) :
    (pushStmt b s st).errors = st.errors := rfl

theorem terminate_blocks (b : Nat) (t : STerm) (st : BSt) (j : Nat) :
    (terminate b t st).blocks[j]? =
      if b = j then
        (st.blocks[j]?).map (fun bb => { bb with term := some t })
      else st.blocks[j]? := by
  simp [terminate, Array.getElem?_modify]

theorem terminate_size (b : Nat) (t : STerm) (st : BSt) :
    (terminate b t st).blocks.size = st.blocks.size := by
  simp [terminate]

@[simp] theorem terminate_loop_scopes (b : Nat) (t : STerm) (st : BSt) :
    (terminate b t st).loop_scopes = st.loop_scopes := rfl

@[simp] theorem terminate_scopes (b : Nat) (t : STerm) (st : BSt) :
    (terminate b t st).scopes = st.scopes := rfl

@[simp] theorem terminate_errors (b : Nat) (t : STerm) (st : BSt) :
    (terminate b t st).errors = st.errors := rfl

theorem startNewBlock_blocks (nm : Option String) (st : BSt) (j : Nat) :
    (startNewBlock nm st).1.blocks[j]? =
      if j = st.blocks.size then some ⟨nm, [], none⟩ else st.blocks[j]? := by
  simp [startNewBlock, Array.getElem?_push]

theorem startNewBlock_snd (nm : Option String) (st : BSt) :
    (startNewBlock nm st).2 = st.blocks.size := rfl

theorem startNewBlock_size (nm : Option String) (st : BSt) :
    (startNewBlock nm st).1.blocks.size = st.blocks.size + 1 := by
  simp [startNewBlock]

@[simp] theorem startNewBlock_loop_scopes (nm : Option String) (st : BSt) :
    (startNewBlock nm st).1.loop_scopes = st.loop_scopes := rfl

@[simp] theorem startNewBlock_scopes (nm : Option String) (st : BSt) :
    (startNewBlock nm st).1.scopes = st.scopes := rfl

@[simp] theorem startNewBlock_errors (nm : Option String) (st : BSt) :
    (startNewBlock nm st).1.errors = st.errors := rfl

/-- Net effect of scheduling a run of drop pushes into block `b`. -/
theorem pushDrops_blocks (ds : List Nat) (b : Nat) (st : BSt) (j : Nat) :
    (ds.foldl (fun acc d => pushStmt b (.dropS d) acc) st).blocks[j]? =
      if b = j then
        (st.blocks[j]?).map
          (fun bb => { bb with stmts := bb.stmts ++ ds.map MStmt.dropS })
      else st.blocks[j]? := by
  induction ds generalizing st with
  | nil =>
    simp only [List.foldl_nil, List.map_nil, List.append_nil]
    split <;> try (cases st.blocks[j]? <;> simp)
  | cons d ds ih =>
    simp only [List.foldl_cons, ih, pushStmt_blocks, List.map_cons]
    split <;> try (cases st.blocks[j]? <;> simp)

theorem pushDrops_size (ds : List Nat) (b : Nat) (st : BSt) :
    (ds.foldl (fun acc d => pushStmt b (.dropS d) acc) st).blocks.size =
      st.blocks.size := by
  induction ds generalizing st with
  | nil => rfl
  | cons d ds ih => simp [List.foldl_cons, ih, pushStmt_size]

@[simp] theorem pushDrops_loop_scopes (ds : List Nat) (b : Nat) (st : BSt) :
    (ds.foldl (fun acc d => pushStmt b (.dropS d) acc) st).loop_scopes =
      st.loop_scopes := by
  induction ds generalizing st with
  | nil => rfl
  | cons d ds ih => simp [List.foldl_cons, ih]

@[simp] theorem pushDrops_scopes (ds : List Nat) (b : Nat) (st : BSt) :
    (ds.foldl (fun acc d => pushStmt b (.dropS d) acc) st).scopes = st.scopes := by
  induction ds generalizing st with
  | nil => rfl
  | cons d ds ih => simp [List.foldl_cons, ih]

@[simp] theorem pushDrops_errors (ds : List Nat) (b : Nat) (st : BSt) :
    (ds.foldl (fun acc d => pushStmt b (.dropS d) acc) st).errors = st.errors := by
  induction ds generalizing st with
  | nil => rfl
  | cons d ds ih => simp [List.foldl_cons, ih]

/-- The drop markers `exit_scope` emits for a state's scope stack, out to
the function-level extent. -/
def retDrops (st : BSt) : List MStmt :=
  (((scopesUpTo 0 st.scopes).map Scope.drops).flatten).map MStmt.dropS

theorem exitScope_blocks (sp extent b target : Nat) (st : BSt) (j : Nat) :
    (exitScope sp extent b target st).blocks[j]? =
      if b = j then
        (st.blocks[j]?).map
          (fun bb =>
            { bb with
              stmts := bb.stmts ++
                (((scopesUpTo extent st.scopes).map Scope.drops).flatten).map MStmt.dropS,
              term := some (.goto target) })
      else st.blocks[j]? := by
  simp only [exitScope, terminate_blocks, pushDrops_blocks, pushDrops_scopes]
  split <;> try (cases st.blocks[j]? <;> simp)

theorem exitScope_size (sp extent b target : Nat) (st : BSt) :
    (exitScope sp extent b target st).blocks.size = st.blocks.size := by
  simp [exitScope, terminate_size, pushDrops_size]

@[simp] theorem exitScope_loop_scopes (sp extent b target : Nat) (st : BSt) :
    (exitScope sp extent b target st).loop_scopes = st.loop_scopes := by
  simp [exitScope]

@[simp] theorem exitScope_scopes (sp extent b target : Nat) (st : BSt) :
    (exitScope sp extent b target st).scopes = st.scopes := by
  simp [exitScope]

@[simp] theorem exitScope_errors (sp extent b target : Nat) (st : BSt) :
    (exitScope sp extent b target st).errors = st.errors := by
  simp [exitScope]

theorem lt_size_of_getElem?_some {st : BSt} {b : Nat} {bb : BBlock}
    (hbb : st.blocks[b]? = some bb) : b < st.blocks.size := by
  by_contra h
  rw [Array.getElem?_eq_none_iff.2 (by omega)] at hbb
  exact Option.noConfusion hbb

/-- The full effect of `expr_ret` on the builder state (shared helper). -/
theorem exprRet_effect (st : BSt) (b sp : Nat) (v : Option Nat) (bb : BBlock)
    (hbb : st.blocks[b]? = some bb) :
    (exprRet b sp v st).1.blocks[b]? =
      some { bb with
        stmts := (bb.stmts ++ [.assign RETURN_POINTER v]) ++ retDrops st,
        term := some (.goto END_BLOCK) } ∧
    (exprRet b sp v st).2 = st.blocks.size ∧
    (exprRet b sp v st).1.blocks[(exprRet b sp v st).2]? =
      some ⟨some "AfterReturn", [], none⟩ ∧
    (exprRet b sp v st).1.errors = st.errors := by
  have hblt : b < st.blocks.size := lt_size_of_getElem?_some hbb
  have hne : b ≠ st.blocks.size := by omega
  unfold exprRet
  refine ⟨?_, ?_, ?_, ?_⟩
  · simp only [startNewBlock_blocks, exitScope_size, pushStmt_size,
      exitScope_blocks, exitScope_scopes, pushStmt_blocks, pushStmt_scopes,
      extent_of_return_scope, return_block, retDrops, hbb]
    simp [hne, List.append_assoc]
  · simp only [startNewBlock_snd, exitScope_size, pushStmt_size]
  · simp only [startNewBlock_snd, exitScope_size, pushStmt_size,
      startNewBlock_blocks]
    simp
  · simp only [startNewBlock_errors, exitScope_errors, pushStmt_errors]

/-- C3: for every return statement, with a value (`some v`, through
`into(Lvalue::Local(RETURN_POINTER), ..)`) or without (`none`, assigned
the unit value), `expr_ret` first pushes the assignment of the returned
expression to the function's result slot, then closes all open scopes out
to the function-level extent — emitting their drop markers after the
assignment — terminates the current block with `Goto` to the designated
end block, and opens a fresh `AfterReturn` continuation block for trailing
code; no error is recorded: `return expr` with a value is supported, not
rejected. -/
theorem expr_ret_spec (st : BSt) (b sp : Nat) (v : Option Nat) (bb : BBlock)
    (hbb : st.blocks[b]? = some bb) :
    (exprRet b sp v st).1.blocks[b]? =
      some { bb with
        stmts := (bb.stmts ++ [.assign RETURN_POINTER v]) ++ retDrops st,
        term := some (.goto END_BLOCK) } ∧
    (exprRet b sp v st).2 = st.blocks.size ∧
    (exprRet b sp v st).1.blocks[(exprRet b sp v st).2]? =
      some ⟨some "AfterReturn", [], none⟩ ∧
    (exprRet b sp v st).1.errors = st.errors :=
  exprRet_effect st b sp v bb hbb

/-- Witness for C3 at a concrete builder state with one open block, a
scheduled drop in the function scope, and `return 3`. -/
theorem expr_ret_spec_witness :
    ((⟨#[⟨some "Start", [], none⟩], [], [⟨0, [4]⟩], []⟩ : BSt).blocks[0]? =
      some ⟨some "Start", [], none⟩) ∧
    (exprRet 0 5 (some 3)
        ⟨#[⟨some "Start", [], none⟩], [], [⟨0, [4]⟩], []⟩).1.blocks[0]? =
      some ⟨some "Start", [.assign RETURN_POINTER (some 3), .dropS 4],
        some (.goto END_BLOCK)⟩ :=
  ⟨rfl,
   ((expr_ret_spec ⟨#[⟨some "Start", [], none⟩], [], [⟨0, [4]⟩], []⟩ 0 5 (some 3)
      ⟨some "Start", [], none⟩ rfl).1).trans (by rfl)⟩

/-- `Statement::Drop` recognizer. -/
def MStmt.isDrop : MStmt → Bool
  | .dropS _ => true
  | _ => false

/-- A block table with no `Drop` statement anywhere. -/
def dropFree (blocks : Array BBlock) : Bool :=
  blocks.toList.all fun bb => bb.stmts.all fun s => !s.isDrop

theorem removeDrops_dropFree (blocks : Array BBlock) :
    dropFree (removeDrops blocks) = true := by
  simp only [dropFree, removeDrops, Array.toList_map, List.all_eq_true]
  intro bb hmem
  rcases List.mem_map.1 hmem with ⟨bb0, _, rfl⟩
  simp only [List.all_eq_true]
  intro s hs
  have hp := List.of_mem_filter hs
  cases s <;> simp_all [MStmt.isDrop]

/-- C9: in every `Mar` returned by `construct`, no basic block's statement
list contains a `Drop` statement — the retain pass of mod.rs lines 80-88
removes every drop marker scheduled during construction before the
finished structure is produced. -/
theorem construct_no_drops (body : FStmtList) :
    dropFree (construct body).blocks = true := by
  unfold construct
  exact removeDrops_dropFree _

/-! ### The synthesized dispatch (for C8)

Modelled from the spec (§4.5) and the emitted wrapper of translate/mod.rs
(`mar/translate/state.rs` is absent): the state enum has one variant per
block plus the finished variant; the dispatch match has one arm per
variant. -/

/-- An arm of the synthesized dispatch match. -/
inductive ArmTag where
  | blockArm (i : Nat)
  | finishedArm
deriving DecidableEq, Repr

/-- Whether an arm matches a state variant. -/
def armMatches : ArmTag → MState → Bool
  | .blockArm i, .at_ b _ => i == b
  | .blockArm _, .finished => false
  | .finishedArm, .at_ _ _ => false
  | .finishedArm, .finished => true

/-- The arm list of the dispatch match: one arm per block variant, plus
the finished arm. -/
def arms (G : Array BBlock) : List ArmTag :=
  ((List.range G.size).map ArmTag.blockArm) ++ [.finishedArm]

theorem countP_beq_range (n b : Nat) (h : b < n) :
    (List.range n).countP (fun i => i == b) = 1 := by
  induction n with
  | zero => omega
  | succ n ih =>
    rw [List.range_succ, List.countP_append]
    rcases Nat.lt_or_ge b n with hb | hb
    · rw [ih hb]
      simp [List.countP_cons, Nat.ne_of_gt hb]
    · have hbn : b = n := by omega
      subst hbn
      rw [List.countP_eq_zero.2 (fun a ha => by
        have := List.mem_range.1 ha
        simp
        omega)]
      simp [List.countP_cons]

/-- C8 (amended): the synthesized dispatch is total over the state
variants — every block variant and the finished variant is matched by
exactly one arm — and one external invocation (one call of the generated
closure) executes one *or more* arms: `Goto`/`If` arms continue inside the
same invocation with no observable output, until a `Suspend`/`Return` arm
(or the finished arm) returns control.  The dispatch iterates the emitted
`loop { match state { .. } }`; it does not recurse. -/
theorem dispatch_total_and_one_or_more_arms :
    (∀ (G : Array BBlock) (b : Nat) (env : Env), b < G.size →
      (arms G).countP (fun a => armMatches a (.at_ b env)) = 1) ∧
    (∀ G : Array BBlock, (arms G).countP (fun a => armMatches a .finished) = 1) ∧
    (∀ (C : Env → Nat → Bool) (V : Env → Nat → Nat) (G : Array BBlock)
      (fuel : Nat) (s : MState) (r : Nat × Option Nat × MState),
      invoke C V G fuel s = some r → 1 ≤ r.1) := by
  refine ⟨?_, ?_, ?_⟩
  · intro G b env hb
    simp only [arms, List.countP_append, List.countP_map]
    have : ((fun a => armMatches a (.at_ b env)) ∘ ArmTag.blockArm) =
        (fun i => i == b) := by
      funext i
      simp [armMatches]
    rw [this, countP_beq_range _ _ hb]
    simp [List.countP_cons, armMatches]
  · intro G
    simp only [arms, List.countP_append, List.countP_map]
    rw [List.countP_eq_zero.2 (fun a _ => by simp [armMatches])]
    simp [List.countP_cons, armMatches]
  · intro C V G fuel s r h
    induction fuel generalizing s r with
    | zero => simp [invoke] at h
    | succ fuel ih =>
      cases s with
      | finished =>
        simp only [invoke] at h
        cases h
        simp
      | at_ b env =>
        simp only [invoke] at h
        split at h
        · exact Option.noConfusion h
        · split at h
          · exact Option.noConfusion h
          · split at h
            · simp only [Option.map_eq_some'] at h
              rcases h with ⟨r0, hr0, rfl⟩
              omega
            · simp only [Option.map_eq_some'] at h
              rcases h with ⟨r0, hr0, rfl⟩
              omega
            · cases h; simp
            · cases h; simp
            · exact Option.noConfusion h

/-- Witness for the amended C8 theorem: the two-block machine built from
the empty body, at its start variant. -/
theorem dispatch_total_witness :
    (0 < (construct .nil).blocks.size ∧
      (arms (construct .nil).blocks).countP
        (fun a => armMatches a (.at_ 0 [])) = 1) ∧
    (invoke (fun _ _ => true) (fun _ e => e) (construct .nil).blocks 5 (.at_ 0 []) =
        some (2, none, .finished) ∧
      1 ≤ (2 : Nat)) :=
  ⟨⟨by decide, dispatch_total_and_one_or_more_arms.1 (construct .nil).blocks 0 []
      (by decide)⟩,
   ⟨rfl, dispatch_total_and_one_or_more_arms.2.2 (fun _ _ => true) (fun _ e => e)
      (construct .nil).blocks 5 (.at_ 0 []) (2, none, .finished) rfl⟩⟩

/-- C8 (counterexample): one invocation of the generated closure on the
machine built from the empty body executes two arms, not exactly one: the
start variant's arm ends in `Goto` to the end block, whose arm then
executes `Return`, all inside the same `next()` call. -/
theorem one_arm_per_invocation_counterexample :
    invoke (fun _ _ => true) (fun _ e => e) (construct .nil).blocks 5 (.at_ 0 []) =
      some (2, none, .finished) ∧ (2 : Nat) ≠ 1 :=
  ⟨rfl, by decide⟩

/-! ### The Return-placement invariant (for C10)

During body translation the builder writes only `Goto`/`If`/`Suspend`
terminators; `Return` is written exactly once, by `construct`, onto the
end block. -/

/-- Invariant: no block carries a `Return` terminator yet, and the two
blocks `construct` allocated first are present. -/
def Inv (st : BSt) : Prop :=
  (∀ (i : Nat) (bb : BBlock), st.blocks[i]? = some bb →
    bb.term ≠ some STerm.retT) ∧ 2 ≤ st.blocks.size

theorem Inv_pushStmt (b : Nat) (s : MStmt) (st : BSt) (h : Inv st) :
    Inv (pushStmt b s st) := by
  obtain ⟨hn, hs⟩ := h
  constructor
  · intro i bb hbb
    rw [pushStmt_blocks] at hbb
    split at hbb
    · rcases Option.map_eq_some'.1 hbb with ⟨bb0, hbb0, rfl⟩
      exact hn i bb0 hbb0
    · exact hn i bb hbb
  · rw [pushStmt_size]; exact hs

theorem Inv_terminate (b : Nat) (t : STerm) (st : BSt) (ht : t ≠ .retT)
    (h : Inv st) : Inv (terminate b t st) := by
  obtain ⟨hn, hs⟩ := h
  constructor
  · intro i bb hbb
    rw [terminate_blocks] at hbb
    split at hbb
    · rcases Option.map_eq_some'.1 hbb with ⟨bb0, hbb0, rfl⟩
      simpa using ht
    · exact hn i bb hbb
  · rw [terminate_size]; exact hs

theorem Inv_startNewBlock (nm : Option String) (st : BSt) (h : Inv st) :
    Inv (startNewBlock nm st).1 := by
  obtain ⟨hn, hs⟩ := h
  constructor
  · intro i bb hbb
    rw [startNewBlock_blocks] at hbb
    split at hbb
    · cases hbb; simp
    · exact hn i bb hbb
  · rw [startNewBlock_size]; omega

theorem Inv_pushDrops (ds : List Nat) (b : Nat) (st : BSt) (h : Inv st) :
    Inv (ds.foldl (fun acc d => pushStmt b (.dropS d) acc) st) := by
  obtain ⟨hn, hs⟩ := h
  constructor
  · intro i bb hbb
    rw [pushDrops_blocks] at hbb
    split at hbb
    · rcases Option.map_eq_some'.1 hbb with ⟨bb0, hbb0, rfl⟩
      exact hn i bb0 hbb0
    · exact hn i bb hbb
  · rw [pushDrops_size]; exact hs

theorem Inv_exitScope (sp extent b target : Nat) (st : BSt) (h : Inv st) :
    Inv (exitScope sp extent b target st) :=
  Inv_terminate _ _ _ (by simp) (Inv_pushDrops _ _ _ h)

theorem Inv_spanErr (sp : Nat) (msg : String) (st : BSt) (h : Inv st) :
    Inv (spanErr sp msg st) := h

theorem Inv_exprRet (b sp : Nat) (v : Option Nat) (st : BSt) (h : Inv st) :
    Inv (exprRet b sp v st).1 :=
  Inv_startNewBlock _ _ (Inv_exitScope _ _ _ _ _ (Inv_pushStmt _ _ _ h))

theorem Inv_exprYield (b e : Nat) (st : BSt) (h : Inv st) :
    Inv (exprYield b e st).1 :=
  Inv_terminate _ _ _ (by simp) (Inv_startNewBlock _ _ h)

theorem Inv_breakOrContinue (sp : Nat) (lbl : Option Nat) (b : Nat)
    (sel : LoopScope → Nat) (st : BSt) (h : Inv st) :
    Inv (breakOrContinue sp lbl b sel st).1 := by
  unfold breakOrContinue
  generalize hst1 : (if isInsideLoop st then st
      else spanErr sp "cannot break outside of a loop" st) = st1
  have h1 : Inv st1 := by
    rw [← hst1]
    split
    · exact h
    · exact Inv_spanErr _ _ _ h
  cases hf : findLoopScope lbl st1 with
  | some ls =>
    simp only [hf]
    exact Inv_startNewBlock _ _ (Inv_exitScope _ _ _ _ _ h1)
  | none =>
    simp only [hf]
    apply Inv_startNewBlock
    split
    · exact Inv_spanErr _ _ _ h1
    · exact h1

theorem Inv_loop_scopes_set (st : BSt) (l : List LoopScope) (h : Inv st) :
    Inv { st with loop_scopes := l } := h

mutual
theorem Inv_fstmt : (s : FStmt) → ∀ extent b st, Inv st →
    Inv (fstmt extent b s st).1
  | .pass sid => fun extent b st h => by
    unfold fstmt
    split
    · exact Inv_pushStmt _ _ _ h
    · exact Inv_pushStmt _ _ _ h
  | .yieldS e => fun extent b st h => by
    unfold fstmt
    split
    · exact Inv_pushStmt _ _ _ h
    · exact Inv_exprYield _ _ _ h
  | .retS sp v => fun extent b st h => by
    unfold fstmt
    split
    · exact Inv_pushStmt _ _ _ h
    · exact Inv_exprRet _ _ _ _ h
  | .breakS sp l => fun extent b st h => by
    unfold fstmt
    split
    · exact Inv_pushStmt _ _ _ h
    · exact Inv_breakOrContinue _ _ _ _ _ h
  | .contS sp l => fun extent b st h => by
    unfold fstmt
    split
    · exact Inv_pushStmt _ _ _ h
    · exact Inv_breakOrContinue _ _ _ _ _ h
  | .ifS c thn els => fun extent b st h => by
    unfold fstmt
    split
    · exact Inv_pushStmt _ _ _ h
    · exact Inv_terminate _ _ _ (by simp) (Inv_terminate _ _ _ (by simp)
        (Inv_startNewBlock _ _ (Inv_fstmts els _ _ _ (Inv_fstmts thn _ _ _
          (Inv_terminate _ _ _ (by simp)
            (Inv_startNewBlock _ _ (Inv_startNewBlock _ _ h)))))))
  | .loopS lbl body => fun extent b st h => by
    unfold fstmt
    split
    · exact Inv_pushStmt _ _ _ h
    · exact Inv_loop_scopes_set _ _ (Inv_terminate _ _ _ (by simp)
        (Inv_fstmts body _ _ _ (Inv_loop_scopes_set _ _
          (Inv_terminate _ _ _ (by simp)
            (Inv_startNewBlock _ _ (Inv_startNewBlock _ _ h))))))

theorem Inv_fstmts : (ss : FStmtList) → ∀ extent b st, Inv st →
    Inv (fstmts extent b ss st).1
  | .nil => fun extent b st h => h
  | .cons s rest => fun extent b st h =>
    Inv_fstmts rest extent _ _ (Inv_fstmt s extent b st h)
end

theorem Inv_popScope (b : Nat) (st : BSt) (h : Inv st) : Inv (popScope b st) := by
  unfold popScope
  split
  · exact h
  · exact Inv_pushDrops _ _ _ h

/-- The closing steps of `construct` put `Return` on block 1 and nowhere
else, provided the invariant held when translation finished. -/
theorem retIff_of_inv (st : BSt) (b : Nat) (hInv : Inv st) (i : Nat) (bb' : BBlock)
    (hbb : (removeDrops (terminate END_BLOCK .retT
        (terminate b (.goto END_BLOCK) st)).blocks)[i]? = some bb') :
    bb'.term = some .retT ↔ i = 1 := by
  obtain ⟨hn, hs⟩ := hInv
  unfold removeDrops at hbb
  rw [Array.getElem?_map] at hbb
  rcases Option.map_eq_some'.1 hbb with ⟨bb0, hbb0, rfl⟩
  have hterm : bb0.term = some STerm.retT ↔ i = 1 := by
    rw [terminate_blocks] at hbb0
    by_cases hi : END_BLOCK = i
    · rw [if_pos hi] at hbb0
      rcases Option.map_eq_some'.1 hbb0 with ⟨bb1, _, rfl⟩
      unfold END_BLOCK at hi
      simp [← hi]
    · rw [if_neg hi] at hbb0
      rw [terminate_blocks] at hbb0
      unfold END_BLOCK at hi
      have hne : bb0.term ≠ some STerm.retT := by
        split at hbb0
        · rcases Option.map_eq_some'.1 hbb0 with ⟨bb1, _, rfl⟩
          simp
        · exact hn i bb0 hbb0
      simp only [hne, false_iff]
      omega
  simpa using hterm

/-- C10: in every `Mar` returned by `construct`, the `Return` terminator
appears on exactly one basic block — block 1, the end block allocated
second at the start of construction — and on no other block; `expr_ret`
lowers every source-level return to a `Goto` targeting that block; and a
`Return` terminator has no successor blocks
(`Terminator::successors`). -/
theorem construct_return_only_on_end_block (body : FStmtList) :
    (∀ (i : Nat) (bb : BBlock), (construct body).blocks[i]? = some bb →
      (bb.term = some .retT ↔ i = 1)) ∧
    STerm.successors .retT = [] ∧
    (∀ (st : BSt) (b sp : Nat) (v : Option Nat) (bb : BBlock),
      st.blocks[b]? = some bb →
      ((exprRet b sp v st).1.blocks[b]?).map BBlock.term =
        some (some (.goto END_BLOCK))) := by
  refine ⟨?_, rfl, ?_⟩
  · have hInv3 : Inv (pushScope 0 (startNewBlock (some "End")
        (startNewBlock (some "Start") ⟨#[], [], [], []⟩).1).1) := by
      constructor
      · intro i bb hbb
        have hi : i < 2 := by
          have h2 := lt_size_of_getElem?_some hbb
          simpa using h2
        interval_cases i
        · cases hbb
          decide
        · cases hbb
          decide
      · exact Nat.le_refl 2
    have hInv5 := Inv_popScope
      (fstmts 0 START_BLOCK body (pushScope 0 (startNewBlock (some "End")
        (startNewBlock (some "Start") ⟨#[], [], [], []⟩).1).1)).2
      (fstmts 0 START_BLOCK body (pushScope 0 (startNewBlock (some "End")
        (startNewBlock (some "Start") ⟨#[], [], [], []⟩).1).1)).1
      (Inv_fstmts body 0 START_BLOCK _ hInv3)
    intro i bb hbb
    exact retIff_of_inv _ _ hInv5 i bb hbb
  · intro st b sp v bb hbb
    rw [(exprRet_effect st b sp v bb hbb).1]
    rfl

/-- Witness for C10: the machine built from the empty body has `Return`
exactly on block 1, and a concrete `return 3` lowers to `Goto` to the end
block. -/
theorem construct_return_only_witness :
    ((construct .nil).blocks[1]? = some ⟨some "End", [], some .retT⟩) ∧
    ((⟨some "End", [], some STerm.retT⟩ : BBlock).term = some .retT ↔ (1 : Nat) = 1) ∧
    (((exprRet 0 5 (some 3)
        ⟨#[⟨some "Start", [], none⟩], [], [], []⟩).1.blocks[0]?).map BBlock.term =
      some (some (.goto END_BLOCK))) :=
  ⟨rfl,
   (construct_return_only_on_end_block .nil).1 1 ⟨some "End", [], some .retT⟩ rfl,
   (construct_return_only_on_end_block .nil).2.2
     ⟨#[⟨some "Start", [], none⟩], [], [], []⟩ 0 5 (some 3)
     ⟨some "Start", [], none⟩ rfl⟩

theorem loop_scopes_nil_of_not_inside (st : BSt) (h : isInsideLoop st = false) :
    st.loop_scopes = [] := by
  unfold isInsideLoop at h
  cases hls : st.loop_scopes with
  | nil => rfl
  | cons a l => rw [hls] at h; simp [List.isEmpty] at h

/-! ### C1: the machine refines direct execution

The simulation argument: during translation every closed block already
carries its final contents (`Agrees`); a translation step only appends to
the current block, touches no other existing block, and hands back either
the same current block or a fresh open one (`Frame`); from these, each
direct execution of a statement list is matched by a machine run of the
corresponding block region. -/

/-- The statement filter of `removeDrops`, applied to one list. -/
def fdrop (ss : List MStmt) : List MStmt :=
  ss.filter fun s =>
    match s with
    | .dropS _ => false
    | _ => true

theorem fdrop_append (xs ys : List MStmt) :
    fdrop (xs ++ ys) = fdrop xs ++ fdrop ys := by
  simp [fdrop]

theorem fdrop_dropMap (ds : List Nat) : fdrop (ds.map MStmt.dropS) = [] := by
  induction ds with
  | nil => rfl
  | cons d ds ih => simpa [fdrop, List.filter_cons] using ih

theorem removeDrops_getElem? (blocks : Array BBlock) (i : Nat) :
    (removeDrops blocks)[i]? =
      blocks[i]?.map (fun bb => ⟨bb.name, fdrop bb.stmts, bb.term⟩) := by
  unfold removeDrops fdrop
  rw [Array.getElem?_map]

/-- The end block is in place in the machine: block 1 is empty and
`Return`-terminated. -/
def EndOK (G : Array BBlock) : Prop :=
  ∃ nm, G[1]? = some ⟨nm, [], some .retT⟩

/-- Block `b` is still unterminated in `st`. -/
def OpenAt (st : BSt) (b : Nat) : Prop :=
  ∀ bb, st.blocks[b]? = some bb → bb.term = none

/-- Every block already closed in `st` appears, drop markers stripped, in
the final machine `G`. -/
def Agrees (G : Array BBlock) (st : BSt) : Prop :=
  ∀ (i : Nat) (bb : BBlock), st.blocks[i]? = some bb → bb.term ≠ none →
    G[i]? = some ⟨bb.name, fdrop bb.stmts, bb.term⟩

/-- Every block closed in `st` survives unchanged into `st'`. -/
def ClosedPersist (st st' : BSt) : Prop :=
  ∀ (i : Nat) (bb : BBlock), st.blocks[i]? = some bb → bb.term ≠ none →
    st'.blocks[i]? = some bb

theorem Agrees_removeDrops (st : BSt) : Agrees (removeDrops st.blocks) st := by
  intro i bb hbb _
  rw [removeDrops_getElem?, hbb]
  rfl

theorem Agrees_of_CP {G : Array BBlock} {st st' : BSt}
    (hcp : ClosedPersist st st') (hA : Agrees G st') : Agrees G st :=
  fun i bb hbb ht => hA i bb (hcp i bb hbb ht) ht

theorem CP_refl (st : BSt) : ClosedPersist st st := fun _ _ hbb _ => hbb

theorem CP_trans {st₁ st₂ st₃ : BSt} (h1 : ClosedPersist st₁ st₂)
    (h2 : ClosedPersist st₂ st₃) : ClosedPersist st₁ st₃ :=
  fun i bb hbb ht => h2 i bb (h1 i bb hbb ht) ht

theorem CP_of_blocks_eq {st st' : BSt} (h : st'.blocks = st.blocks) :
    ClosedPersist st st' := fun i bb hbb _ => by rw [h]; exact hbb

theorem CP_pushStmt {st : BSt} {b : Nat} (hb : OpenAt st b) (s : MStmt) :
    ClosedPersist st (pushStmt b s st) := by
  intro i bb hbb ht
  rw [pushStmt_blocks]
  rw [if_neg]
  · exact hbb
  · intro h
    subst h
    exact ht (hb bb hbb)

theorem CP_terminate {st : BSt} {b : Nat} (hb : OpenAt st b) (t : STerm) :
    ClosedPersist st (terminate b t st) := by
  intro i bb hbb ht
  rw [terminate_blocks]
  rw [if_neg]
  · exact hbb
  · intro h
    subst h
    exact ht (hb bb hbb)

theorem CP_startNewBlock (st : BSt) (nm : Option String) :
    ClosedPersist st (startNewBlock nm st).1 := by
  intro i bb hbb _
  have hi : i < st.blocks.size := lt_size_of_getElem?_some hbb
  rw [startNewBlock_blocks, if_neg (by omega)]
  exact hbb

theorem CP_pushDrops {st : BSt} {b : Nat} (hb : OpenAt st b) (ds : List Nat) :
    ClosedPersist st (ds.foldl (fun acc d => pushStmt b (.dropS d) acc) st) := by
  intro i bb hbb ht
  rw [pushDrops_blocks]
  rw [if_neg]
  · exact hbb
  · intro h
    subst h
    exact ht (hb bb hbb)

@[simp] theorem spanErr_blocks (sp : Nat) (msg : String) (st : BSt) :
    (spanErr sp msg st).blocks = st.blocks := rfl

@[simp] theorem spanErr_loop_scopes (sp : Nat) (msg : String) (st : BSt) :
    (spanErr sp msg st).loop_scopes = st.loop_scopes := rfl

@[simp] theorem spanErr_scopes (sp : Nat) (msg : String) (st : BSt) :
    (spanErr sp msg st).scopes = st.scopes := rfl

/-- What one translation step can do to the builder state: the block table
only grows, existing blocks other than the current one are untouched, both
scope stacks are preserved, and the returned continuation block is either
the current block (statements appended, terminator and name untouched) or
a not-previously-existing open block. -/
structure Frame (st st₁ : BSt) (b b₁ : Nat) : Prop where
  size_le : st.blocks.size ≤ st₁.blocks.size
  untouched : ∀ i, i < st.blocks.size → i ≠ b → st₁.blocks[i]? = st.blocks[i]?
  loops : st₁.loop_scopes = st.loop_scopes
  scopes_eq : st₁.scopes = st.scopes
  cur : (b₁ = b ∧ ∀ bb0, st.blocks[b]? = some bb0 →
      ∃ Δ, st₁.blocks[b]? = some ⟨bb0.name, bb0.stmts ++ Δ, bb0.term⟩)
    ∨ (st.blocks.size ≤ b₁ ∧ ∃ bb1, st₁.blocks[b₁]? = some bb1 ∧ bb1.term = none)

theorem Frame_refl (st : BSt) (b : Nat) : Frame st st b b := by
  refine ⟨Nat.le_refl _, fun _ _ _ => rfl, rfl, rfl, Or.inl ⟨rfl, fun bb0 hbb0 => ?_⟩⟩
  exact ⟨[], by simpa using hbb0⟩

theorem Frame_trans {st stA st₁ : BSt} {b bA b₁ : Nat}
    (h1 : Frame st stA b bA) (h2 : Frame stA st₁ bA b₁) : Frame st st₁ b b₁ := by
  refine ⟨Nat.le_trans h1.size_le h2.size_le, ?_, h2.loops.trans h1.loops,
    h2.scopes_eq.trans h1.scopes_eq, ?_⟩
  · intro i hi hne
    rcases h1.cur with ⟨rfl, _⟩ | ⟨hge, _⟩
    · rw [h2.untouched i (Nat.lt_of_lt_of_le hi h1.size_le) hne,
        h1.untouched i hi hne]
    · rw [h2.untouched i (Nat.lt_of_lt_of_le hi h1.size_le) (by omega),
        h1.untouched i hi hne]
  · rcases h2.cur with ⟨rfl, hpres2⟩ | ⟨hge2, hbb⟩
    · rcases h1.cur with ⟨rfl, hpres1⟩ | ⟨hge1, bb1, hbb1, ht1⟩
      · left
        refine ⟨rfl, fun bb0 hbb0 => ?_⟩
        obtain ⟨d1, h1'⟩ := hpres1 bb0 hbb0
        obtain ⟨d2, h2'⟩ := hpres2 _ h1'
        exact ⟨d1 ++ d2, by rw [h2']; simp⟩
      · right
        refine ⟨hge1, ?_⟩
        obtain ⟨d2, h2'⟩ := hpres2 bb1 hbb1
        exact ⟨_, h2', ht1⟩
    · exact Or.inr ⟨Nat.le_trans h1.size_le hge2, hbb⟩

theorem CP_of_Frame {st st₁ : BSt} {b b₁ : Nat} (h : Frame st st₁ b b₁)
    (hb : OpenAt st b) : ClosedPersist st st₁ := by
  intro i bb hbb ht
  have hi : i < st.blocks.size := lt_size_of_getElem?_some hbb
  by_cases hib : i = b
  · subst hib
    exact absurd (hb bb hbb) ht
  · rw [h.untouched i hi hib]
    exact hbb

/-- The continuation block handed back by a step is open, with a definite
entry, provided the current block was. -/
theorem Frame_target {st st₁ : BSt} {b b₁ : Nat} (h : Frame st st₁ b b₁)
    {bb0 : BBlock} (hbb0 : st.blocks[b]? = some bb0) (hop : bb0.term = none) :
    ∃ bb1, st₁.blocks[b₁]? = some bb1 ∧ bb1.term = none := by
  rcases h.cur with ⟨rfl, hpres⟩ | ⟨_, bb1, hbb1, ht1⟩
  · obtain ⟨d, hd⟩ := hpres bb0 hbb0
    exact ⟨_, hd, hop⟩
  · exact ⟨bb1, hbb1, ht1⟩

theorem OpenAt_of_getElem {st : BSt} {b : Nat} {bb : BBlock}
    (hbb : st.blocks[b]? = some bb) (ht : bb.term = none) : OpenAt st b := by
  intro bb' hbb'
  rw [hbb] at hbb'
  cases hbb'
  exact ht

theorem Frame_pushStmt (b : Nat) (s : MStmt) (st : BSt) :
    Frame st (pushStmt b s st) b b := by
  refine ⟨by rw [pushStmt_size], ?_, rfl, rfl, Or.inl ⟨rfl, fun bb0 hbb0 => ?_⟩⟩
  · intro i _ hne
    rw [pushStmt_blocks, if_neg (fun h => hne h.symm)]
  · exact ⟨[s], by rw [pushStmt_blocks, if_pos rfl, hbb0]; rfl⟩

/-- Definitional unfolding of `exprYield`. -/
theorem exprYield_eq (b e : Nat) (st : BSt) :
    exprYield b e st =
      (terminate b (.suspend e st.blocks.size)
        (startNewBlock (some "AfterYield") st).1, st.blocks.size) := rfl

/-- Definitional unfolding of `exprRet`. -/
theorem exprRet_eq (b sp : Nat) (v : Option Nat) (st : BSt) :
    exprRet b sp v st =
      startNewBlock (some "AfterReturn")
        (exitScope sp 0 b return_block
          (pushStmt b (.assign RETURN_POINTER v) st)) := rfl

/-- The state after the opening moves of the `if` lowering: `Then` and
`Else` allocated, predecessor closed with the `If` terminator (an
abbreviation of the corresponding prefix of `fstmt`'s `ifS` arm). -/
def ifSetup (b c : Nat) (st : BSt) : BSt :=
  terminate b (.ite c st.blocks.size (startNewBlock (some "Then") st).1.blocks.size)
    (startNewBlock (some "Else") (startNewBlock (some "Then") st).1).1

/-- The closing moves of the `if` lowering: allocate `IfJoin` and route
both arm ends into it. -/
def ifClose (thenEnd elseEnd : Nat) (st₄ : BSt) : BSt :=
  terminate elseEnd (.goto st₄.blocks.size)
    (terminate thenEnd (.goto st₄.blocks.size)
      (startNewBlock (some "IfJoin") st₄).1)

/-- The state after the opening moves of the `loop` lowering: `Loop` and
`LoopExit` allocated, predecessor routed into `Loop`, loop scope pushed. -/
def loopSetup (extent b : Nat) (lbl : Option Nat) (st : BSt) : BSt :=
  let st2 := terminate b (.goto st.blocks.size)
    (startNewBlock (some "LoopExit") (startNewBlock (some "Loop") st).1).1
  { st2 with loop_scopes := ⟨lbl, st.blocks.size,
      (startNewBlock (some "Loop") st).1.blocks.size, extent⟩ :: st2.loop_scopes }

/-- The closing moves of the `loop` lowering: close the back edge, pop the
loop scope. -/
def loopClose (bodyEnd target : Nat) (st₃ : BSt) : BSt :=
  let st4 := terminate bodyEnd (.goto target) st₃
  { st4 with loop_scopes := st4.loop_scopes.tail }

/-- `fstmt` on a transitioning `if`, written with the intermediate states
named. -/
theorem fstmt_ifS_eq (extent b c : Nat) (thn els : FStmtList) (st : BSt)
    (h : ¬ ctF (isInsideLoop st) (.ifS c thn els) = false) :
    fstmt extent b (.ifS c thn els) st =
      (ifClose (fstmts extent st.blocks.size thn (ifSetup b c st)).2
        (fstmts extent (startNewBlock (some "Then") st).1.blocks.size els
          (fstmts extent st.blocks.size thn (ifSetup b c st)).1).2
        (fstmts extent (startNewBlock (some "Then") st).1.blocks.size els
          (fstmts extent st.blocks.size thn (ifSetup b c st)).1).1,
       (fstmts extent (startNewBlock (some "Then") st).1.blocks.size els
         (fstmts extent st.blocks.size thn (ifSetup b c st)).1).1.blocks.size) := by
  unfold fstmt
  rw [if_neg h]
  rfl

/-- `fstmt` on a transitioning `loop`, written with the intermediate
states named. -/
theorem fstmt_loopS_eq (extent b : Nat) (lbl : Option Nat) (body : FStmtList)
    (st : BSt) (h : ¬ ctF (isInsideLoop st) (.loopS lbl body) = false) :
    fstmt extent b (.loopS lbl body) st =
      (loopClose (fstmts extent st.blocks.size body (loopSetup extent b lbl st)).2
        st.blocks.size
        (fstmts extent st.blocks.size body (loopSetup extent b lbl st)).1,
       (startNewBlock (some "Loop") st).1.blocks.size) := by
  unfold fstmt
  rw [if_neg h]
  rfl

theorem ifSetup_size (b c : Nat) (st : BSt) :
    (ifSetup b c st).blocks.size = st.blocks.size + 2 := by
  unfold ifSetup
  rw [terminate_size, startNewBlock_size, startNewBlock_size]

theorem ifSetup_blocks (b c : Nat) (st : BSt) (hb : b < st.blocks.size) (j : Nat) :
    (ifSetup b c st).blocks[j]? =
      if j = b then
        st.blocks[j]?.map (fun bb =>
          { bb with term := some (.ite c st.blocks.size (st.blocks.size + 1)) })
      else if j = st.blocks.size + 1 then some ⟨some "Else", [], none⟩
      else if j = st.blocks.size then some ⟨some "Then", [], none⟩
      else st.blocks[j]? := by
  unfold ifSetup
  rw [terminate_blocks, startNewBlock_blocks, startNewBlock_blocks,
    startNewBlock_size]
  by_cases hjb : j = b
  · subst hjb
    rw [if_pos rfl, if_pos rfl, if_neg (show ¬ j = st.blocks.size + 1 by omega),
      if_neg (show ¬ j = st.blocks.size by omega)]
  · rw [if_neg (fun h => hjb h.symm), if_neg hjb]

@[simp] theorem ifSetup_loop_scopes (b c : Nat) (st : BSt) :
    (ifSetup b c st).loop_scopes = st.loop_scopes := by
  unfold ifSetup
  simp

@[simp] theorem ifSetup_scopes (b c : Nat) (st : BSt) :
    (ifSetup b c st).scopes = st.scopes := by
  unfold ifSetup
  simp

theorem loopSetup_size (extent b : Nat) (lbl : Option Nat) (st : BSt) :
    (loopSetup extent b lbl st).blocks.size = st.blocks.size + 2 := by
  unfold loopSetup
  rw [terminate_size, startNewBlock_size, startNewBlock_size]

theorem loopSetup_blocks (extent b : Nat) (lbl : Option Nat) (st : BSt)
    (hb : b < st.blocks.size) (j : Nat) :
    (loopSetup extent b lbl st).blocks[j]? =
      if j = b then
        st.blocks[j]?.map (fun bb => { bb with term := some (.goto st.blocks.size) })
      else if j = st.blocks.size + 1 then some ⟨some "LoopExit", [], none⟩
      else if j = st.blocks.size then some ⟨some "Loop", [], none⟩
      else st.blocks[j]? := by
  unfold loopSetup
  rw [terminate_blocks, startNewBlock_blocks, startNewBlock_blocks,
    startNewBlock_size]
  by_cases hjb : j = b
  · subst hjb
    rw [if_pos rfl, if_pos rfl, if_neg (show ¬ j = st.blocks.size + 1 by omega),
      if_neg (show ¬ j = st.blocks.size by omega)]
  · rw [if_neg (fun h => hjb h.symm), if_neg hjb]

theorem loopSetup_loop_scopes (extent b : Nat) (lbl : Option Nat) (st : BSt) :
    (loopSetup extent b lbl st).loop_scopes =
      ⟨lbl, st.blocks.size, st.blocks.size + 1, extent⟩ :: st.loop_scopes := by
  unfold loopSetup
  simp [startNewBlock_size]

@[simp] theorem loopSetup_scopes (extent b : Nat) (lbl : Option Nat) (st : BSt) :
    (loopSetup extent b lbl st).scopes = st.scopes := by
  unfold loopSetup
  simp

theorem ifClose_size (te ee : Nat) (st₄ : BSt) :
    (ifClose te ee st₄).blocks.size = st₄.blocks.size + 1 := by
  unfold ifClose
  rw [terminate_size, terminate_size, startNewBlock_size]

theorem ifClose_blocks (te ee : Nat) (st₄ : BSt) (j : Nat) :
    (ifClose te ee st₄).blocks[j]? =
      if ee = j then
        ((if te = j then
            ((if j = st₄.blocks.size then some (⟨some "IfJoin", [], none⟩ : BBlock)
              else st₄.blocks[j]?)).map
              (fun bb => { bb with term := some (.goto st₄.blocks.size) })
          else if j = st₄.blocks.size then some ⟨some "IfJoin", [], none⟩
          else st₄.blocks[j]?)).map
          (fun bb => { bb with term := some (.goto st₄.blocks.size) })
      else if te = j then
        ((if j = st₄.blocks.size then some (⟨some "IfJoin", [], none⟩ : BBlock)
          else st₄.blocks[j]?)).map
          (fun bb => { bb with term := some (.goto st₄.blocks.size) })
      else if j = st₄.blocks.size then some ⟨some "IfJoin", [], none⟩
      else st₄.blocks[j]? := by
  unfold ifClose
  rw [terminate_blocks, terminate_blocks, startNewBlock_blocks]

@[simp] theorem ifClose_loop_scopes (te ee : Nat) (st₄ : BSt) :
    (ifClose te ee st₄).loop_scopes = st₄.loop_scopes := by
  unfold ifClose
  simp

@[simp] theorem ifClose_scopes (te ee : Nat) (st₄ : BSt) :
    (ifClose te ee st₄).scopes = st₄.scopes := by
  unfold ifClose
  simp

theorem loopClose_size (be target : Nat) (st₃ : BSt) :
    (loopClose be target st₃).blocks.size = st₃.blocks.size := by
  unfold loopClose
  rw [terminate_size]

theorem loopClose_blocks (be target : Nat) (st₃ : BSt) (j : Nat) :
    (loopClose be target st₃).blocks[j]? =
      if be = j then
        st₃.blocks[j]?.map (fun bb => { bb with term := some (.goto target) })
      else st₃.blocks[j]? := by
  unfold loopClose
  rw [terminate_blocks]

theorem loopClose_loop_scopes (be target : Nat) (st₃ : BSt) :
    (loopClose be target st₃).loop_scopes = st₃.loop_scopes.tail := by
  unfold loopClose
  simp

@[simp] theorem loopClose_scopes (be target : Nat) (st₃ : BSt) :
    (loopClose be target st₃).scopes = st₃.scopes := by
  unfold loopClose
  simp

theorem Frame_exprYield (b e : Nat) (st : BSt) (hb : b < st.blocks.size) :
    Frame st (exprYield b e st).1 b (exprYield b e st).2 := by
  rw [exprYield_eq]
  refine ⟨?_, ?_, by simp, by simp,
    Or.inr ⟨Nat.le_refl _, ⟨some "AfterYield", [], none⟩, ?_, rfl⟩⟩
  · rw [terminate_size, startNewBlock_size]; omega
  · intro i hi hne
    rw [terminate_blocks, if_neg (fun h => hne h.symm), startNewBlock_blocks,
      if_neg (by omega)]
  · rw [terminate_blocks, if_neg (by omega), startNewBlock_blocks, if_pos rfl]

theorem Frame_exprRet (b sp : Nat) (v : Option Nat) (st : BSt)
    (hb : b < st.blocks.size) :
    Frame st (exprRet b sp v st).1 b (exprRet b sp v st).2 := by
  rw [exprRet_eq]
  refine ⟨?_, ?_, by simp, by simp, Or.inr ⟨?_, ⟨some "AfterReturn", [], none⟩, ?_, rfl⟩⟩
  · rw [startNewBlock_size, exitScope_size, pushStmt_size]; omega
  · intro i hi hne
    rw [startNewBlock_blocks, exitScope_size, pushStmt_size, if_neg (by omega),
      exitScope_blocks, if_neg (fun h => hne h.symm), pushStmt_blocks,
      if_neg (fun h => hne h.symm)]
  · rw [startNewBlock_snd, exitScope_size, pushStmt_size]
  · rw [startNewBlock_snd, startNewBlock_blocks, if_pos rfl]

theorem Frame_breakOrContinue (sp : Nat) (lbl : Option Nat) (b : Nat)
    (sel : LoopScope → Nat) (st : BSt) (hb : b < st.blocks.size) :
    Frame st (breakOrContinue sp lbl b sel st).1 b
      (breakOrContinue sp lbl b sel st).2 := by
  unfold breakOrContinue
  generalize hst1 : (if isInsideLoop st then st
      else spanErr sp "cannot break outside of a loop" st) = st1
  have hbl : st1.blocks = st.blocks := by rw [← hst1]; split <;> rfl
  have hls : st1.loop_scopes = st.loop_scopes := by rw [← hst1]; split <;> rfl
  have hsc : st1.scopes = st.scopes := by rw [← hst1]; split <;> rfl
  cases hf : findLoopScope lbl st1 with
  | some ls =>
    simp only [hf]
    refine ⟨?_, ?_, ?_, ?_,
      Or.inr ⟨?_, ⟨some "AfterBreakOrContinue", [], none⟩, ?_, rfl⟩⟩
    · rw [startNewBlock_size, exitScope_size, hbl]; omega
    · intro i hi hne
      rw [startNewBlock_blocks, exitScope_size, hbl, if_neg (by omega),
        exitScope_blocks, if_neg (fun h => hne h.symm), hbl]
    · simp only [startNewBlock_loop_scopes, exitScope_loop_scopes]; exact hls
    · simp only [startNewBlock_scopes, exitScope_scopes]; exact hsc
    · rw [startNewBlock_snd, exitScope_size, hbl]
    · rw [startNewBlock_snd, startNewBlock_blocks, if_pos rfl]
  | none =>
    simp only [hf]
    generalize hst2 : (if isInsideLoop st1 then
        spanErr sp "break or continue to unknown label" st1 else st1) = st2
    have hbl2 : st2.blocks = st.blocks := by rw [← hst2]; split <;> simp [hbl]
    have hls2 : st2.loop_scopes = st.loop_scopes := by
      rw [← hst2]; split <;> simp [hls]
    have hsc2 : st2.scopes = st.scopes := by rw [← hst2]; split <;> simp [hsc]
    refine ⟨?_, ?_, ?_, ?_,
      Or.inr ⟨?_, ⟨some "AfterBreakOrContinue", [], none⟩, ?_, rfl⟩⟩
    · rw [startNewBlock_size, hbl2]; omega
    · intro i hi hne
      rw [startNewBlock_blocks, hbl2, if_neg (by omega)]
    · simp only [startNewBlock_loop_scopes]; exact hls2
    · simp only [startNewBlock_scopes]; exact hsc2
    · rw [startNewBlock_snd, hbl2]
    · rw [startNewBlock_snd, startNewBlock_blocks, if_pos rfl]

theorem Frame_ifS {b c eB : Nat} {st st₃ st₄ : BSt}
    {thenEnd elseEnd : Nat} (hb : b < st.blocks.size)
    (heB : eB = st.blocks.size + 1)
    (F3 : Frame (ifSetup b c st) st₃ st.blocks.size thenEnd)
    (F4 : Frame st₃ st₄ eB elseEnd) :
    Frame st (ifClose thenEnd elseEnd st₄) b st₄.blocks.size := by
  subst heB
  have hs2 : (ifSetup b c st).blocks.size = st.blocks.size + 2 := ifSetup_size b c st
  have hs23 : st.blocks.size + 2 ≤ st₃.blocks.size := by
    rw [← hs2]; exact F3.size_le
  have hs34 : st₃.blocks.size ≤ st₄.blocks.size := F4.size_le
  have hthen : thenEnd < st₃.blocks.size ∧ st.blocks.size ≤ thenEnd := by
    rcases F3.cur with ⟨rfl, _⟩ | ⟨hge, bb1, hbb1, _⟩
    · exact ⟨by omega, by omega⟩
    · rw [hs2] at hge
      exact ⟨lt_size_of_getElem?_some hbb1, by omega⟩
  have helse : elseEnd < st₄.blocks.size ∧ st.blocks.size + 1 ≤ elseEnd := by
    rcases F4.cur with ⟨rfl, _⟩ | ⟨hge, bb1, hbb1, _⟩
    · exact ⟨by omega, by omega⟩
    · exact ⟨lt_size_of_getElem?_some hbb1, by omega⟩
  refine ⟨?_, ?_, ?_, ?_, Or.inr ⟨by omega, ⟨some "IfJoin", [], none⟩, ?_, rfl⟩⟩
  · rw [ifClose_size]; omega
  · intro i hi hne
    rw [ifClose_blocks, if_neg (by omega), if_neg (by omega), if_neg (by omega),
      F4.untouched i (by omega) (by omega),
      F3.untouched i (by rw [hs2]; omega) (by omega),
      ifSetup_blocks b c st hb, if_neg hne, if_neg (by omega), if_neg (by omega)]
  · simp only [ifClose_loop_scopes]
    rw [F4.loops, F3.loops, ifSetup_loop_scopes]
  · simp only [ifClose_scopes]
    rw [F4.scopes_eq, F3.scopes_eq, ifSetup_scopes]
  · rw [ifClose_blocks, if_neg (by omega), if_neg (by omega), if_pos rfl]

theorem Frame_loopS {extent b : Nat} {lbl : Option Nat}
    {st st₃ : BSt} {bodyEnd : Nat} (hb : b < st.blocks.size)
    (F3 : Frame (loopSetup extent b lbl st) st₃ st.blocks.size bodyEnd) :
    Frame st (loopClose bodyEnd st.blocks.size st₃) b
      ((startNewBlock (some "Loop") st).1.blocks.size) := by
  have he : (startNewBlock (some "Loop") st).1.blocks.size = st.blocks.size + 1 := by
    rw [startNewBlock_size]
  have hs2 : (loopSetup extent b lbl st).blocks.size = st.blocks.size + 2 :=
    loopSetup_size extent b lbl st
  have hs23 : st.blocks.size + 2 ≤ st₃.blocks.size := by
    rw [← hs2]; exact F3.size_le
  have hbody : bodyEnd < st₃.blocks.size ∧ st.blocks.size ≤ bodyEnd := by
    rcases F3.cur with ⟨rfl, _⟩ | ⟨hge, bb1, hbb1, _⟩
    · exact ⟨by omega, by omega⟩
    · rw [hs2] at hge
      exact ⟨lt_size_of_getElem?_some hbb1, by omega⟩
  have hbne : ¬ bodyEnd = st.blocks.size + 1 := by
    rcases F3.cur with ⟨rfl, _⟩ | ⟨hge, _, _, _⟩
    · omega
    · rw [hs2] at hge
      omega
  refine ⟨?_, ?_, ?_, ?_,
    Or.inr ⟨by rw [he]; omega, ⟨some "LoopExit", [], none⟩, ?_, rfl⟩⟩
  · rw [loopClose_size]; omega
  · intro i hi hne
    rw [loopClose_blocks, if_neg (by omega),
      F3.untouched i (by rw [hs2]; omega) (by omega),
      loopSetup_blocks extent b lbl st hb, if_neg hne, if_neg (by omega),
      if_neg (by omega)]
  · rw [loopClose_loop_scopes, F3.loops, loopSetup_loop_scopes]
    rfl
  · rw [loopClose_scopes, F3.scopes_eq, loopSetup_scopes]
  · rw [he, loopClose_blocks, if_neg hbne,
      F3.untouched _ (by rw [hs2]; omega) (by omega),
      loopSetup_blocks extent b lbl st hb, if_neg (by omega), if_pos rfl]

mutual
theorem Frame_fstmt : (s : FStmt) → ∀ extent b st, b < st.blocks.size →
    Frame st (fstmt extent b s st).1 b (fstmt extent b s st).2
  | .pass sid => fun extent b st _ => by
    unfold fstmt
    split
    · exact Frame_pushStmt _ _ _
    · exact Frame_pushStmt _ _ _
  | .yieldS e => fun extent b st hb => by
    unfold fstmt
    split
    · exact Frame_pushStmt _ _ _
    · exact Frame_exprYield _ _ _ hb
  | .retS sp v => fun extent b st hb => by
    unfold fstmt
    split
    · exact Frame_pushStmt _ _ _
    · exact Frame_exprRet _ _ _ _ hb
  | .breakS sp l => fun extent b st hb => by
    unfold fstmt
    split
    · exact Frame_pushStmt _ _ _
    · exact Frame_breakOrContinue _ _ _ _ _ hb
  | .contS sp l => fun extent b st hb => by
    unfold fstmt
    split
    · exact Frame_pushStmt _ _ _
    · exact Frame_breakOrContinue _ _ _ _ _ hb
  | .ifS c thn els => fun extent b st hb => by
    by_cases hct : ctF (isInsideLoop st) (.ifS c thn els) = false
    · rw [show fstmt extent b (.ifS c thn els) st =
          (pushStmt b (.exprS (.ifS c thn els)) st, b) from by
        unfold fstmt; rw [if_pos hct]]
      exact Frame_pushStmt _ _ _
    · rw [fstmt_ifS_eq extent b c thn els st hct]
      exact Frame_ifS hb (by rw [startNewBlock_size])
        (Frame_fstmts thn extent st.blocks.size (ifSetup b c st)
          (by rw [ifSetup_size]; omega))
        (Frame_fstmts els extent (startNewBlock (some "Then") st).1.blocks.size
          (fstmts extent st.blocks.size thn (ifSetup b c st)).1
          (by
            have hs := (Frame_fstmts thn extent st.blocks.size (ifSetup b c st)
              (by rw [ifSetup_size]; omega)).size_le
            rw [ifSetup_size] at hs
            rw [startNewBlock_size]
            omega))
  | .loopS lbl body => fun extent b st hb => by
    by_cases hct : ctF (isInsideLoop st) (.loopS lbl body) = false
    · rw [show fstmt extent b (.loopS lbl body) st =
          (pushStmt b (.exprS (.loopS lbl body)) st, b) from by
        unfold fstmt; rw [if_pos hct]]
      exact Frame_pushStmt _ _ _
    · rw [fstmt_loopS_eq extent b lbl body st hct]
      exact Frame_loopS hb
        (Frame_fstmts body extent st.blocks.size (loopSetup extent b lbl st)
          (by rw [loopSetup_size]; omega))

theorem Frame_fstmts : (ss : FStmtList) → ∀ extent b st, b < st.blocks.size →
    Frame st (fstmts extent b ss st).1 b (fstmts extent b ss st).2
  | .nil => fun extent b st _ => Frame_refl st b
  | .cons s rest => fun extent b st hb => by
    have F1 := Frame_fstmt s extent b st hb
    have hb1 : (fstmt extent b s st).2 < (fstmt extent b s st).1.blocks.size := by
      rcases F1.cur with ⟨he, _⟩ | ⟨_, bb1, hbb1, _⟩
      · rw [he]; exact Nat.lt_of_lt_of_le hb F1.size_le
      · exact lt_size_of_getElem?_some hbb1
    have F2 := Frame_fstmts rest extent (fstmt extent b s st).2
      (fstmt extent b s st).1 hb1
    have hrw : fstmts extent b (.cons s rest) st =
        fstmts extent (fstmt extent b s st).2 rest (fstmt extent b s st).1 := rfl
    rw [hrw]
    exact Frame_trans F1 F2
end

theorem findLoopScope_nil {st : BSt} (h : st.loop_scopes = []) (l : Option Nat) :
    findLoopScope l st = none := by
  unfold findLoopScope
  cases l <;> rw [h] <;> rfl

theorem findLoopScope_congr {st st' : BSt} (h : st'.loop_scopes = st.loop_scopes)
    (l : Option Nat) : findLoopScope l st' = findLoopScope l st := by
  unfold findLoopScope
  cases l <;> rw [h]

theorem findLoopScope_head {st st' : BSt} {sc : LoopScope}
    (h : st'.loop_scopes = sc :: st.loop_scopes) :
    findLoopScope none st' = some sc := by
  unfold findLoopScope
  rw [h]
  rfl

theorem findLoopScope_cons_eq {st' : BSt} {sc : LoopScope} {rest : List LoopScope}
    (h : st'.loop_scopes = sc :: rest) {l : Nat} (heq : sc.label = some l) :
    findLoopScope (some l) st' = some sc := by
  unfold findLoopScope
  rw [h]
  simp [List.find?_cons, heq]

theorem findLoopScope_cons_ne {st st' : BSt} {sc : LoopScope}
    (h : st'.loop_scopes = sc :: st.loop_scopes) {l : Nat}
    (hne : sc.label ≠ some l) :
    findLoopScope (some l) st' = findLoopScope (some l) st := by
  unfold findLoopScope
  rw [h]
  simp [List.find?_cons, hne]

section SimSem

variable (C : Env → Nat → Bool) (V : Env → Nat → Nat)

/-- The result of the first statement of a `dstep` unfolding (the `head`
computation of `dstep`'s `cons` arm, as a standalone function). -/
def dhead (fuel : Nat) (env : Env) : FStmt → Option (List Nat × Env × Ctl)
  | .pass sid => some ([], env ++ [sid], .fall)
  | .yieldS e => some ([V env e], env, .fall)
  | .retS _ _ => some ([], env, .retd)
  | .breakS _ l => some ([], env, .brk l)
  | .contS _ l => some ([], env, .cont l)
  | .ifS c thn els => if C env c then dstep C V fuel env thn else dstep C V fuel env els
  | .loopS lbl body =>
    match dstep C V fuel env body with
    | none => none
    | some (o, e', c) =>
      match c with
      | .fall =>
        (dstep C V fuel e' (.cons (.loopS lbl body) .nil)).map
          (fun r => (o ++ r.1, r.2.1, r.2.2))
      | .cont none =>
        (dstep C V fuel e' (.cons (.loopS lbl body) .nil)).map
          (fun r => (o ++ r.1, r.2.1, r.2.2))
      | .cont (some l) =>
        if lbl = some l then
          (dstep C V fuel e' (.cons (.loopS lbl body) .nil)).map
            (fun r => (o ++ r.1, r.2.1, r.2.2))
        else some (o, e', .cont (some l))
      | .brk none => some (o, e', .fall)
      | .brk (some l) =>
        if lbl = some l then some (o, e', .fall) else some (o, e', .brk (some l))
      | .retd => some (o, e', .retd)

theorem dstep_nil_eq (fuel : Nat) (env : Env) :
    dstep C V fuel env .nil = some ([], env, .fall) := by
  cases fuel <;> rfl

theorem dstep_zero_cons (env : Env) (s : FStmt) (ss : FStmtList) :
    dstep C V 0 env (.cons s ss) = none := rfl

theorem dstep_cons_eq (fuel : Nat) (env : Env) (s : FStmt) (ss : FStmtList) :
    dstep C V (fuel+1) env (.cons s ss) =
      match dhead C V fuel env s with
      | some (o, e', .fall) =>
        (dstep C V fuel e' ss).map (fun r => (o ++ r.1, r.2.1, r.2.2))
      | r => r := by
  cases s <;> rfl

/-- Inversion of one `dstep` unfolding on a nonempty list: either the head
falls through and the tail runs, or the head's escaping result is the
final result. -/
theorem dstep_cons_inv (fuel : Nat) (env : Env) (s : FStmt) (ss : FStmtList)
    (o : List Nat) (e' : Env) (c : Ctl)
    (hd : dstep C V (fuel+1) env (.cons s ss) = some (o, e', c)) :
    (∃ o₁ e₁ o₂, dhead C V fuel env s = some (o₁, e₁, .fall) ∧
      dstep C V fuel e₁ ss = some (o₂, e', c) ∧ o = o₁ ++ o₂) ∨
    (dhead C V fuel env s = some (o, e', c) ∧ c ≠ .fall) := by
  rw [dstep_cons_eq] at hd
  split at hd
  next o₁ e₁ heq =>
    rcases Option.map_eq_some'.1 hd with ⟨⟨o₂, e₂, c₂⟩, hr, hmk⟩
    simp only [Prod.mk.injEq] at hmk
    obtain ⟨h1, h2, h3⟩ := hmk
    left
    exact ⟨o₁, e₁, o₂, heq, by rw [hr, h2, h3], h1.symm⟩
  next r hne =>
    right
    rw [hd] at hne ⊢
    refine ⟨rfl, fun hc => ?_⟩
    subst hc
    exact hne o e' rfl
  
/-- Composing a head result into one `dstep` unfolding of a singleton. -/
theorem dstep_single_of_head (fuel : Nat) (env : Env) (s : FStmt)
    (o : List Nat) (e' : Env) (c : Ctl)
    (hh : dhead C V fuel env s = some (o, e', c)) :
    dstep C V (fuel+1) env (.cons s .nil) = some (o, e', c) := by
  rw [dstep_cons_eq, hh]
  cases c <;> simp [dstep_nil_eq]

/-- The head result of a singleton `dstep`. -/
theorem dhead_of_single (fuel : Nat) (env : Env) (s : FStmt)
    (o : List Nat) (e' : Env) (c : Ctl)
    (hd : dstep C V (fuel+1) env (.cons s .nil) = some (o, e', c)) :
    dhead C V fuel env s = some (o, e', c) := by
  rcases dstep_cons_inv C V fuel env s .nil o e' c hd with
    ⟨o₁, e₁, o₂, hh, hnil, rfl⟩ | ⟨hh, _⟩
  · rw [dstep_nil_eq] at hnil
    cases hnil
    simpa using hh
  · exact hh

/-- Inversion of the `loop` head: the body ran; either an
iteration-triggering outcome chained into the restarted loop, or the
result is determined by the body's escape. -/
theorem dhead_loop_inv (fuel : Nat) (env : Env) (lbl : Option Nat)
    (body : FStmtList) (o₁ : List Nat) (e₁ : Env) (c₁ : Ctl)
    (hh : dhead C V fuel env (.loopS lbl body) = some (o₁, e₁, c₁)) :
    ∃ ob eb cb, dstep C V fuel env body = some (ob, eb, cb) ∧
      (((cb = .fall ∨ cb = .cont none ∨ (∃ l, cb = .cont (some l) ∧ lbl = some l)) ∧
        ∃ oi, dstep C V fuel eb (.cons (.loopS lbl body) .nil) = some (oi, e₁, c₁) ∧
          o₁ = ob ++ oi)
       ∨ (cb = .brk none ∧ o₁ = ob ∧ e₁ = eb ∧ c₁ = .fall)
       ∨ (∃ l, cb = .brk (some l) ∧ lbl = some l ∧ o₁ = ob ∧ e₁ = eb ∧ c₁ = .fall)
       ∨ (∃ l, cb = .brk (some l) ∧ lbl ≠ some l ∧ o₁ = ob ∧ e₁ = eb ∧
           c₁ = .brk (some l))
       ∨ (∃ l, cb = .cont (some l) ∧ lbl ≠ some l ∧ o₁ = ob ∧ e₁ = eb ∧
           c₁ = .cont (some l))
       ∨ (cb = .retd ∧ o₁ = ob ∧ e₁ = eb ∧ c₁ = .retd)) := by
  simp only [dhead] at hh
  split at hh
  · exact absurd hh (by simp)
  next ob eb cb hb =>
    refine ⟨ob, eb, cb, hb, ?_⟩
    split at hh
    · -- fall: iterate
      rcases Option.map_eq_some'.1 hh with ⟨⟨oi, ei, ci⟩, hit, hmk⟩
      simp only [Prod.mk.injEq] at hmk
      obtain ⟨h1, h2, h3⟩ := hmk
      exact Or.inl ⟨Or.inl rfl, oi, by rw [hit, h2, h3], h1.symm⟩
    · -- cont none: iterate
      rcases Option.map_eq_some'.1 hh with ⟨⟨oi, ei, ci⟩, hit, hmk⟩
      simp only [Prod.mk.injEq] at hmk
      obtain ⟨h1, h2, h3⟩ := hmk
      exact Or.inl ⟨Or.inr (Or.inl rfl), oi, by rw [hit, h2, h3], h1.symm⟩
    · -- cont (some l): if on the label
      split at hh
      · rcases Option.map_eq_some'.1 hh with ⟨⟨oi, ei, ci⟩, hit, hmk⟩
        simp only [Prod.mk.injEq] at hmk
        obtain ⟨h1, h2, h3⟩ := hmk
        exact Or.inl ⟨Or.inr (Or.inr ⟨_, rfl, by assumption⟩), oi,
          by rw [hit, h2, h3], h1.symm⟩
      · cases hh
        exact Or.inr (Or.inr (Or.inr (Or.inr (Or.inl
          ⟨_, rfl, by assumption, rfl, rfl, rfl⟩))))
    · -- brk none
      cases hh
      exact Or.inr (Or.inl ⟨rfl, rfl, rfl, rfl⟩)
    · -- brk (some l): if on the label
      split at hh
      · cases hh
        exact Or.inr (Or.inr (Or.inl ⟨_, rfl, by assumption, rfl, rfl, rfl⟩))
      · cases hh
        exact Or.inr (Or.inr (Or.inr (Or.inl
          ⟨_, rfl, by assumption, rfl, rfl, rfl⟩)))
    · -- retd
      cases hh
      exact Or.inr (Or.inr (Or.inr (Or.inr (Or.inr ⟨rfl, rfl, rfl, rfl⟩))))

/-- Direct execution of a transition-free statement list produces no
output, never returns, and — whenever the detector flag was really set —
cannot escape by a jump either. -/
theorem ctFs_false_sound (il : Bool) : ∀ (fuel : Nat) (env : Env) (ss : FStmtList)
    (o : List Nat) (e' : Env) (c : Ctl), ctFs il ss = false →
    dstep C V fuel env ss = some (o, e', c) →
    o = [] ∧ c ≠ .retd ∧ (il = true → c = .fall) := by
  intro fuel
  induction fuel with
  | zero =>
    intro env ss o e' c hct hd
    cases ss with
    | nil =>
      rw [dstep_nil_eq] at hd
      cases hd
      exact ⟨rfl, by simp, fun _ => rfl⟩
    | cons s rest => exact absurd hd (by rw [dstep_zero_cons]; simp)
  | succ fuel ih =>
    intro env ss o e' c hct hd
    cases ss with
    | nil =>
      rw [dstep_nil_eq] at hd
      cases hd
      exact ⟨rfl, by simp, fun _ => rfl⟩
    | cons s rest =>
      rw [ctFs] at hct
      have hcs : ctF il s = false ∧ ctFs il rest = false := by
        simpa using hct
      have hhead : ∀ o₁ e₁ c₁, dhead C V fuel env s = some (o₁, e₁, c₁) →
          o₁ = [] ∧ c₁ ≠ .retd ∧ (il = true → c₁ = .fall) := by
        intro o₁ e₁ c₁ hh
        cases s with
        | pass sid =>
          simp only [dhead] at hh
          cases hh
          exact ⟨rfl, by simp, fun _ => rfl⟩
        | yieldS e => simp [ctF] at hcs
        | retS sp v => simp [ctF] at hcs
        | breakS sp l =>
          simp only [dhead] at hh
          cases hh
          have hil : il = false := by simpa [ctF] using hcs.1
          exact ⟨rfl, by simp, fun h => absurd h (by rw [hil]; simp)⟩
        | contS sp l =>
          simp only [dhead] at hh
          cases hh
          have hil : il = false := by simpa [ctF] using hcs.1
          exact ⟨rfl, by simp, fun h => absurd h (by rw [hil]; simp)⟩
        | ifS cnd thn els =>
          have hts : ctFs il thn = false ∧ ctFs il els = false := by
            simpa [ctF] using hcs.1
          simp only [dhead] at hh
          split at hh
          · exact ih env thn o₁ e₁ c₁ hts.1 hh
          · exact ih env els o₁ e₁ c₁ hts.2 hh
        | loopS lbl body =>
          have hbs : ctFs il body = false := by simpa [ctF] using hcs.1
          rcases dhead_loop_inv C V fuel env lbl body o₁ e₁ c₁ hh with
            ⟨ob, eb, cb, hb, hcase⟩
          obtain ⟨rfl, hbnr, hbif⟩ := ih env body ob eb cb hbs hb
          rcases hcase with
            ⟨htrig, oo, hit, ho⟩ | ⟨hcb, rfl, rfl, rfl⟩ |
            ⟨l, hcb, hlb, rfl, rfl, rfl⟩ | ⟨l, hcb, hlb, rfl, rfl, rfl⟩ |
            ⟨l, hcb, hlb, rfl, rfl, rfl⟩ | ⟨hcb, rfl, rfl, rfl⟩
          · subst ho
            exact ih eb (FStmtList.cons (FStmt.loopS lbl body) FStmtList.nil)
              o₁ e₁ c₁ (by simpa [ctFs, ctF] using hbs) hit
          · exact ⟨rfl, by simp, fun _ => rfl⟩
          · exact ⟨rfl, by simp, fun _ => rfl⟩
          · exact ⟨rfl, by simp, fun h => absurd (hbif h) (by rw [hcb]; simp)⟩
          · exact ⟨rfl, by simp, fun h => absurd (hbif h) (by rw [hcb]; simp)⟩
          · exact absurd hcb hbnr
      rcases dstep_cons_inv C V fuel env s rest o e' c hd with
        ⟨o₁, e₁, o₂, hh, hrest, rfl⟩ | ⟨hh, hcne⟩
      · obtain ⟨rfl, _, _⟩ := hhead o₁ e₁ .fall hh
        obtain ⟨rfl, h2nr, h2if⟩ := ih e₁ rest o₂ e' c hcs.2 hrest
        exact ⟨rfl, h2nr, h2if⟩
      · exact hhead o e' c hh

theorem fdrop_exprS_single (s : FStmt) : fdrop [.exprS s] = [.exprS s] := rfl

theorem fdrop_assign_single (d : Nat) (v : Option Nat) :
    fdrop [.assign d v] = [.assign d v] := rfl

theorem fdrop_retDrops (st : BSt) : fdrop (retDrops st) = [] :=
  fdrop_dropMap _

/-- A complete machine run that reaches the end block immediately ends the
output sequence. -/
theorem MRun_end (G : Array BBlock) (hE : EndOK G) (env : Env) :
    MRun C V G 1 env [] := by
  obtain ⟨nm, hG1⟩ := hE
  exact .mk 1 env ⟨nm, [], some .retT⟩ env [] hG1 (.nil env) (.retT env)

/-- Running the rest of a block whose remaining statements are exhausted
and whose terminator is a `Goto` is running the target block. -/
theorem MRun_goto_of_TailAfter {G : Array BBlock} {b t : Nat} {bb : BBlock}
    {p : List MStmt} {env : Env} {out : List Nat}
    (hG : G[b]? = some bb) (hstmts : bb.stmts = p)
    (hterm : bb.term = some (.goto t))
    (h : TailAfter C V G b p env out) : MRun C V G t env out := by
  obtain ⟨bb', tail, env', hbb', hst, hre, htr⟩ := h
  rw [hG] at hbb'
  cases hbb'
  have htail : tail = [] := by
    rw [hstmts] at hst
    have hlen := congrArg List.length hst
    simp at hlen
    exact hlen
  subst htail
  cases hre
  rw [hterm] at htr
  cases htr with
  | goto t' env' out' h' => exact h'

/-- The two run positions the simulation relates after each translated
statement: on fall-through the machine continues at the continuation block
(and the segment's output is prepended); an escaping `break`/`continue`
continues at the block recorded in the matching loop scope; a `return`
ends the run.  `pre` is the (unfiltered) prefix of the current block that
was already present before this segment. -/
def Post (G : Array BBlock) (st st₁ : BSt) (b b₁ : Nat) (pre : List MStmt)
    (env : Env) (o : List Nat) (e' : Env) : Ctl → Prop
  | .fall => ∀ K, (∀ bb1, st₁.blocks[b₁]? = some bb1 →
      TailAfter C V G b₁ (fdrop bb1.stmts) e' K) →
      TailAfter C V G b (fdrop pre) env (o ++ K)
  | .brk l => ∀ ls, findLoopScope l st = some ls → ∀ K,
      MRun C V G ls.break_block e' K → TailAfter C V G b (fdrop pre) env (o ++ K)
  | .cont l => ∀ ls, findLoopScope l st = some ls → ∀ K,
      MRun C V G ls.continue_block e' K → TailAfter C V G b (fdrop pre) env (o ++ K)
  | .retd => TailAfter C V G b (fdrop pre) env o

/-- The simulation: every direct execution of a translated statement (or
statement list) is matched by the synthesized machine, relative to the
final machine `G` and the continuations described by `Post`. -/
theorem sim_main (G : Array BBlock) (hE : EndOK G) : ∀ fuel : Nat,
    (∀ (s : FStmt) (extent b : Nat) (st st₁ : BSt) (b₁ : Nat) (bb0 : BBlock),
      fstmt extent b s st = (st₁, b₁) →
      st.blocks[b]? = some bb0 → bb0.term = none →
      Agrees G st₁ →
      ∀ (env : Env) (o : List Nat) (e' : Env) (c : Ctl),
        dstep C V fuel env (.cons s .nil) = some (o, e', c) →
        Post C V G st st₁ b b₁ bb0.stmts env o e' c)
    ∧ (∀ (ss : FStmtList) (extent b : Nat) (st st' : BSt) (b' : Nat) (bb0 : BBlock),
      fstmts extent b ss st = (st', b') →
      st.blocks[b]? = some bb0 → bb0.term = none →
      Agrees G st' →
      ∀ (env : Env) (o : List Nat) (e' : Env) (c : Ctl),
        dstep C V fuel env ss = some (o, e', c) →
        Post C V G st st' b b' bb0.stmts env o e' c) := by
  intro fuel
  induction fuel with
  | zero =>
    constructor
    · intro s extent b st st₁ b₁ bb0 hrun hbb0 hop hAg env o e' c hd
      rw [dstep_zero_cons] at hd
      cases hd
    · intro ss extent b st st' b' bb0 hrun hbb0 hop hAg env o e' c hd
      cases ss with
      | nil =>
        rw [dstep_nil_eq] at hd
        cases hd
        have hrun' : (st, b) = (st', b') := hrun
        cases hrun'
        intro K hK
        have hTA := hK bb0 hbb0
        simpa using hTA
      | cons s rest =>
        rw [dstep_zero_cons] at hd
        cases hd
  | succ fuel ih =>
    obtain ⟨ihs, ihl⟩ := ih
    have hstmt : ∀ (s : FStmt) (extent b : Nat) (st st₁ : BSt) (b₁ : Nat)
        (bb0 : BBlock),
        fstmt extent b s st = (st₁, b₁) →
        st.blocks[b]? = some bb0 → bb0.term = none →
        Agrees G st₁ →
        ∀ (env : Env) (o : List Nat) (e' : Env) (c : Ctl),
          dstep C V (fuel+1) env (.cons s .nil) = some (o, e', c) →
          Post C V G st st₁ b b₁ bb0.stmts env o e' c := by
      intro s extent b st st₁ b₁ bb0 hrun hbb0 hop hAg env o e' c hd
      have hb : b < st.blocks.size := lt_size_of_getElem?_some hbb0
      have hh := dhead_of_single C V fuel env s o e' c hd
      by_cases hct : ctF (isInsideLoop st) s = false
      · -- passthrough: the statement is appended verbatim and replayed
        have hrun' : (pushStmt b (.exprS s) st, b) = (st₁, b₁) := by
          rw [← hrun]
          unfold fstmt
          rw [if_pos hct]
        cases hrun'
        obtain ⟨rfl, hnr, hif⟩ := ctFs_false_sound C V (isInsideLoop st) (fuel+1)
          env (.cons s .nil) o e' c (by simpa [ctFs] using hct) hd
        cases c with
        | fall =>
          intro K hK
          have hpush : (pushStmt b (.exprS s) st).blocks[b]? =
              some ⟨bb0.name, bb0.stmts ++ [.exprS s], bb0.term⟩ := by
            rw [pushStmt_blocks, if_pos rfl, hbb0]
            rfl
          have hTA : TailAfter C V G b (fdrop (bb0.stmts ++ [.exprS s])) e' K :=
            hK _ hpush
          obtain ⟨bb, tail, env2, hGb, hst, hre, htr⟩ := hTA
          refine ⟨bb, .exprS s :: tail, env2, hGb, ?_, ?_, htr⟩
          · rw [hst, fdrop_append, fdrop_exprS_single]
            simp
          · exact .exprS env s e' tail env2 ⟨fuel+1, hd⟩ hre
        | brk l =>
          intro ls hls K hM
          cases hil : isInsideLoop st with
          | true => exact absurd (hif hil) (by simp)
          | false =>
            rw [findLoopScope_nil (loop_scopes_nil_of_not_inside st hil) l] at hls
            cases hls
        | cont l =>
          intro ls hls K hM
          cases hil : isInsideLoop st with
          | true => exact absurd (hif hil) (by simp)
          | false =>
            rw [findLoopScope_nil (loop_scopes_nil_of_not_inside st hil) l] at hls
            cases hls
        | retd => exact absurd rfl hnr
      · cases s with
        | pass sid => simp [ctF] at hct
        | yieldS e =>
          have hrun' : (terminate b (.suspend e st.blocks.size)
              (startNewBlock (some "AfterYield") st).1, st.blocks.size) =
              (st₁, b₁) := by
            rw [← hrun]
            unfold fstmt
            rw [if_neg hct]
            rfl
          cases hrun'
          simp only [dhead] at hh
          cases hh
          intro K hK
          have hres : (terminate b (.suspend e st.blocks.size)
              (startNewBlock (some "AfterYield") st).1).blocks[st.blocks.size]? =
              some ⟨some "AfterYield", [], none⟩ := by
            rw [terminate_blocks, if_neg (by omega), startNewBlock_blocks,
              if_pos rfl]
          have hKres : TailAfter C V G st.blocks.size (fdrop []) env K :=
            hK _ hres
          have hMres : MRun C V G st.blocks.size env K :=
            MRun_of_TailAfter_nil C V G st.blocks.size env K hKres
          have hcl : (terminate b (.suspend e st.blocks.size)
              (startNewBlock (some "AfterYield") st).1).blocks[b]? =
              some ⟨bb0.name, bb0.stmts, some (.suspend e st.blocks.size)⟩ := by
            rw [terminate_blocks, if_pos rfl, startNewBlock_blocks,
              if_neg (by omega), hbb0]
            rfl
          have hbG : G[b]? = some ⟨bb0.name, fdrop bb0.stmts,
              some (.suspend e st.blocks.size)⟩ := hAg b _ hcl (by simp)
          exact ⟨_, [], env, hbG, by simp, .nil env,
            .suspend e st.blocks.size env K hMres⟩
        | retS sp v =>
          have hrun' : exprRet b sp (some v) st = (st₁, b₁) := by
            rw [← hrun]
            unfold fstmt
            rw [if_neg hct]
          have heff := exprRet_effect st b sp (some v) bb0 hbb0
          have h1 : st₁ = (exprRet b sp (some v) st).1 := by rw [hrun']
          simp only [dhead] at hh
          cases hh
          have hcl : st₁.blocks[b]? = some
              { bb0 with
                stmts := (bb0.stmts ++ [.assign RETURN_POINTER (some v)]) ++
                  retDrops st,
                term := some (.goto END_BLOCK) } := by
            rw [h1]
            exact heff.1
          have hbG : G[b]? = some ⟨bb0.name,
              fdrop ((bb0.stmts ++ [.assign RETURN_POINTER (some v)]) ++
                retDrops st), some (.goto END_BLOCK)⟩ := hAg b _ hcl (by simp)
          rw [fdrop_append, fdrop_retDrops, List.append_nil, fdrop_append,
            fdrop_assign_single] at hbG
          refine ⟨_, [.assign RETURN_POINTER (some v)], env, hbG, rfl, ?_, ?_⟩
          · exact .assign env RETURN_POINTER (some v) [] env (.nil env)
          · exact .goto END_BLOCK env [] (MRun_end C V G hE env)
        | breakS sp l =>
          have hil : isInsideLoop st = true := by
            revert hct
            simp [ctF]
          have hrun' : breakOrContinue sp l b (fun ls => ls.break_block) st =
              (st₁, b₁) := by
            rw [← hrun]
            unfold fstmt
            rw [if_neg hct]
          simp only [dhead] at hh
          cases hh
          intro ls hls K hM
          unfold breakOrContinue at hrun'
          rw [if_pos hil] at hrun'
          have hrz : (match findLoopScope l st with
              | some lsx =>
                startNewBlock (some "AfterBreakOrContinue")
                  (exitScope sp lsx.extent b (lsx.break_block) st)
              | none =>
                startNewBlock (some "AfterBreakOrContinue")
                  (if isInsideLoop st = true then
                    spanErr sp "break or continue to unknown label" st else st)) =
              (st₁, b₁) := hrun'
          rw [hls] at hrz
          have hrun2 : (startNewBlock (some "AfterBreakOrContinue")
              (exitScope sp ls.extent b (ls.break_block) st)) = (st₁, b₁) := hrz
          have h1 : st₁ = (startNewBlock (some "AfterBreakOrContinue")
              (exitScope sp ls.extent b (ls.break_block) st)).1 := by
            rw [hrun2]
          have hcl : st₁.blocks[b]? = some ⟨bb0.name,
              bb0.stmts ++ (((scopesUpTo ls.extent st.scopes).map
                Scope.drops).flatten).map MStmt.dropS,
              some (.goto (ls.break_block))⟩ := by
            rw [h1, startNewBlock_blocks, exitScope_size, if_neg (by omega),
              exitScope_blocks, if_pos rfl, hbb0]
            rfl
          have hbG : G[b]? = some ⟨bb0.name,
              fdrop (bb0.stmts ++ (((scopesUpTo ls.extent st.scopes).map
                Scope.drops).flatten).map MStmt.dropS),
              some (.goto (ls.break_block))⟩ := hAg b _ hcl (by simp)
          rw [fdrop_append, fdrop_dropMap, List.append_nil] at hbG
          exact ⟨_, [], env, hbG, by simp, .nil env, .goto _ env K hM⟩
        | contS sp l =>
          have hil : isInsideLoop st = true := by
            revert hct
            simp [ctF]
          have hrun' : breakOrContinue sp l b (fun ls => ls.continue_block) st =
              (st₁, b₁) := by
            rw [← hrun]
            unfold fstmt
            rw [if_neg hct]
          simp only [dhead] at hh
          cases hh
          intro ls hls K hM
          unfold breakOrContinue at hrun'
          rw [if_pos hil] at hrun'
          have hrz : (match findLoopScope l st with
              | some lsx =>
                startNewBlock (some "AfterBreakOrContinue")
                  (exitScope sp lsx.extent b (lsx.continue_block) st)
              | none =>
                startNewBlock (some "AfterBreakOrContinue")
                  (if isInsideLoop st = true then
                    spanErr sp "break or continue to unknown label" st else st)) =
              (st₁, b₁) := hrun'
          rw [hls] at hrz
          have hrun2 : (startNewBlock (some "AfterBreakOrContinue")
              (exitScope sp ls.extent b (ls.continue_block) st)) = (st₁, b₁) := hrz
          have h1 : st₁ = (startNewBlock (some "AfterBreakOrContinue")
              (exitScope sp ls.extent b (ls.continue_block) st)).1 := by
            rw [hrun2]
          have hcl : st₁.blocks[b]? = some ⟨bb0.name,
              bb0.stmts ++ (((scopesUpTo ls.extent st.scopes).map
                Scope.drops).flatten).map MStmt.dropS,
              some (.goto (ls.continue_block))⟩ := by
            rw [h1, startNewBlock_blocks, exitScope_size, if_neg (by omega),
              exitScope_blocks, if_pos rfl, hbb0]
            rfl
          have hbG : G[b]? = some ⟨bb0.name,
              fdrop (bb0.stmts ++ (((scopesUpTo ls.extent st.scopes).map
                Scope.drops).flatten).map MStmt.dropS),
              some (.goto (ls.continue_block))⟩ := hAg b _ hcl (by simp)
          rw [fdrop_append, fdrop_dropMap, List.append_nil] at hbG
          exact ⟨_, [], env, hbG, by simp, .nil env, .goto _ env K hM⟩
        | ifS cnd thn els =>
          have hrun' := hrun
          rw [fstmt_ifS_eq extent b cnd thn els st hct] at hrun'
          rcases h3 : fstmts extent st.blocks.size thn (ifSetup b cnd st) with
            ⟨st₃, thenEnd⟩
          rw [h3] at hrun'
          have hrun'' : (ifClose thenEnd
              (fstmts extent (startNewBlock (some "Then") st).1.blocks.size els
                st₃).2
              (fstmts extent (startNewBlock (some "Then") st).1.blocks.size els
                st₃).1,
            (fstmts extent (startNewBlock (some "Then") st).1.blocks.size els
              st₃).1.blocks.size) = (st₁, b₁) := hrun'
          rcases h4 : fstmts extent (startNewBlock (some "Then") st).1.blocks.size
            els st₃ with ⟨st₄, elseEnd⟩
          rw [h4] at hrun''
          have hrun3 : (ifClose thenEnd elseEnd st₄, st₄.blocks.size) =
            (st₁, b₁) := hrun''
          cases hrun3
          have hbT : st.blocks.size < (ifSetup b cnd st).blocks.size := by
            rw [ifSetup_size]; omega
          have F3 : Frame (ifSetup b cnd st) st₃ st.blocks.size thenEnd := by
            have hF := Frame_fstmts thn extent st.blocks.size (ifSetup b cnd st) hbT
            rw [h3] at hF
            exact hF
          have hs3 : st.blocks.size + 2 ≤ st₃.blocks.size := by
            have := F3.size_le
            rw [ifSetup_size] at this
            omega
          have heB : (startNewBlock (some "Then") st).1.blocks.size =
              st.blocks.size + 1 := by
            rw [startNewBlock_size]
          have F4 : Frame st₃ st₄ (startNewBlock (some "Then") st).1.blocks.size
              elseEnd := by
            have hF := Frame_fstmts els extent
              (startNewBlock (some "Then") st).1.blocks.size st₃
              (by rw [heB]; omega)
            rw [h4] at hF
            exact hF
          have hs4 : st₃.blocks.size ≤ st₄.blocks.size := F4.size_le
          have hThen0 : (ifSetup b cnd st).blocks[st.blocks.size]? =
              some ⟨some "Then", [], none⟩ := by
            rw [ifSetup_blocks b cnd st hb, if_neg (by omega), if_neg (by omega),
              if_pos rfl]
          have hElse0 : (ifSetup b cnd st).blocks[st.blocks.size + 1]? =
              some ⟨some "Else", [], none⟩ := by
            rw [ifSetup_blocks b cnd st hb, if_neg (by omega), if_pos rfl]
          have hbcl0 : (ifSetup b cnd st).blocks[b]? = some ⟨bb0.name, bb0.stmts,
              some (.ite cnd st.blocks.size (st.blocks.size + 1))⟩ := by
            rw [ifSetup_blocks b cnd st hb, if_pos rfl, hbb0]
            rfl
          have hTE : (thenEnd = st.blocks.size ∨ st.blocks.size + 2 ≤ thenEnd) ∧
              thenEnd < st₃.blocks.size := by
            rcases F3.cur with ⟨rfl, _⟩ | ⟨hge, bb1, hbb1, _⟩
            · exact ⟨Or.inl rfl, by omega⟩
            · rw [ifSetup_size] at hge
              exact ⟨Or.inr hge, lt_size_of_getElem?_some hbb1⟩
          have hEE : (elseEnd = st.blocks.size + 1 ∨ st₃.blocks.size ≤ elseEnd) ∧
              elseEnd < st₄.blocks.size := by
            rcases F4.cur with ⟨he, _⟩ | ⟨hge, bb1, hbb1, _⟩
            · rw [heB] at he
              exact ⟨Or.inl he, by omega⟩
            · exact ⟨Or.inr hge, lt_size_of_getElem?_some hbb1⟩
          have hTEne : thenEnd ≠ elseEnd := by
            rcases hTE.1 with h | h <;> rcases hEE.1 with h' | h' <;> omega
          have hTne4 : thenEnd ≠ st₄.blocks.size := by
            have := hTE.2
            omega
          have hEne4 : elseEnd ≠ st₄.blocks.size := by
            have := hEE.2
            omega
          have hTneB : thenEnd ≠ (startNewBlock (some "Then") st).1.blocks.size := by
            rw [heB]
            rcases hTE.1 with h | h <;> omega
          have hJoin1 : (ifClose thenEnd elseEnd st₄).blocks[st₄.blocks.size]? =
              some ⟨some "IfJoin", [], none⟩ := by
            rw [ifClose_blocks, if_neg hEne4, if_neg hTne4, if_pos rfl]
          have hTfin : ∀ bbT, st₃.blocks[thenEnd]? = some bbT →
              (ifClose thenEnd elseEnd st₄).blocks[thenEnd]? =
                some ⟨bbT.name, bbT.stmts, some (.goto st₄.blocks.size)⟩ := by
            intro bbT hbbT
            rw [ifClose_blocks, if_neg (fun h => hTEne h.symm), if_pos rfl,
              if_neg hTne4, F4.untouched thenEnd (by omega) hTneB, hbbT]
            rfl
          have hEfin : ∀ bbE, st₄.blocks[elseEnd]? = some bbE →
              (ifClose thenEnd elseEnd st₄).blocks[elseEnd]? =
                some ⟨bbE.name, bbE.stmts, some (.goto st₄.blocks.size)⟩ := by
            intro bbE hbbE
            rw [ifClose_blocks, if_pos rfl, if_neg (fun h => hTEne h),
              if_neg hEne4, hbbE]
            rfl
          have hbne : b ≠ st₄.blocks.size := by omega
          have hbcl : (ifClose thenEnd elseEnd st₄).blocks[b]? =
              some ⟨bb0.name, bb0.stmts,
                some (.ite cnd st.blocks.size (st.blocks.size + 1))⟩ := by
            rw [ifClose_blocks, if_neg (by rcases hEE.1 with h | h <;> omega),
              if_neg (by rcases hTE.1 with h | h <;> omega), if_neg hbne,
              F4.untouched b (by omega) (by rw [heB]; omega),
              F3.untouched b (by rw [ifSetup_size]; omega) (by omega), hbcl0]
          have hElse3' : st₃.blocks[(startNewBlock (some "Then")
              st).1.blocks.size]? = some ⟨some "Else", [], none⟩ := by
            rw [heB, F3.untouched _ (by rw [ifSetup_size]; omega) (by omega)]
            exact hElse0
          obtain ⟨bbT, hbbT3, hbbTopen⟩ := Frame_target F3 hThen0 rfl
          obtain ⟨bbE, hbbE4, hbbEopen⟩ := Frame_target F4 hElse3' rfl
          have hbbT4 : st₄.blocks[thenEnd]? = some bbT := by
            rw [F4.untouched thenEnd (by omega) hTneB]
            exact hbbT3
          have hbbT5 : (startNewBlock (some "IfJoin") st₄).1.blocks[thenEnd]? =
              some bbT := by
            rw [startNewBlock_blocks, if_neg hTne4]
            exact hbbT4
          have hbbE5 : (startNewBlock (some "IfJoin") st₄).1.blocks[elseEnd]? =
              some bbE := by
            rw [startNewBlock_blocks, if_neg hEne4]
            exact hbbE4
          have hbbE6 : (terminate thenEnd (.goto st₄.blocks.size)
              (startNewBlock (some "IfJoin") st₄).1).blocks[elseEnd]? =
              some bbE := by
            rw [terminate_blocks, if_neg hTEne]
            exact hbbE5
          have hCP4 : ClosedPersist st₄ (ifClose thenEnd elseEnd st₄) := by
            have c1 : ClosedPersist st₄ (startNewBlock (some "IfJoin") st₄).1 :=
              CP_startNewBlock st₄ _
            have c2 : ClosedPersist (startNewBlock (some "IfJoin") st₄).1
                (terminate thenEnd (.goto st₄.blocks.size)
                  (startNewBlock (some "IfJoin") st₄).1) :=
              CP_terminate (OpenAt_of_getElem hbbT5 hbbTopen) _
            have c3 : ClosedPersist (terminate thenEnd (.goto st₄.blocks.size)
                (startNewBlock (some "IfJoin") st₄).1)
                (ifClose thenEnd elseEnd st₄) :=
              CP_terminate (OpenAt_of_getElem hbbE6 hbbEopen) _
            exact CP_trans c1 (CP_trans c2 c3)
          have hAg4 : Agrees G st₄ := Agrees_of_CP hCP4 hAg
          have hAg3 : Agrees G st₃ :=
            Agrees_of_CP (CP_of_Frame F4 (OpenAt_of_getElem hElse3' rfl)) hAg4
          have PostThn := ihl thn extent st.blocks.size (ifSetup b cnd st) st₃
            thenEnd ⟨some "Then", [], none⟩ h3 hThen0 rfl hAg3
          have PostEls := ihl els extent
            (startNewBlock (some "Then") st).1.blocks.size st₃ st₄ elseEnd
            ⟨some "Else", [], none⟩ h4 hElse3' rfl hAg4
          have hbGfin : G[b]? = some ⟨bb0.name, fdrop bb0.stmts,
              some (.ite cnd st.blocks.size (st.blocks.size + 1))⟩ :=
            hAg b _ hbcl (by simp)
          have wrapb : ∀ X, MRun C V G
              (if C env cnd then st.blocks.size else st.blocks.size + 1) env X →
              TailAfter C V G b (fdrop bb0.stmts) env X := fun X hX =>
            ⟨_, [], env, hbGfin, by simp, .nil env, .iteT cnd _ _ env X hX⟩
          simp only [dhead] at hh
          split at hh
          next hC =>
            have PT := PostThn env o e' c hh
            cases c with
            | fall =>
              intro K hK
              have hKj : TailAfter C V G st₄.blocks.size (fdrop []) e' K :=
                hK _ hJoin1
              have hMj : MRun C V G st₄.blocks.size e' K :=
                MRun_of_TailAfter_nil C V G st₄.blocks.size e' K hKj
              have hprem : ∀ bbx, st₃.blocks[thenEnd]? = some bbx →
                  TailAfter C V G thenEnd (fdrop bbx.stmts) e' K := by
                intro bbx hbbx
                have hGT : G[thenEnd]? = some ⟨bbx.name, fdrop bbx.stmts,
                    some (.goto st₄.blocks.size)⟩ :=
                  hAg thenEnd _ (hTfin bbx hbbx) (by simp)
                exact ⟨_, [], e', hGT, by simp, .nil e', .goto _ e' K hMj⟩
              have hTA : TailAfter C V G st.blocks.size
                  (fdrop ([] : List MStmt)) env (o ++ K) := PT K hprem
              have hMth : MRun C V G st.blocks.size env (o ++ K) :=
                MRun_of_TailAfter_nil C V G st.blocks.size env (o ++ K) hTA
              exact wrapb (o ++ K) (by rw [if_pos hC]; exact hMth)
            | brk l =>
              intro ls hls K hM
              have hls2 : findLoopScope l (ifSetup b cnd st) = some ls := by
                rw [findLoopScope_congr (ifSetup_loop_scopes b cnd st) l]
                exact hls
              have hTA : TailAfter C V G st.blocks.size
                  (fdrop ([] : List MStmt)) env (o ++ K) := PT ls hls2 K hM
              have hMth : MRun C V G st.blocks.size env (o ++ K) :=
                MRun_of_TailAfter_nil C V G st.blocks.size env (o ++ K) hTA
              exact wrapb (o ++ K) (by rw [if_pos hC]; exact hMth)
            | cont l =>
              intro ls hls K hM
              have hls2 : findLoopScope l (ifSetup b cnd st) = some ls := by
                rw [findLoopScope_congr (ifSetup_loop_scopes b cnd st) l]
                exact hls
              have hTA : TailAfter C V G st.blocks.size
                  (fdrop ([] : List MStmt)) env (o ++ K) := PT ls hls2 K hM
              have hMth : MRun C V G st.blocks.size env (o ++ K) :=
                MRun_of_TailAfter_nil C V G st.blocks.size env (o ++ K) hTA
              exact wrapb (o ++ K) (by rw [if_pos hC]; exact hMth)
            | retd =>
              have hTA : TailAfter C V G st.blocks.size
                  (fdrop ([] : List MStmt)) env o := PT
              have hMth : MRun C V G st.blocks.size env o :=
                MRun_of_TailAfter_nil C V G st.blocks.size env o hTA
              exact wrapb o (by rw [if_pos hC]; exact hMth)
          next hC =>
            have PE := PostEls env o e' c hh
            have hCf : C env cnd = false := by
              revert hC
              cases C env cnd <;> simp
            cases c with
            | fall =>
              intro K hK
              have hKj : TailAfter C V G st₄.blocks.size (fdrop []) e' K :=
                hK _ hJoin1
              have hMj : MRun C V G st₄.blocks.size e' K :=
                MRun_of_TailAfter_nil C V G st₄.blocks.size e' K hKj
              have hprem : ∀ bbx, st₄.blocks[elseEnd]? = some bbx →
                  TailAfter C V G elseEnd (fdrop bbx.stmts) e' K := by
                intro bbx hbbx
                have hGE : G[elseEnd]? = some ⟨bbx.name, fdrop bbx.stmts,
                    some (.goto st₄.blocks.size)⟩ :=
                  hAg elseEnd _ (hEfin bbx hbbx) (by simp)
                exact ⟨_, [], e', hGE, by simp, .nil e', .goto _ e' K hMj⟩
              have hTA : TailAfter C V G
                  (startNewBlock (some "Then") st).1.blocks.size
                  (fdrop ([] : List MStmt)) env (o ++ K) := PE K hprem
              have hMel : MRun C V G (startNewBlock (some "Then")
                  st).1.blocks.size env (o ++ K) :=
                MRun_of_TailAfter_nil C V G _ env (o ++ K) hTA
              refine wrapb (o ++ K) ?_
              rw [if_neg (by rw [hCf]; simp), ← heB]
              exact hMel
            | brk l =>
              intro ls hls K hM
              have hls2 : findLoopScope l (ifSetup b cnd st) = some ls := by
                rw [findLoopScope_congr (ifSetup_loop_scopes b cnd st) l]
                exact hls
              have hls3 : findLoopScope l st₃ = some ls := by
                rw [findLoopScope_congr F3.loops l]
                exact hls2
              have hTA : TailAfter C V G
                  (startNewBlock (some "Then") st).1.blocks.size
                  (fdrop ([] : List MStmt)) env (o ++ K) := PE ls hls3 K hM
              have hMel : MRun C V G (startNewBlock (some "Then")
                  st).1.blocks.size env (o ++ K) :=
                MRun_of_TailAfter_nil C V G _ env (o ++ K) hTA
              refine wrapb (o ++ K) ?_
              rw [if_neg (by rw [hCf]; simp), ← heB]
              exact hMel
            | cont l =>
              intro ls hls K hM
              have hls2 : findLoopScope l (ifSetup b cnd st) = some ls := by
                rw [findLoopScope_congr (ifSetup_loop_scopes b cnd st) l]
                exact hls
              have hls3 : findLoopScope l st₃ = some ls := by
                rw [findLoopScope_congr F3.loops l]
                exact hls2
              have hTA : TailAfter C V G
                  (startNewBlock (some "Then") st).1.blocks.size
                  (fdrop ([] : List MStmt)) env (o ++ K) := PE ls hls3 K hM
              have hMel : MRun C V G (startNewBlock (some "Then")
                  st).1.blocks.size env (o ++ K) :=
                MRun_of_TailAfter_nil C V G _ env (o ++ K) hTA
              refine wrapb (o ++ K) ?_
              rw [if_neg (by rw [hCf]; simp), ← heB]
              exact hMel
            | retd =>
              have hTA : TailAfter C V G
                  (startNewBlock (some "Then") st).1.blocks.size
                  (fdrop ([] : List MStmt)) env o := PE
              have hMel : MRun C V G (startNewBlock (some "Then")
                  st).1.blocks.size env o :=
                MRun_of_TailAfter_nil C V G _ env o hTA
              refine wrapb o ?_
              rw [if_neg (by rw [hCf]; simp), ← heB]
              exact hMel
        | loopS lbl body =>
          have hrun' := hrun
          rw [fstmt_loopS_eq extent b lbl body st hct] at hrun'
          rcases h3 : fstmts extent st.blocks.size body (loopSetup extent b lbl st)
            with ⟨st₃, bodyEnd⟩
          rw [h3] at hrun'
          have hrun2 : (loopClose bodyEnd st.blocks.size st₃,
              (startNewBlock (some "Loop") st).1.blocks.size) = (st₁, b₁) := hrun'
          cases hrun2
          have hbL : st.blocks.size < (loopSetup extent b lbl st).blocks.size := by
            rw [loopSetup_size]; omega
          have F3 : Frame (loopSetup extent b lbl st) st₃ st.blocks.size
              bodyEnd := by
            have hF := Frame_fstmts body extent st.blocks.size
              (loopSetup extent b lbl st) hbL
            rw [h3] at hF
            exact hF
          have hs3 : st.blocks.size + 2 ≤ st₃.blocks.size := by
            have := F3.size_le
            rw [loopSetup_size] at this
            omega
          have hBE : (bodyEnd = st.blocks.size ∨ st.blocks.size + 2 ≤ bodyEnd) ∧
              bodyEnd < st₃.blocks.size := by
            rcases F3.cur with ⟨rfl, _⟩ | ⟨hge, bb1, hbb1, _⟩
            · exact ⟨Or.inl rfl, by omega⟩
            · rw [loopSetup_size] at hge
              exact ⟨Or.inr hge, lt_size_of_getElem?_some hbb1⟩
          have hLoop0 : (loopSetup extent b lbl st).blocks[st.blocks.size]? =
              some ⟨some "Loop", [], none⟩ := by
            rw [loopSetup_blocks extent b lbl st hb, if_neg (by omega),
              if_neg (by omega), if_pos rfl]
          have hExit0 : (loopSetup extent b lbl st).blocks[st.blocks.size + 1]? =
              some ⟨some "LoopExit", [], none⟩ := by
            rw [loopSetup_blocks extent b lbl st hb, if_neg (by omega), if_pos rfl]
          have hbcl0 : (loopSetup extent b lbl st).blocks[b]? =
              some ⟨bb0.name, bb0.stmts, some (.goto st.blocks.size)⟩ := by
            rw [loopSetup_blocks extent b lbl st hb, if_pos rfl, hbb0]
            rfl
          have hbcl : (loopClose bodyEnd st.blocks.size st₃).blocks[b]? =
              some ⟨bb0.name, bb0.stmts, some (.goto st.blocks.size)⟩ := by
            rw [loopClose_blocks, if_neg (by rcases hBE.1 with h | h <;> omega),
              F3.untouched b (by rw [loopSetup_size]; omega) (by omega), hbcl0]
          have hExit1 : (loopClose bodyEnd st.blocks.size
              st₃).blocks[st.blocks.size + 1]? =
              some ⟨some "LoopExit", [], none⟩ := by
            rw [loopClose_blocks, if_neg (by rcases hBE.1 with h | h <;> omega),
              F3.untouched _ (by rw [loopSetup_size]; omega) (by omega)]
            exact hExit0
          have hBfin : ∀ bbB, st₃.blocks[bodyEnd]? = some bbB →
              (loopClose bodyEnd st.blocks.size st₃).blocks[bodyEnd]? =
                some ⟨bbB.name, bbB.stmts, some (.goto st.blocks.size)⟩ := by
            intro bbB hbbB
            rw [loopClose_blocks, if_pos rfl, hbbB]
            rfl
          obtain ⟨bbB, hbbB3, hbbBopen⟩ := Frame_target F3 hLoop0 rfl
          have hCP3 : ClosedPersist st₃ (loopClose bodyEnd st.blocks.size st₃) := by
            have c1 : ClosedPersist st₃
                (terminate bodyEnd (.goto st.blocks.size) st₃) :=
              CP_terminate (OpenAt_of_getElem hbbB3 hbbBopen) _
            have c2 : ClosedPersist (terminate bodyEnd (.goto st.blocks.size) st₃)
                (loopClose bodyEnd st.blocks.size st₃) :=
              CP_of_blocks_eq rfl
            exact CP_trans c1 c2
          have hAg3 : Agrees G st₃ := Agrees_of_CP hCP3 hAg
          have hLS : (loopSetup extent b lbl st).loop_scopes =
              ⟨lbl, st.blocks.size, st.blocks.size + 1, extent⟩ ::
                st.loop_scopes :=
            loopSetup_loop_scopes extent b lbl st
          have hbGfin : G[b]? = some ⟨bb0.name, fdrop bb0.stmts,
              some (.goto st.blocks.size)⟩ := hAg b _ hbcl (by simp)
          have wrapb : ∀ X, MRun C V G st.blocks.size env X →
              TailAfter C V G b (fdrop bb0.stmts) env X := fun X hX =>
            ⟨_, [], env, hbGfin, by simp, .nil env, .goto _ env X hX⟩
          have extr : ∀ (eX : Env) (X : List Nat),
              TailAfter C V G b (fdrop bb0.stmts) eX X →
              MRun C V G st.blocks.size eX X := fun eX X h =>
            MRun_goto_of_TailAfter C V hbGfin rfl rfl h
          have PB0 := ihl body extent st.blocks.size (loopSetup extent b lbl st)
            st₃ bodyEnd ⟨some "Loop", [], none⟩ h3 hLoop0 rfl hAg3
          have bodyPrem : ∀ (X : List Nat) (eB : Env),
              MRun C V G st.blocks.size eB X → ∀ bbx,
              st₃.blocks[bodyEnd]? = some bbx →
              TailAfter C V G bodyEnd (fdrop bbx.stmts) eB X := by
            intro X eB hMX bbx hbbx
            have hGB : G[bodyEnd]? = some ⟨bbx.name, fdrop bbx.stmts,
                some (.goto st.blocks.size)⟩ :=
              hAg bodyEnd _ (hBfin bbx hbbx) (by simp)
            exact ⟨_, [], eB, hGB, by simp, .nil eB, .goto _ eB X hMX⟩
          rcases dhead_loop_inv C V fuel env lbl body o e' c hh with
            ⟨ob, eb, cb, hdB, hcase⟩
          have PB := PB0 env ob eb cb hdB
          rcases hcase with ⟨htrig, oi, hit, ho⟩ | ⟨hcb, ho, he, hc⟩ |
            ⟨l, hcb, hlbl, ho, he, hc⟩ | ⟨l, hcb, hlbl, ho, he, hc⟩ |
            ⟨l, hcb, hlbl, ho, he, hc⟩ | ⟨hcb, ho, he, hc⟩
          · -- an iteration-triggering body outcome: chain into the restarted loop
            have loopTail : ∀ (X : List Nat), MRun C V G st.blocks.size eb X →
                TailAfter C V G st.blocks.size (fdrop ([] : List MStmt)) env
                  (ob ++ X) := by
              intro X hMX
              rcases htrig with hcb | hcb | ⟨l, hcb, hl⟩
              · subst hcb
                exact PB X (bodyPrem X eb hMX)
              · subst hcb
                exact PB _ (findLoopScope_head hLS) X hMX
              · subst hcb
                exact PB _ (findLoopScope_cons_eq hLS (by simpa using hl)) X hMX
            have loopRun : ∀ X, MRun C V G st.blocks.size eb X →
                MRun C V G st.blocks.size env (ob ++ X) := fun X hMX =>
              MRun_of_TailAfter_nil C V G st.blocks.size env (ob ++ X)
                (loopTail X hMX)
            have PI := ihs (.loopS lbl body) extent b st
              (loopClose bodyEnd st.blocks.size st₃)
              ((startNewBlock (some "Loop") st).1.blocks.size) bb0 hrun hbb0 hop
              hAg eb oi e' c hit
            cases c with
            | fall =>
              intro K hK
              have hMi := extr eb (oi ++ K) (PI K hK)
              rw [ho, List.append_assoc]
              exact wrapb (ob ++ (oi ++ K)) (loopRun (oi ++ K) hMi)
            | brk l =>
              intro ls hls K hM
              have hMi := extr eb (oi ++ K) (PI ls hls K hM)
              rw [ho, List.append_assoc]
              exact wrapb (ob ++ (oi ++ K)) (loopRun (oi ++ K) hMi)
            | cont l =>
              intro ls hls K hM
              have hMi := extr eb (oi ++ K) (PI ls hls K hM)
              rw [ho, List.append_assoc]
              exact wrapb (ob ++ (oi ++ K)) (loopRun (oi ++ K) hMi)
            | retd =>
              have hMi := extr eb oi PI
              rw [ho]
              exact wrapb (ob ++ oi) (loopRun oi hMi)
          · -- the body broke out of this loop: the machine is at LoopExit
            subst hc
            subst he
            subst hcb
            intro K hK
            have hb₁ : (startNewBlock (some "Loop") st).1.blocks.size =
                st.blocks.size + 1 := by rw [startNewBlock_size]
            have hKe : TailAfter C V G (st.blocks.size + 1)
                (fdrop ([] : List MStmt)) e' K := by
              have hx := hK ⟨some "LoopExit", [], none⟩ (by rw [hb₁]; exact hExit1)
              rw [hb₁] at hx
              exact hx
            have hMe : MRun C V G (st.blocks.size + 1) e' K :=
              MRun_of_TailAfter_nil C V G _ e' K hKe
            have hTA := PB _ (findLoopScope_head hLS) K hMe
            have hML : MRun C V G st.blocks.size env (ob ++ K) :=
              MRun_of_TailAfter_nil C V G _ env (ob ++ K) hTA
            rw [ho]
            exact wrapb (ob ++ K) hML
          · -- a labeled break matching this loop
            subst hc
            subst he
            subst hcb
            intro K hK
            have hb₁ : (startNewBlock (some "Loop") st).1.blocks.size =
                st.blocks.size + 1 := by rw [startNewBlock_size]
            have hKe : TailAfter C V G (st.blocks.size + 1)
                (fdrop ([] : List MStmt)) e' K := by
              have hx := hK ⟨some "LoopExit", [], none⟩ (by rw [hb₁]; exact hExit1)
              rw [hb₁] at hx
              exact hx
            have hMe : MRun C V G (st.blocks.size + 1) e' K :=
              MRun_of_TailAfter_nil C V G _ e' K hKe
            have hTA := PB _ (findLoopScope_cons_eq hLS (by simpa using hlbl)) K hMe
            have hML : MRun C V G st.blocks.size env (ob ++ K) :=
              MRun_of_TailAfter_nil C V G _ env (ob ++ K) hTA
            rw [ho]
            exact wrapb (ob ++ K) hML
          · -- a labeled break for an outer loop: propagates
            subst hc
            subst he
            subst hcb
            intro ls hls K hM
            have hfind : findLoopScope (some l) (loopSetup extent b lbl st) =
                some ls := by
              rw [findLoopScope_cons_ne hLS (by simpa using hlbl)]
              exact hls
            have hTA := PB ls hfind K hM
            have hML : MRun C V G st.blocks.size env (ob ++ K) :=
              MRun_of_TailAfter_nil C V G _ env (ob ++ K) hTA
            rw [ho]
            exact wrapb (ob ++ K) hML
          · -- a labeled continue for an outer loop: propagates
            subst hc
            subst he
            subst hcb
            intro ls hls K hM
            have hfind : findLoopScope (some l) (loopSetup extent b lbl st) =
                some ls := by
              rw [findLoopScope_cons_ne hLS (by simpa using hlbl)]
              exact hls
            have hTA := PB ls hfind K hM
            have hML : MRun C V G st.blocks.size env (ob ++ K) :=
              MRun_of_TailAfter_nil C V G _ env (ob ++ K) hTA
            rw [ho]
            exact wrapb (ob ++ K) hML
          · -- the body returned
            subst hc
            subst he
            subst hcb
            have hTA := PB
            have hML : MRun C V G st.blocks.size env ob :=
              MRun_of_TailAfter_nil C V G _ env ob hTA
            rw [ho]
            exact wrapb ob hML
    refine ⟨hstmt, ?_⟩
    intro ss extent b st st' b' bb0 hrun hbb0 hop hAg env o e' c hd
    cases ss with
    | nil =>
      rw [dstep_nil_eq] at hd
      cases hd
      have hrun' : (st, b) = (st', b') := hrun
      cases hrun'
      intro K hK
      have hTA := hK bb0 hbb0
      simpa using hTA
    | cons s rest =>
      have hb : b < st.blocks.size := lt_size_of_getElem?_some hbb0
      have hrun2 : fstmts extent (fstmt extent b s st).2 rest
          (fstmt extent b s st).1 = (st', b') := hrun
      rcases h1 : fstmt extent b s st with ⟨stA, bA⟩
      rw [h1] at hrun2
      have hrun3 : fstmts extent bA rest stA = (st', b') := hrun2
      have F1 : Frame st stA b bA := by
        have hF := Frame_fstmt s extent b st hb
        rw [h1] at hF
        exact hF
      obtain ⟨bbA, hbbA, hopA⟩ := Frame_target F1 hbb0 hop
      have hbA : bA < stA.blocks.size := lt_size_of_getElem?_some hbbA
      have F2 : Frame stA st' bA b' := by
        have hF := Frame_fstmts rest extent bA stA hbA
        rw [hrun3] at hF
        exact hF
      have hAgA : Agrees G stA :=
        Agrees_of_CP (CP_of_Frame F2 (OpenAt_of_getElem hbbA hopA)) hAg
      rcases dstep_cons_inv C V fuel env s rest o e' c hd with
        ⟨o₁, e₁, o₂, hh1, hrest, ho⟩ | ⟨hh1, hcne⟩
      · have hd1 : dstep C V (fuel+1) env (.cons s .nil) = some (o₁, e₁, .fall) :=
          dstep_single_of_head C V fuel env s o₁ e₁ .fall hh1
        have P1 := hstmt s extent b st stA bA bb0 h1 hbb0 hop hAgA env o₁ e₁
          .fall hd1
        have P2 := ihl rest extent bA stA st' b' bbA hrun3 hbbA hopA hAg e₁ o₂
          e' c hrest
        subst ho
        cases c with
        | fall =>
          intro K hK
          have hTA2 : TailAfter C V G bA (fdrop bbA.stmts) e₁ (o₂ ++ K) := P2 K hK
          have hprem1 : ∀ bb1, stA.blocks[bA]? = some bb1 →
              TailAfter C V G bA (fdrop bb1.stmts) e₁ (o₂ ++ K) := by
            intro bb1 hbb1
            rw [hbbA] at hbb1
            cases hbb1
            exact hTA2
          have hTA1 := P1 (o₂ ++ K) hprem1
          rw [List.append_assoc]
          exact hTA1
        | brk l =>
          intro ls hls K hM
          have hlsA : findLoopScope l stA = some ls := by
            rw [findLoopScope_congr F1.loops l]
            exact hls
          have hTA2 := P2 ls hlsA K hM
          have hprem1 : ∀ bb1, stA.blocks[bA]? = some bb1 →
              TailAfter C V G bA (fdrop bb1.stmts) e₁ (o₂ ++ K) := by
            intro bb1 hbb1
            rw [hbbA] at hbb1
            cases hbb1
            exact hTA2
          have hTA1 := P1 (o₂ ++ K) hprem1
          rw [List.append_assoc]
          exact hTA1
        | cont l =>
          intro ls hls K hM
          have hlsA : findLoopScope l stA = some ls := by
            rw [findLoopScope_congr F1.loops l]
            exact hls
          have hTA2 := P2 ls hlsA K hM
          have hprem1 : ∀ bb1, stA.blocks[bA]? = some bb1 →
              TailAfter C V G bA (fdrop bb1.stmts) e₁ (o₂ ++ K) := by
            intro bb1 hbb1
            rw [hbbA] at hbb1
            cases hbb1
            exact hTA2
          have hTA1 := P1 (o₂ ++ K) hprem1
          rw [List.append_assoc]
          exact hTA1
        | retd =>
          have hTA2 : TailAfter C V G bA (fdrop bbA.stmts) e₁ o₂ := P2
          have hprem1 : ∀ bb1, stA.blocks[bA]? = some bb1 →
              TailAfter C V G bA (fdrop bb1.stmts) e₁ o₂ := by
            intro bb1 hbb1
            rw [hbbA] at hbb1
            cases hbb1
            exact hTA2
          exact P1 o₂ hprem1
      · have hd1 : dstep C V (fuel+1) env (.cons s .nil) = some (o, e', c) :=
          dstep_single_of_head C V fuel env s o e' c hh1
        have P1 := hstmt s extent b st stA bA bb0 h1 hbb0 hop hAgA env o e' c hd1
        cases c with
        | fall => exact absurd rfl hcne
        | brk l => exact P1
        | cont l => exact P1
        | retd => exact P1

/-- Direct execution is fuel-irrelevant: two successful runs of the same
list from the same trace agree. -/
theorem dstep_det : ∀ (f1 : Nat) (env : Env) (ss : FStmtList) (o1 : List Nat)
    (e1 : Env) (c1 : Ctl), dstep C V f1 env ss = some (o1, e1, c1) →
    ∀ (f2 : Nat) (o2 : List Nat) (e2 : Env) (c2 : Ctl),
    dstep C V f2 env ss = some (o2, e2, c2) → o1 = o2 ∧ e1 = e2 ∧ c1 = c2 := by
  intro f1
  induction f1 with
  | zero =>
    intro env ss o1 e1 c1 h1 f2 o2 e2 c2 h2
    cases ss with
    | nil =>
      rw [dstep_nil_eq] at h1 h2
      cases h1
      cases h2
      exact ⟨rfl, rfl, rfl⟩
    | cons s rest =>
      rw [dstep_zero_cons] at h1
      cases h1
  | succ f1 ih =>
    intro env ss o1 e1 c1 h1 f2 o2 e2 c2 h2
    cases ss with
    | nil =>
      rw [dstep_nil_eq] at h1 h2
      cases h1
      cases h2
      exact ⟨rfl, rfl, rfl⟩
    | cons s rest =>
      cases f2 with
      | zero =>
        rw [dstep_zero_cons] at h2
        cases h2
      | succ f2 =>
        have hd_det : ∀ o1 e1 c1, dhead C V f1 env s = some (o1, e1, c1) →
            ∀ o2 e2 c2, dhead C V f2 env s = some (o2, e2, c2) →
            o1 = o2 ∧ e1 = e2 ∧ c1 = c2 := by
          intro o1 e1 c1 hh1 o2 e2 c2 hh2
          cases s with
          | pass sid =>
            simp only [dhead] at hh1 hh2
            cases hh1
            cases hh2
            exact ⟨rfl, rfl, rfl⟩
          | yieldS e =>
            simp only [dhead] at hh1 hh2
            cases hh1
            cases hh2
            exact ⟨rfl, rfl, rfl⟩
          | retS sp v =>
            simp only [dhead] at hh1 hh2
            cases hh1
            cases hh2
            exact ⟨rfl, rfl, rfl⟩
          | breakS sp l =>
            simp only [dhead] at hh1 hh2
            cases hh1
            cases hh2
            exact ⟨rfl, rfl, rfl⟩
          | contS sp l =>
            simp only [dhead] at hh1 hh2
            cases hh1
            cases hh2
            exact ⟨rfl, rfl, rfl⟩
          | ifS cnd thn els =>
            simp only [dhead] at hh1 hh2
            cases hC : C env cnd <;> rw [hC] at hh1 hh2 <;> simp at hh1 hh2
            · exact ih env els o1 e1 c1 hh1 f2 o2 e2 c2 hh2
            · exact ih env thn o1 e1 c1 hh1 f2 o2 e2 c2 hh2
          | loopS lbl body =>
            rcases dhead_loop_inv C V f1 env lbl body o1 e1 c1 hh1 with
              ⟨ob1, eb1, cb1, hb1, hc1⟩
            rcases dhead_loop_inv C V f2 env lbl body o2 e2 c2 hh2 with
              ⟨ob2, eb2, cb2, hb2, hc2⟩
            obtain ⟨hoeq, heeq, hceq⟩ :=
              ih env body ob1 eb1 cb1 hb1 f2 ob2 eb2 cb2 hb2
            subst hoeq
            subst heeq
            subst hceq
            rcases hc1 with ⟨ht1, oi1, hit1, ho1⟩ | ⟨hcb1, ho1, he1, hcc1⟩ |
              ⟨l1, hcb1, hl1, ho1, he1, hcc1⟩ |
              ⟨l1, hcb1, hl1, ho1, he1, hcc1⟩ |
              ⟨l1, hcb1, hl1, ho1, he1, hcc1⟩ | ⟨hcb1, ho1, he1, hcc1⟩ <;>
              rcases hc2 with ⟨ht2, oi2, hit2, ho2⟩ | ⟨hcb2, ho2, he2, hcc2⟩ |
                ⟨l2, hcb2, hl2, ho2, he2, hcc2⟩ |
                ⟨l2, hcb2, hl2, ho2, he2, hcc2⟩ |
                ⟨l2, hcb2, hl2, ho2, he2, hcc2⟩ | ⟨hcb2, ho2, he2, hcc2⟩
            · obtain ⟨ho', he', hc'⟩ := ih eb1 (.cons (.loopS lbl body) .nil)
                oi1 e1 c1 hit1 f2 oi2 e2 c2 hit2
              refine ⟨?_, he', hc'⟩
              rw [ho1, ho2, ho']
            all_goals
              clear ih
              try clear hit1
              try clear hit2
              try clear hb1
              try clear hb2
              simp_all
        rcases dstep_cons_inv C V f1 env s rest o1 e1 c1 h1 with
          ⟨p1, q1, r1, hh1, hr1, ho1⟩ | ⟨hh1, hne1⟩ <;>
          rcases dstep_cons_inv C V f2 env s rest o2 e2 c2 h2 with
            ⟨p2, q2, r2, hh2, hr2, ho2⟩ | ⟨hh2, hne2⟩
        · obtain ⟨hp, hq, -⟩ := hd_det p1 q1 .fall hh1 p2 q2 .fall hh2
          subst hp
          subst hq
          obtain ⟨hr, he, hc⟩ := ih q1 rest r1 e1 c1 hr1 f2 r2 e2 c2 hr2
          refine ⟨?_, he, hc⟩
          rw [ho1, ho2, hr]
        · obtain ⟨-, -, hc⟩ := hd_det p1 q1 .fall hh1 o2 e2 c2 hh2
          exact absurd hc.symm hne2
        · obtain ⟨-, -, hc⟩ := hd_det o1 e1 c1 hh1 p2 q2 .fall hh2
          exact absurd hc hne1
        · exact hd_det o1 e1 c1 hh1 o2 e2 c2 hh2

theorem DirectPure_det (env : Env) (s : FStmt) (e1 e2 : Env)
    (h1 : DirectPure C V env s e1) (h2 : DirectPure C V env s e2) : e1 = e2 := by
  obtain ⟨f1, hd1⟩ := h1
  obtain ⟨f2, hd2⟩ := h2
  exact (dstep_det C V f1 env (.cons s .nil) [] e1 .fall hd1 f2 [] e2 .fall hd2).2.1

theorem Replays_det : ∀ (env : Env) (ms : List MStmt) (e1 : Env),
    Replays C V env ms e1 → ∀ e2, Replays C V env ms e2 → e1 = e2 := by
  intro env ms e1 h1
  induction h1 with
  | nil env =>
    intro e2 h2
    cases h2
    rfl
  | exprS env s env' rest env'' hdp hre ih =>
    intro e2 h2
    cases h2 with
    | exprS _ _ env2' _ _ hdp2 hre2 =>
      have he : env' = env2' := DirectPure_det C V env s env' env2' hdp hdp2
      subst he
      exact ih e2 hre2
  | assign env d v rest env'' hre ih =>
    intro e2 h2
    cases h2 with
    | assign _ _ _ _ _ hre2 => exact ih e2 hre2
  | dropS env d rest env'' hre ih =>
    intro e2 h2
    cases h2 with
    | dropS _ _ _ _ hre2 => exact ih e2 hre2

/-- The machine run relation is deterministic: from one state it produces
exactly one output sequence. -/
theorem MRun_det (G : Array BBlock) (b : Nat) (env : Env) (out : List Nat)
    (h : MRun C V G b env out) : ∀ out2, MRun C V G b env out2 → out = out2 :=
  @MRun.rec C V G
    (fun b env out _ => ∀ out2, MRun C V G b env out2 → out = out2)
    (fun t env out _ => ∀ out2, TRun C V G t env out2 → out = out2)
    (fun b env bb env' out hbb _hre htr ih out2 h2 => by
      cases h2 with
      | mk _ _ bb2 env2' _ hbb2 hre2 htr2 =>
        rw [hbb] at hbb2
        cases hbb2
        have he : env' = env2' := Replays_det C V env bb.stmts env' _hre env2' hre2
        subst he
        exact ih out2 htr2)
    (fun t env out _h ih out2 h2 => by
      cases h2 with
      | goto _ _ _ h2' => exact ih out2 h2')
    (fun cc t e env out _h ih out2 h2 => by
      cases h2 with
      | iteT _ _ _ _ _ h2' => exact ih out2 h2')
    (fun v t env out _h ih out2 h2 => by
      cases h2 with
      | suspend _ _ _ out2' h2' => rw [ih out2' h2'])
    (fun env out2 h2 => by
      cases h2
      rfl)
    b env out h

/-- A successful (fuel-bounded) `replay` is a `Replays` derivation. -/
theorem replay_sound : ∀ (fuel : Nat) (env : Env) (ms : List MStmt) (env' : Env),
    replay C V fuel env ms = some env' → Replays C V env ms env' := by
  intro fuel
  induction fuel with
  | zero =>
    intro env ms env' h
    cases ms with
    | nil =>
      rw [show replay C V 0 env [] = some env from rfl] at h
      cases h
      exact .nil env
    | cons m rest =>
      rw [show replay C V 0 env (m :: rest) = none from rfl] at h
      cases h
  | succ fuel ih =>
    intro env ms env' h
    cases ms with
    | nil =>
      rw [show replay C V (fuel+1) env [] = some env from rfl] at h
      cases h
      exact .nil env
    | cons m rest =>
      cases m with
      | exprS s =>
        have h' : (match dstep C V fuel env (.cons s .nil) with
            | some ([], e', .fall) => replay C V fuel e' rest
            | _ => none) = some env' := h
        split at h'
        next e' heq =>
          exact .exprS env s e' rest env' ⟨fuel, heq⟩ (ih e' rest env' h')
        next =>
          cases h'
      | assign d v =>
        have h' : replay C V fuel env rest = some env' := h
        exact .assign env d v rest env' (ih env rest env' h')
      | dropS d =>
        have h' : replay C V fuel env rest = some env' := h
        exact .dropS env d rest env' (ih env rest env' h')

/-- A successful (fuel-bounded) `runBlock` is a complete machine run. -/
theorem runBlock_sound (G : Array BBlock) : ∀ (fuel b : Nat) (env : Env)
    (out : List Nat), runBlock C V G fuel b env = some out →
    MRun C V G b env out := by
  intro fuel
  induction fuel with
  | zero =>
    intro b env out h
    cases h
  | succ fuel ih =>
    intro b env out h
    have h' : (match G[b]? with
        | none => none
        | some bb =>
          match replay C V fuel env bb.stmts with
          | none => none
          | some env' =>
            match bb.term with
            | some (.goto t) => runBlock C V G fuel t env'
            | some (.ite c t e) => runBlock C V G fuel (if C env' c then t else e) env'
            | some (.suspend v t) =>
              (runBlock C V G fuel t env').map (fun r => V env' v :: r)
            | some .retT => some []
            | none => none) = some out := h
    split at h'
    · cases h'
    next bb hGb =>
      split at h'
      · cases h'
      next env' hrep =>
        have hre := replay_sound C V fuel env bb.stmts env' hrep
        split at h'
        next t hterm =>
          exact .mk b env bb env' out hGb hre (hterm ▸ .goto t env' out (ih t env' out h'))
        next cc t e hterm =>
          exact .mk b env bb env' out hGb hre
            (hterm ▸ .iteT cc t e env' out (ih _ env' out h'))
        next v t hterm =>
          rcases Option.map_eq_some'.1 h' with ⟨r, hr, hout⟩
          rw [← hout]
          exact .mk b env bb env' _ hGb hre
            (hterm ▸ .suspend v t env' r (ih t env' r hr))
        next hterm =>
          cases h'
          exact .mk b env bb env' [] hGb hre (hterm ▸ .retT env')
        next hterm =>
          cases h'

/-- The builder state after the opening moves of `construct`: the `Start`
and `End` blocks allocated, the function-level scope pushed. -/
def initSt : BSt :=
  pushScope 0 (startNewBlock (some "End")
    (startNewBlock (some "Start") ⟨#[], [], [], []⟩).1).1

/-- C1: refinement between the synthesized state machine and direct
execution.  For every supported (desugared) function body: if direct,
non-suspending execution of the body from the empty trace terminates —
falling off the end or executing a `return` — with `outs` as the sequence
of values produced at its suspension points (in order), then the machine
`construct` builds has a complete run (`MRun`, the big-step form of the
spec-modelled driver loop of `translate`: one `TRun.suspend` node per
driver invocation that yields an observable output, `TRun.retT` ending the
sequence) from the start state — `MState::State0`, i.e. block
`START_BLOCK` with the same empty trace — whose observable output sequence
is exactly `outs`, in the same order — and `outs` is the only output
sequence any machine run from the start state can produce (`MRun` is
deterministic, and by `runBlock_sound` it subsumes every run of the
executable machine semantics). -/
theorem construct_machine_matches_direct_execution (body : FStmtList)
    (fuel : Nat) (outs : List Nat) (env' : Env) (c : Ctl)
    (hd : dstep C V fuel [] body = some (outs, env', c))
    (hc : c = .fall ∨ c = .retd) :
    MRun C V (construct body).blocks START_BLOCK [] outs ∧
    ∀ outs2, MRun C V (construct body).blocks START_BLOCK [] outs2 →
      outs2 = outs := by
  have hmain : MRun C V (construct body).blocks START_BLOCK [] outs := by
    rcases hB : fstmts 0 START_BLOCK body initSt with ⟨stB, bF⟩
    have hGc : (construct body).blocks = removeDrops (terminate END_BLOCK .retT
        (terminate bF (.goto END_BLOCK) (popScope bF stB))).blocks := by
      have h0 : (construct body).blocks = removeDrops (terminate END_BLOCK .retT
          (terminate (fstmts 0 START_BLOCK body initSt).2 (.goto END_BLOCK)
            (popScope (fstmts 0 START_BLOCK body initSt).2
              (fstmts 0 START_BLOCK body initSt).1))).blocks := rfl
      rw [h0, hB]
    have hStart0 : initSt.blocks[0]? = some ⟨some "Start", [], none⟩ := rfl
    have hEnd0 : initSt.blocks[1]? = some ⟨some "End", [], none⟩ := rfl
    have hsz0 : initSt.blocks.size = 2 := rfl
    have FB : Frame initSt stB START_BLOCK bF := by
      have hF := Frame_fstmts body 0 START_BLOCK initSt (by rw [hsz0]; decide)
      rw [hB] at hF
      exact hF
    obtain ⟨bbF, hbbF, hbFopen⟩ := Frame_target FB hStart0 rfl
    have hbFr : bF = 0 ∨ 2 ≤ bF := by
      rcases FB.cur with ⟨h, _⟩ | ⟨h, _⟩
      · exact Or.inl h
      · rw [hsz0] at h
        exact Or.inr h
    have hbFne1 : bF ≠ 1 := by rcases hbFr with h | h <;> omega
    have hscB : stB.scopes = [⟨0, []⟩] := by
      rw [FB.scopes_eq]
      rfl
    have hpop : (popScope bF stB).blocks = stB.blocks := by
      unfold popScope
      rw [hscB]
      rfl
    have hEndB : stB.blocks[1]? = some ⟨some "End", [], none⟩ := by
      rw [FB.untouched 1 (by rw [hsz0]; omega) (by decide)]
      exact hEnd0
    have hEndF : (terminate END_BLOCK .retT (terminate bF (.goto END_BLOCK)
        (popScope bF stB))).blocks[1]? = some ⟨some "End", [], some .retT⟩ := by
      rw [terminate_blocks, if_pos (show END_BLOCK = 1 from rfl), terminate_blocks,
        if_neg (fun h => hbFne1 h), hpop, hEndB]
      rfl
    have hE : EndOK (removeDrops (terminate END_BLOCK .retT
        (terminate bF (.goto END_BLOCK) (popScope bF stB))).blocks) := by
      refine ⟨some "End", ?_⟩
      rw [removeDrops_getElem?, hEndF]
      rfl
    have hAgF : Agrees (removeDrops (terminate END_BLOCK .retT
        (terminate bF (.goto END_BLOCK) (popScope bF stB))).blocks)
        (terminate END_BLOCK .retT (terminate bF (.goto END_BLOCK)
          (popScope bF stB))) := Agrees_removeDrops _
    have hop1 : (terminate bF (.goto END_BLOCK)
        (popScope bF stB)).blocks[1]? = some ⟨some "End", [], none⟩ := by
      rw [terminate_blocks, if_neg (fun h => hbFne1 h), hpop]
      exact hEndB
    have hAgB : Agrees (removeDrops (terminate END_BLOCK .retT
        (terminate bF (.goto END_BLOCK) (popScope bF stB))).blocks) stB := by
      have c0 : ClosedPersist stB (popScope bF stB) := CP_of_blocks_eq hpop
      have c1 : ClosedPersist (popScope bF stB)
          (terminate bF (.goto END_BLOCK) (popScope bF stB)) :=
        CP_terminate (OpenAt_of_getElem (by rw [hpop]; exact hbbF) hbFopen) _
      have c2 : ClosedPersist (terminate bF (.goto END_BLOCK) (popScope bF stB))
          (terminate END_BLOCK .retT (terminate bF (.goto END_BLOCK)
            (popScope bF stB))) :=
        CP_terminate (OpenAt_of_getElem hop1 rfl) _
      exact Agrees_of_CP (CP_trans c0 (CP_trans c1 c2)) hAgF
    have PostB := (sim_main C V _ hE fuel).2 body 0 START_BLOCK initSt stB bF
      ⟨some "Start", [], none⟩ hB hStart0 rfl hAgB [] outs env' c hd
    have hprem : ∀ bb1, stB.blocks[bF]? = some bb1 →
        TailAfter C V (removeDrops (terminate END_BLOCK .retT
          (terminate bF (.goto END_BLOCK) (popScope bF stB))).blocks) bF
          (fdrop bb1.stmts) env' [] := by
      intro bb1 hbb1
      have hbFfin : (terminate END_BLOCK .retT (terminate bF (.goto END_BLOCK)
          (popScope bF stB))).blocks[bF]? =
          some ⟨bb1.name, bb1.stmts, some (.goto END_BLOCK)⟩ := by
        rw [terminate_blocks, if_neg (fun h => hbFne1 h.symm), terminate_blocks,
          if_pos rfl, hpop, hbb1]
        rfl
      have hGbF : (removeDrops (terminate END_BLOCK .retT
          (terminate bF (.goto END_BLOCK) (popScope bF stB))).blocks)[bF]? =
          some ⟨bb1.name, fdrop bb1.stmts, some (.goto END_BLOCK)⟩ := by
        rw [removeDrops_getElem?, hbFfin]
        rfl
      exact ⟨_, [], env', hGbF, by simp, .nil env',
        .goto END_BLOCK env' [] (MRun_end C V _ hE env')⟩
    rw [hGc]
    rcases hc with rfl | rfl
    · have hTA := PostB [] hprem
      have hM := MRun_of_TailAfter_nil C V _ START_BLOCK [] (outs ++ []) hTA
      simpa using hM
    · exact MRun_of_TailAfter_nil C V _ START_BLOCK [] outs PostB

  exact ⟨hmain, fun outs2 h2 =>
    (MRun_det C V (construct body).blocks START_BLOCK [] outs hmain outs2
      h2).symm⟩

/-- Witness for C1: the one-yield body `yield_!(7)` directly produces the
output sequence `[7]`, and the synthesized machine runs from the start
block to `Return` producing exactly `[7]`. -/
theorem construct_machine_matches_direct_execution_witness :
    MRun (fun _ _ => true) (fun _ v => v)
      (construct (.cons (.yieldS 7) .nil)).blocks START_BLOCK [] [7] ∧
    ∀ outs2, MRun (fun _ _ => true) (fun _ v => v)
      (construct (.cons (.yieldS 7) .nil)).blocks START_BLOCK [] outs2 →
      outs2 = [7] :=
  construct_machine_matches_direct_execution (fun _ _ => true) (fun _ v => v)
    (.cons (.yieldS 7) .nil) 3 [7] [] .fall rfl (Or.inl rfl)

end SimSem

end MarBuild

/-- C5 (counterexample): an unlabeled `continue;` translated by the cfg
builder while no loop is open `unwrap`s the empty unlabeled loop stack:
the process panics instead of reporting an error at the jump's location
(and a labeled `break` panics as unimplemented). -/
theorem cfg_jump_outside_loop_counterexample :
    (Cfg.stmt_semiC (.again none) 0 [] ⟨#[.bb "Entry" [] []], [], [], [], []⟩ =
      .error (.panicked "called Option::unwrap() on a None value")) ∧
    (Cfg.stmt_semiC (.brk (some "outer")) 0 [] ⟨#[.bb "Entry" [] []], [], [], [], []⟩ =
      .error (.panicked "cannot handle labeled breaks yet")) ∧
    ∀ r, Cfg.stmt_semiC (.again none) 0 [] ⟨#[.bb "Entry" [] []], [], [], [], []⟩ ≠
      .ok r := by
  have h1 : Cfg.stmt_semiC (.again none) 0 [] ⟨#[.bb "Entry" [] []], [], [], [], []⟩ =
      .error (.panicked "called Option::unwrap() on a None value") := by
    rw [Cfg.stmt_semiC.eq_def]
    simp [Cfg.getSt, Cfg.panicM, Bind.bind]
  refine ⟨h1, ?_, fun r hr => by rw [h1] at hr; exact Except.noConfusion hr⟩
  rw [Cfg.stmt_semiC.eq_def]
  rfl

/-- C5 (amended): in the cfg builder, an unlabeled `break`/`continue`
resolves to the top entry of the unlabeled loop stack (exit/entry
respectively) — but with no loop open the `unwrap` of the empty stack
panics, and any labeled `break`/`continue` panics as unimplemented, with
no located diagnostic.  In the mar builder (`break_or_continue` of
expr/stmt.rs), a jump while no loop is open records `cannot break outside
of a loop` at the jump's span, and a resolved jump exits to the target
selected from the found loop scope — the innermost scope (no label) or
the innermost scope carrying the label. -/
theorem jump_resolution_and_errors :
    (∀ (st : Cfg.CfgSt) (pred : Nat) (scope : List String) (en ex : Nat)
      (nm : String) (ds : List String) (ss : List Cfg.GStmt),
      st.unlabeledLoopStack.getLast? = some (en, ex) →
      st.graph[pred]? = some (.bb nm ds ss) →
      (Cfg.stmt_semiC (.again none) pred scope st =
        .ok ({ st with
          edges := st.edges ++ [(pred, en)],
          graph := st.graph.modify pred fun _ => .bb nm ds (ss ++ [.goto en]) }, pred)) ∧
      (Cfg.stmt_semiC (.brk none) pred scope st =
        .ok ({ st with
          edges := st.edges ++ [(pred, ex)],
          graph := st.graph.modify pred fun _ => .bb nm ds (ss ++ [.goto ex]) }, pred))) ∧
    (∀ (st : Cfg.CfgSt) (pred : Nat) (scope : List String),
      st.unlabeledLoopStack = [] →
      (Cfg.stmt_semiC (.again none) pred scope st =
        .error (.panicked "called Option::unwrap() on a None value")) ∧
      (Cfg.stmt_semiC (.brk none) pred scope st =
        .error (.panicked "called Option::unwrap() on a None value"))) ∧
    (∀ (st : Cfg.CfgSt) (pred : Nat) (scope : List String) (l : String),
      (Cfg.stmt_semiC (.again (some l)) pred scope st =
        .error (.panicked "cannot handle labeled continues yet")) ∧
      (Cfg.stmt_semiC (.brk (some l)) pred scope st =
        .error (.panicked "cannot handle labeled breaks yet"))) ∧
    (∀ (st : MarBuild.BSt) (sp : Nat) (lbl : Option Nat) (b : Nat)
      (sel : MarBuild.LoopScope → Nat),
      MarBuild.isInsideLoop st = false →
      (MarBuild.breakOrContinue sp lbl b sel st).1.errors =
        st.errors ++ [⟨sp, "cannot break outside of a loop"⟩]) ∧
    (∀ (st : MarBuild.BSt) (sp : Nat) (lbl : Option Nat) (b : Nat)
      (sel : MarBuild.LoopScope → Nat) (ls : MarBuild.LoopScope) (bb : MarBuild.BBlock),
      MarBuild.isInsideLoop st = true →
      MarBuild.findLoopScope lbl st = some ls →
      st.blocks[b]? = some bb →
      (MarBuild.breakOrContinue sp lbl b sel st).1.blocks[b]? =
        some { bb with
          stmts := bb.stmts ++
            (((MarBuild.scopesUpTo ls.extent st.scopes).map
              MarBuild.Scope.drops).flatten).map MarBuild.MStmt.dropS,
          term := some (.goto (sel ls)) } ∧
      (MarBuild.breakOrContinue sp lbl b sel st).1.errors = st.errors ∧
      (MarBuild.breakOrContinue sp lbl b sel st).2 = st.blocks.size) := by
  refine ⟨?_, ?_, ?_, ?_, ?_⟩
  · intro st pred scope en ex nm ds ss hstack hpred
    constructor
    · rw [Cfg.stmt_semiC.eq_def]
      simp [Cfg.getSt, Bind.bind, hstack, Cfg.gotoC, Cfg.add_edge, Cfg.add_stmt, hpred]
      rfl
    · rw [Cfg.stmt_semiC.eq_def]
      simp [Cfg.getSt, Bind.bind, hstack, Cfg.gotoC, Cfg.add_edge, Cfg.add_stmt, hpred]
      rfl
  · intro st pred scope hstack
    constructor
    · rw [Cfg.stmt_semiC.eq_def]
      simp [Cfg.getSt, Cfg.panicM, Bind.bind, hstack]
    · rw [Cfg.stmt_semiC.eq_def]
      simp [Cfg.getSt, Cfg.panicM, Bind.bind, hstack]
  · intro st pred scope l
    constructor
    · rw [Cfg.stmt_semiC.eq_def]
      rfl
    · rw [Cfg.stmt_semiC.eq_def]
      rfl
  · intro st sp lbl b sel h
    have hnil := MarBuild.loop_scopes_nil_of_not_inside st h
    unfold MarBuild.breakOrContinue
    rw [h]
    simp only [Bool.false_eq_true, if_false]
    have hfind : MarBuild.findLoopScope lbl (MarBuild.spanErr sp
        "cannot break outside of a loop" st) = none := by
      unfold MarBuild.findLoopScope MarBuild.spanErr
      cases lbl <;> simp [hnil]
    rw [hfind]
    have hin2 : MarBuild.isInsideLoop
        (MarBuild.spanErr sp "cannot break outside of a loop" st) = false := by
      unfold MarBuild.isInsideLoop MarBuild.spanErr
      simp [hnil]
    rw [hin2]
    simp [MarBuild.spanErr]
  · intro st sp lbl b sel ls bb hin hfind hbb
    have hblt : b < st.blocks.size := MarBuild.lt_size_of_getElem?_some hbb
    have hne : b ≠ st.blocks.size := by omega
    unfold MarBuild.breakOrContinue
    rw [hin]
    simp only [if_true]
    rw [hfind]
    refine ⟨?_, ?_, ?_⟩
    · simp only [MarBuild.startNewBlock_blocks, MarBuild.exitScope_size,
        MarBuild.exitScope_blocks, MarBuild.exitScope_scopes, hbb]
      simp [hne]
    · simp only [MarBuild.startNewBlock_errors, MarBuild.exitScope_errors]
    · simp only [MarBuild.startNewBlock_snd, MarBuild.exitScope_size]

namespace Desugar

/-!
Embedding of the for-loop desugaring in `src/mar/build/expr.rs`
(lines 85-169, the `ExprKind::ForLoop` arm), over the 2016 libsyntax
shapes the aster builder constructs there.
-/

/-- A path: global flag and segments. -/
structure NPath where
  global : Bool
  segments : List String

mutual
/-- Expressions built/consumed by the desugaring. -/
inductive NExpr where
  | pathE (p : NPath)
  | idE (name : String)
  | call (f : NExpr) (args : List NExpr)
  | methodCall (name : String) (recv : NExpr) (args : List NExpr)
  | blockE (b : NBlock)
  | loopE (body : NBlock) (lbl : Option String)
  | matchE (discr : NExpr) (arms : List NArm)
  | breakE (lbl : Option String)
  | forLoop (pat : NPat) (iter : NExpr) (body : NBlock) (lbl : Option String)

/-- A match arm: patterns, optional guard, body. -/
inductive NArm where
  | mk (pats : List NPat) (guard : Option NExpr) (body : NExpr)

/-- Patterns. -/
inductive NPat where
  | idP (name : String)
  | enumP (path : NPath) (args : List NPat)
  | pathP (path : NPath)
  | wild

/-- Blocks. -/
inductive NBlock where
  | mk (stmts : List NStmt)

/-- Statements. -/
inductive NStmt where
  | letS (isMut : Bool) (pat : NPat) (init : NExpr)
  | exprSt (e : NExpr)
end

/-- The desugared form the `ForLoop` arm constructs (following the aster
builder calls at expr.rs lines 97-167 in their order):

```
{
    let mut __stateful_iter = ::std::iter::IntoIterator::into_iter($expr);
    'label: loop {
        match __stateful_iter.next() {
            ::std::option::Option::Some($pat) => $loop_block,
            ::std::option::Option::None => break,
        }
    }
}
```

The arm then re-enters `self.expr` on this rewritten tree, so the result
is translated by the ordinary loop/match rules. -/
def desugarFor (pat : NPat) (iterExpr : NExpr) (loopBlock : NBlock)
    (lbl : Option String) : NExpr :=
  let intoIter : NExpr :=
    .call (.pathE ⟨true, ["std", "iter", "IntoIterator", "into_iter"]⟩) [iterExpr]
  let iterNext : NExpr := .methodCall "next" (.idE "__stateful_iter") []
  let somePat : NPat := .enumP ⟨true, ["std", "option", "Option", "Some"]⟩ [pat]
  let someArm : NArm := .mk [somePat] none (.blockE loopBlock)
  let nonePat : NPat := .pathP ⟨true, ["std", "option", "Option", "None"]⟩
  let noneArm : NArm := .mk [nonePat] none (.breakE none)
  let matchExpr : NExpr := .matchE iterNext [someArm, noneArm]
  let loopExpr : NExpr := .loopE (.mk [.exprSt matchExpr]) lbl
  let iterStmt : NStmt := .letS true (.idP "__stateful_iter") intoIter
  .blockE (.mk [iterStmt, .exprSt loopExpr])

/-- The claim's shape, written from the spec's words: a block that binds a
hidden mutable iterator local to the conversion of the iterable through
`IntoIterator::into_iter`, followed by
`loop { match iter.next() { Some(pat) => body, None => break } }`, with
any loop label preserved on the generated loop. -/
def claimFor (pat : NPat) (iterable : NExpr) (body : NBlock)
    (lbl : Option String) : NExpr :=
  .blockE (.mk
    [.letS true (.idP "__stateful_iter")
      (.call (.pathE ⟨true, ["std", "iter", "IntoIterator", "into_iter"]⟩)
        [iterable]),
     .exprSt (.loopE (.mk
       [.exprSt (.matchE (.methodCall "next" (.idE "__stateful_iter") [])
         [.mk [.enumP ⟨true, ["std", "option", "Option", "Some"]⟩ [pat]] none
            (.blockE body),
          .mk [.pathP ⟨true, ["std", "option", "Option", "None"]⟩] none
            (.breakE none)])]) lbl)])

/-- C6: for every for-loop `for pat in iterable { body }` (with any
label), the desugaring the `ForLoop` arm produces is exactly the claim's
shape — hidden mutable `__stateful_iter` bound to
`IntoIterator::into_iter(iterable)`, then the labeled
`loop { match __stateful_iter.next() { Some(pat) => body, None => break } }`
— and it is this tree that the arm hands back to `expr` for the ordinary
loop/match translation rules. -/
theorem for_loop_desugaring (pat : NPat) (iterable : NExpr) (body : NBlock)
    (lbl : Option String) :
    desugarFor pat iterable body lbl = claimFor pat iterable body lbl := rfl

end Desugar

namespace MarStmt

/-!
Embedding of the `let`/shadowing handling of `src/mar/build/stmt.rs`
(`local`, lines 49-119, and `alias`, lines 121-141), in the old design's
`Statement::Let` representation.

Restrictions and modelled parts: the initializer is translated by
`self.expr`, which for a transition-free initializer is the passthrough
push (`into`) returning the same block — only this `block == block2` path
is embedded (the other branch relocates the initializer statement across
blocks).  `get_decls_from_pat`, `find_decl` and `schedule_drop` live in
files absent from src and are modelled from spec §4.3: a pattern binding
registers a fresh declaration; `find_decl` finds the innermost live
declaration with the given name; `schedule_drop` registers the new
declaration as live (with its deferred unshadow obligation).
-/

/-- Initializer expressions: an identifier or an opaque expression. -/
inductive SExprM where
  | idE (name : String)
  | opaqueE (k : Nat)
deriving DecidableEq, Repr

/-- Patterns: a single binding. -/
inductive SPat where
  | idP (name : String)
deriving DecidableEq, Repr

/-- Old-design statements stored in blocks: verbatim expression
statements and `Statement::Let { pat, ty, init }`. -/
inductive StatementM where
  | exprM (e : SExprM)
  | letM (pat : SPat) (ty : Option Nat) (init : Option SExprM)
deriving DecidableEq, Repr

/-- Builder state: block statement lists, the `var_decls` table
(`VarDeclData`: the declared identifier), and the live-declaration stack
(innermost first; modelled scope tracker). -/
structure StCtx where
  blocks : Array (List StatementM)
  var_decls : Array String
  live : List Nat
deriving Repr

/-- Append a statement to a block (`cfg.push`). -/
def pushB (b : Nat) (s : StatementM) (st : StCtx) : StCtx :=
  { st with blocks := st.blocks.modify b fun l => l ++ [s] }

/-- Pop the last statement of a block (`statements.pop()`). -/
def popLast (b : Nat) (st : StCtx) : StCtx × Option StatementM :=
  match st.blocks[b]? with
  | none => (st, none)
  | some ss =>
    ({ st with blocks := st.blocks.modify b fun l => l.dropLast }, ss.getLast?)

/-- Modelled from the spec: `get_decls_from_pat` — register a fresh
declaration for the pattern's binding, returning its index. -/
def addVarDecl (x : String) (st : StCtx) : StCtx × Nat :=
  ({ st with var_decls := st.var_decls.push x }, st.var_decls.size)

/-- Modelled from the spec: `find_decl` — the innermost live declaration
with the given name, if any. -/
def find_decl (x : String) (st : StCtx) : Option Nat :=
  st.live.find? fun i => st.var_decls[i]?.getD "" == x

/-- Modelled from the spec: `schedule_drop` — the new declaration becomes
live (its drop and unshadow obligations attach to the enclosing extent). -/
def scheduleDrop (decl : Nat) (st : StCtx) : StCtx :=
  { st with live := decl :: st.live }

/-- `alias` (stmt.rs lines 121-141): push
`let <ident>_shadowed_<decl-index> = <ident>;` into the current block,
keeping the shadowed declaration's value reachable. -/
def aliasStmt (block : Nat) (_sp : Nat) (decl : Nat) (st : StCtx) : StCtx × String :=
  let lvalue := st.var_decls[decl]?.getD ""
  let aliasName := lvalue ++ "_shadowed_" ++ toString decl
  let st := pushB block (.letM (.idP aliasName) none (some (.idE lvalue))) st
  (st, aliasName)

/-- `local` (stmt.rs lines 49-119) on the `block == block2` path: translate
the (transition-free) initializer into the block, pop it back off as the
`init` statement, then for the pattern's binding: register the fresh
declaration, alias any shadowed live declaration of the same name *before*
anything else is pushed, schedule the drop/unshadow, and finally push the
new binding's `Let` statement. -/
def localStmt (block : Nat) (sp : Nat) (pat : SPat) (ty : Option Nat)
    (init : SExprM) (st : StCtx) : StCtx × Nat :=
  let st2 := pushB block (.exprM init) st
  let (st3, initStmt) := popLast block st2
  let initE : Option SExprM :=
    match initStmt with
    | some (.exprM e) => some e
    | _ => none
  match pat with
  | .idP x =>
    let (st4, decl) := addVarDecl x st3
    let st5 :=
      match find_decl x st4 with
      | some shadowed => (aliasStmt block sp shadowed st4).1
      | none => st4
    let st6 := scheduleDrop decl st5
    let st7 := pushB block (.letM pat ty initE) st6
    (st7, block)

theorem pushB_blocks (b : Nat) (s : StatementM) (st : StCtx) (j : Nat) :
    (pushB b s st).blocks[j]? =
      if b = j then (st.blocks[j]?).map (fun l => l ++ [s]) else st.blocks[j]? := by
  simp [pushB, Array.getElem?_modify]

@[simp] theorem pushB_var_decls (b : Nat) (s : StatementM) (st : StCtx) :
    (pushB b s st).var_decls = st.var_decls := rfl

@[simp] theorem pushB_live (b : Nat) (s : StatementM) (st : StCtx) :
    (pushB b s st).live = st.live := rfl

@[simp] theorem scheduleDrop_blocks (decl : Nat) (st : StCtx) :
    (scheduleDrop decl st).blocks = st.blocks := rfl

theorem find?_congr_on {α : Type} (l : List α) (p q : α → Bool)
    (h : ∀ a ∈ l, p a = q a) : l.find? p = l.find? q := by
  induction l with
  | nil => rfl
  | cons a l ih =>
    rw [List.find?_cons, List.find?_cons, h a (by simp)]
    split <;> simp_all

/-- C7: when a new binding of `x` shadows a live declaration `d` of `x`,
`local` pushes the alias statement
`let <x>_shadowed_<d> = <x>;` into the current block, and pushes it
strictly before the new declaration's own `Let` statement: the block ends
with exactly `[alias-let, new-let]` in that order (the initializer's
temporary statement having been popped back off into the new `Let`). -/
theorem shadowing_alias_emitted_before_rebinding
    (st : StCtx) (block sp d : Nat) (x : String) (ty : Option Nat)
    (init : SExprM) (ss : List StatementM)
    (hbb : st.blocks[block]? = some ss)
    (hfind : find_decl x st = some d)
    (hvd : st.var_decls[d]? = some x)
    (hlive : ∀ i ∈ st.live, i < st.var_decls.size) :
    (localStmt block sp (.idP x) ty init st).1.blocks[block]? =
      some (ss ++
        [.letM (.idP (x ++ "_shadowed_" ++ toString d)) none (some (.idE x)),
         .letM (.idP x) ty (some init)]) ∧
    (localStmt block sp (.idP x) ty init st).2 = block := by
  have hd : d < st.var_decls.size := by
    by_contra h
    rw [Array.getElem?_eq_none_iff.2 (by omega)] at hvd
    exact Option.noConfusion hvd
  -- the initializer goes in and comes back out
  have h2 : (pushB block (.exprM init) st).blocks[block]? =
      some (ss ++ [.exprM init]) := by
    rw [pushB_blocks]
    simp [hbb]
  -- find_decl is unchanged by registering the fresh declaration
  have hfindPres : ∀ st4 : StCtx, st4.live = st.live →
      st4.var_decls = st.var_decls.push x → find_decl x st4 = some d := by
    intro st4 hl hv
    unfold find_decl
    rw [hl, hv, ← hfind]
    unfold find_decl
    apply find?_congr_on
    intro i hi
    rw [Array.getElem?_push_lt _ _ _ (hlive i hi),
      Array.getElem?_eq_getElem (hlive i hi)]
  constructor
  · unfold localStmt
    simp only [popLast, h2]
    rw [List.getLast?_concat]
    simp only [addVarDecl]
    rw [hfindPres
      ⟨(pushB block (.exprM init) st).blocks.modify block fun l => l.dropLast,
        (pushB block (.exprM init) st).var_decls.push x,
        (pushB block (.exprM init) st).live⟩ rfl rfl]
    simp only [aliasStmt, pushB_var_decls]
    have hvd' : st.var_decls[d] = x := by
      rw [Array.getElem?_eq_getElem hd] at hvd
      exact Option.some.inj hvd
    rw [Array.getElem?_push_lt _ _ _ hd]
    simp only [hvd', Option.getD_some]
    simp only [pushB_blocks, scheduleDrop_blocks, Array.getElem?_modify, h2]
    simp [hbb, List.dropLast_concat]
  · unfold localStmt
    simp only [popLast, h2]
    try rfl

/-- Witness for C7: `let x = 1;` (live declaration 0) followed by a
shadowing `let x = ...;` in block 0 — the alias `let x_shadowed_0 = x;` is
pushed strictly before the new binding's `Let`. -/
theorem shadowing_alias_witness :
    (find_decl "x" ⟨#[[]], #["x"], [0]⟩ = some 0) ∧
    (localStmt 0 5 (.idP "x") none (.opaqueE 9) ⟨#[[]], #["x"], [0]⟩).1.blocks[0]? =
      some [.letM (.idP "x_shadowed_0") none (some (.idE "x")),
            .letM (.idP "x") none (some (.opaqueE 9))] :=
  ⟨rfl, by
    have h := (shadowing_alias_emitted_before_rebinding ⟨#[[]], #["x"], [0]⟩ 0 5 0
      "x" none (.opaqueE 9) [] rfl rfl rfl (by decide)).1
    rw [h]
    rfl⟩

end MarStmt

/-- Witness for the amended C5 theorem, exercising the cfg resolution, the
cfg panics, the mar diagnostic and the mar resolution at concrete
inputs. -/
theorem jump_resolution_and_errors_witness :
    (Cfg.stmt_semiC (.again none) 0 []
        ⟨#[.bb "Entry" [] []], [], [], [(2, 3)], []⟩ =
      .ok (⟨#[.bb "Entry" [] [.goto 2]], [(0, 2)], [], [(2, 3)], []⟩, 0)) ∧
    (Cfg.stmt_semiC (.brk none) 0 [] ⟨#[.bb "Entry" [] []], [], [], [], []⟩ =
      .error (.panicked "called Option::unwrap() on a None value")) ∧
    ((MarBuild.breakOrContinue 7 none 0 (fun ls => ls.break_block)
        ⟨#[⟨some "Start", [], none⟩], [], [], []⟩).1.errors =
      [⟨7, "cannot break outside of a loop"⟩]) ∧
    ((MarBuild.breakOrContinue 7 none 0 (fun ls => ls.break_block)
        ⟨#[⟨some "Start", [], none⟩], [⟨none, 2, 3, 0⟩], [], []⟩).1.blocks[0]? =
      some ⟨some "Start", [], some (.goto 3)⟩) := by
  refine ⟨?_, ?_, ?_, ?_⟩
  · have h := (jump_resolution_and_errors.1
      ⟨#[.bb "Entry" [] []], [], [], [(2, 3)], []⟩ 0 [] 2 3 "Entry" [] []
      rfl rfl).1
    rw [h]
    rfl
  · exact (jump_resolution_and_errors.2.1 ⟨#[.bb "Entry" [] []], [], [], [], []⟩
      0 [] rfl).2
  · have h := jump_resolution_and_errors.2.2.2.1
      ⟨#[⟨some "Start", [], none⟩], [], [], []⟩ 7 none 0
      (fun ls => ls.break_block) rfl
    rw [h]
    rfl
  · have h := (jump_resolution_and_errors.2.2.2.2
      ⟨#[⟨some "Start", [], none⟩], [⟨none, 2, 3, 0⟩], [], []⟩ 7 none 0
      (fun ls => ls.break_block) ⟨none, 2, 3, 0⟩ ⟨some "Start", [], none⟩
      rfl rfl rfl).1
    rw [h]
    rfl

